import Mathlib

/-!
# Verification of the in-memory limit order book, matching engine and risk gate

A shallow embedding of the core trading subsystem:

* `src/src/lob/order_book.py` — `Order`, `Fill`, `LimitOrderBook` with
  `add_order`, `_match_market_order`, `_add_limit_order`, `cancel_order`;
* `src/src/risk/risk_manager.py` — `RiskLimits`, `ClientRiskState`,
  `RiskManager.validate_order` / `update_position` and the individual checks.

Modelling conventions:

* Python floats are modelled as exact rationals (`ℚ`); order sizes are `ℤ`
  (Python `int`).
* String ids (`order_id`, `client_id` — uuid4 strings in the source) are `ℕ`;
  uuid uniqueness becomes an explicit freshness hypothesis where needed.
* `time.time()` is modelled by an ambient read-out function `timeSrc : ℕ → ℚ`
  together with a per-book counter `clock`: each call to the wall clock reads
  `timeSrc clock` and bumps the counter.  Nothing is assumed about `timeSrc`.
* Python `dict` / `defaultdict(deque)` become association lists; the source
  always walks price levels through `sorted(keys)`, so binding order is
  irrelevant.  `Fill.trade_id` (a fresh uuid4, read by no logic in the core)
  is omitted.
* The source mutates `Order` objects that are aliased by the `orders` index;
  the model threads the taker order as a value and writes it back into the
  index at the end of each public operation, which gives the same final
  states because a freshly minted taker id is referenced by no book queue.
* The one `while` loop (`_match_market_order`'s inner queue walk) is embedded
  with a fuel argument; the public entry points pass fuel that dominates the
  loop's variant (queue length, then remaining size), so the fuel never runs
  out on the states reachable by the engine.
-/

namespace LobModel

abbrev OrderId := ℕ
abbrev ClientId := ℕ

/-- `side` field of an order: the strings "buy" / "sell" in the source. -/
inductive Side where
  | buy
  | sell
deriving DecidableEq

def Side.opposite : Side → Side
  | .buy => .sell
  | .sell => .buy

/-- `type` field of an order: the strings "limit" / "market" in the source. -/
inductive OKind where
  | limit
  | market
deriving DecidableEq

/-- `status` field: the status strings used by `order_book.py`. -/
inductive OStatus where
  | pending
  | active
  | partially_filled
  | filled
  | canceled
  | rejected
deriving DecidableEq

/-- `Order` dataclass of `order_book.py`. -/
structure Order where
  order_id : OrderId
  client_id : ClientId
  side : Side
  type : OKind
  price : Option ℚ := none
  size : ℤ := 0
  remaining_size : ℤ := 0
  timestamp : ℚ := 0
  status : OStatus := .pending
deriving DecidableEq

/-- `Fill` dataclass of `order_book.py` (`trade_id`, a fresh uuid read by no
logic, is omitted). -/
structure Fill where
  order_id : OrderId
  client_id : ClientId
  side : Side
  price : ℚ
  size : ℤ
  timestamp : ℚ
deriving DecidableEq

/-- One price level: the deque of `(order_id, size)` pairs. -/
abbrev Level := List (OrderId × ℤ)

/-- One side of the book: the mapping price → deque, as an association list. -/
abbrev Ladder := List (ℚ × Level)

/-- Dict lookup on a book side. -/
def findLevel : Ladder → ℚ → Option Level
  | [], _ => none
  | (p, q) :: rest, x => if p = x then some q else findLevel rest x

/-- Dict assignment on a book side (replace the binding, or append a new one). -/
def setLevel : Ladder → ℚ → Level → Ladder
  | [], x, q => [(x, q)]
  | (p, q0) :: rest, x, q => if p = x then (x, q) :: rest else (p, q0) :: setLevel rest x q

/-- `del book[price]`. -/
def eraseLevel : Ladder → ℚ → Ladder
  | [], _ => []
  | (p, q0) :: rest, x => if p = x then rest else (p, q0) :: eraseLevel rest x

/-- `book.keys()`. -/
def ladderKeys (b : Ladder) : List ℚ := b.map Prod.fst

/-- Order-index lookup (`self.orders.get` / `in self.orders`). -/
def findOrder : List (OrderId × Order) → OrderId → Option Order
  | [], _ => none
  | (i, o) :: rest, x => if i = x then some o else findOrder rest x

/-- Order-index assignment `self.orders[order_id] = order`. -/
def setOrder : List (OrderId × Order) → OrderId → Order → List (OrderId × Order)
  | [], x, o => [(x, o)]
  | (i, o0) :: rest, x, o => if i = x then (x, o) :: rest else (i, o0) :: setOrder rest x o

/-- Insertion step for `sorted` (ascending). -/
def insertAsc (x : ℚ) : List ℚ → List ℚ
  | [] => [x]
  | y :: ys => if x ≤ y then x :: y :: ys else y :: insertAsc x ys

/-- Python `sorted` on a list of price keys (ascending). -/
def sortAsc : List ℚ → List ℚ
  | [] => []
  | x :: xs => insertAsc x (sortAsc xs)

/-- `max(book.keys())`, `none` on an empty dict. -/
def maxKey (b : Ladder) : Option ℚ :=
  match ladderKeys b with
  | [] => none
  | k :: ks => some (ks.foldl max k)

/-- `min(book.keys())`, `none` on an empty dict. -/
def minKey (b : Ladder) : Option ℚ :=
  match ladderKeys b with
  | [] => none
  | k :: ks => some (ks.foldl min k)

/-- Python `round` on an exact rational: nearest integer, ties to even. -/
def pyRound (x : ℚ) : ℤ :=
  let f := ⌊x⌋
  let r := x - f
  if r < 1 / 2 then f
  else if 1 / 2 < r then f + 1
  else if 2 ∣ f then f else f + 1

/-- `LimitOrderBook._round_price`. -/
def round_price (tick_size : ℚ) (price : ℚ) : ℚ :=
  (pyRound (price / tick_size) : ℚ) * tick_size

/-- The `LimitOrderBook` state (`max_levels` only limits depth reporting and
is not part of any claim). -/
structure LimitOrderBook where
  tick_size : ℚ := 1 / 100
  bids : Ladder := []
  asks : Ladder := []
  orders : List (OrderId × Order) := []
  fills : List Fill := []
  last_trade_price : Option ℚ := none
  last_trade_size : ℤ := 0
  clock : ℕ := 0
deriving DecidableEq

/-- `LimitOrderBook.best_bid`. -/
def best_bid (lob : LimitOrderBook) : Option ℚ := maxKey lob.bids

/-- `LimitOrderBook.best_ask`. -/
def best_ask (lob : LimitOrderBook) : Option ℚ := minKey lob.asks

/-- `LimitOrderBook.mid_price`. -/
def mid_price (lob : LimitOrderBook) : Option ℚ :=
  match best_bid lob, best_ask lob with
  | some bb, some ba => some ((bb + ba) / 2)
  | _, _ => lob.last_trade_price

/-- The mutable state threaded through `_match_market_order`'s loops:
the order index, the (aliased) taker, the returned fill list, the fills
appended to `self.fills`, the last-trade cache and the wall-clock counter. -/
structure MatchCtx where
  orders : List (OrderId × Order)
  taker : Order
  rfills : List Fill
  gfills : List Fill
  last_trade_price : Option ℚ
  last_trade_size : ℤ
  clock : ℕ
deriving DecidableEq

/-- The taker-side fill of one match (`fill1` in the source): the first
`time.time()` read of the step. -/
def takerFill (timeSrc : ℕ → ℚ) (price : ℚ) (ctx : MatchCtx) (fill_size : ℤ) : Fill :=
  { order_id := ctx.taker.order_id, client_id := ctx.taker.client_id,
    side := ctx.taker.side, price := price, size := fill_size,
    timestamp := timeSrc ctx.clock }

/-- The maker-side fill of one match (`fill2` in the source): the second
`time.time()` read of the step. -/
def makerFill (timeSrc : ℕ → ℚ) (price : ℚ) (ctx : MatchCtx)
    (other_order_id : OrderId) (other_order : Order) (fill_size : ℤ) : Fill :=
  { order_id := other_order_id, client_id := other_order.client_id,
    side := other_order.side, price := price, size := fill_size,
    timestamp := timeSrc (ctx.clock + 1) }

/-- The body of one iteration of the inner matching loop, after the head
maker `other_order` has been looked up: emit the taker and maker fills,
decrement both remaining sizes, set the maker's status (`filled` when
drained, else `partially_filled`) in the index, update the last-trade cache,
and advance the clock by the step's two `time.time()` reads. -/
def matchStep (timeSrc : ℕ → ℚ) (price : ℚ) (ctx : MatchCtx)
    (other_order_id : OrderId) (other_order : Order) : MatchCtx :=
  let fill_size := min ctx.taker.remaining_size other_order.remaining_size
  let fill1 := takerFill timeSrc price ctx fill_size
  let fill2 := makerFill timeSrc price ctx other_order_id other_order fill_size
  let rem' := other_order.remaining_size - fill_size
  let other' : Order :=
    { other_order with
      remaining_size := rem',
      status := if rem' = 0 then .filled else .partially_filled }
  { orders := setOrder ctx.orders other_order_id other',
    taker := { ctx.taker with
      remaining_size := ctx.taker.remaining_size - fill_size },
    rfills := ctx.rfills ++ [fill1],
    gfills := ctx.gfills ++ [fill1, fill2],
    last_trade_price := some price,
    last_trade_size := fill_size,
    clock := ctx.clock + 2 }

/-- The inner `while queue and order.remaining_size > 0` loop of
`_match_market_order`, at one price level.  Returns the updated context and
the drained queue.  `fuel` bounds the iteration count; callers pass a value
that dominates the loop variant.  The maker is popped when fully drained,
else the head entry's cached size is updated in place. -/
def matchQueue (timeSrc : ℕ → ℚ) (price : ℚ) :
    ℕ → MatchCtx → Level → MatchCtx × Level
  | 0, ctx, queue => (ctx, queue)
  | fuel + 1, ctx, queue =>
    match queue with
    | [] => (ctx, [])
    | (other_order_id, available_size) :: rest =>
      if ctx.taker.remaining_size ≤ 0 then (ctx, (other_order_id, available_size) :: rest)
      else
        match findOrder ctx.orders other_order_id with
        | none => matchQueue timeSrc price fuel ctx rest
        | some other_order =>
          let rem' := other_order.remaining_size
            - min ctx.taker.remaining_size other_order.remaining_size
          if rem' = 0 then
            matchQueue timeSrc price fuel
              (matchStep timeSrc price ctx other_order_id other_order) rest
          else
            matchQueue timeSrc price fuel
              (matchStep timeSrc price ctx other_order_id other_order)
              ((other_order_id, rem') :: rest)

/-- The outer `for price in prices` loop of `_match_market_order` (the
`defaultdict` access `opposite_book[price]` materialises a missing level as an
empty one; the caller's cleanup pass removes empty levels again). -/
def matchPrices (timeSrc : ℕ → ℚ) : MatchCtx → Ladder → List ℚ → MatchCtx × Ladder
  | ctx, book, [] => (ctx, book)
  | ctx, book, price :: ps =>
    if ctx.taker.remaining_size ≤ 0 then (ctx, book)
    else
      let queue := (findLevel book price).getD []
      let res :=
        matchQueue timeSrc price (queue.length + ctx.taker.remaining_size.toNat + 2) ctx queue
      matchPrices timeSrc res.1 (setLevel book price res.2) ps

/-- `LimitOrderBook._match_market_order`.  Returns the fill list the method
returns, the updated book, and the taker order (aliased into `orders` by the
public entry points). -/
def match_market_order (timeSrc : ℕ → ℚ) (lob : LimitOrderBook) (order : Order) :
    List Fill × LimitOrderBook × Order :=
  let opposite_book := if order.side = Side.buy then lob.asks else lob.bids
  if opposite_book.isEmpty then
    ([], lob, { order with status := .rejected })
  else
    let prices :=
      if order.side = Side.sell then (sortAsc (ladderKeys opposite_book)).reverse
      else sortAsc (ladderKeys opposite_book)
    let ctx0 : MatchCtx :=
      { orders := lob.orders, taker := order, rfills := [], gfills := [],
        last_trade_price := lob.last_trade_price,
        last_trade_size := lob.last_trade_size, clock := lob.clock }
    let res := matchPrices timeSrc ctx0 opposite_book prices
    let ob'' := res.2.filter fun pq => !pq.2.isEmpty
    let taker :=
      if res.1.taker.remaining_size = 0 then { res.1.taker with status := OStatus.filled }
      else { res.1.taker with status := OStatus.partially_filled }
    ( res.1.rfills,
      { lob with
        bids := if order.side = Side.buy then lob.bids else ob'',
        asks := if order.side = Side.buy then ob'' else lob.asks,
        orders := res.1.orders,
        fills := lob.fills ++ res.1.gfills,
        last_trade_price := res.1.last_trade_price,
        last_trade_size := res.1.last_trade_size,
        clock := res.1.clock },
      taker )

/-- `LimitOrderBook._add_limit_order` (with the limit price `p` already
extracted from the order; `add_order` handles the `None` case). -/
def add_limit_order (timeSrc : ℕ → ℚ) (lob : LimitOrderBook) (order : Order) (p : ℚ) :
    List Fill × LimitOrderBook × Order :=
  let price := round_price lob.tick_size p
  let order := { order with price := some price }
  let opposite_book := if order.side = Side.buy then lob.asks else lob.bids
  let step :=
    if opposite_book.isEmpty then ([], lob, order)
    else if order.side = Side.buy then
      match minKey opposite_book with
      | some best_opposite =>
        if best_opposite ≤ price then match_market_order timeSrc lob order
        else ([], lob, order)
      | none => ([], lob, order)
    else
      match maxKey opposite_book with
      | some best_opposite =>
        if price ≤ best_opposite then match_market_order timeSrc lob order
        else ([], lob, order)
      | none => ([], lob, order)
  if 0 < step.2.2.remaining_size then
    let own := if step.2.2.side = Side.buy then step.2.1.bids else step.2.1.asks
    let queue := (findLevel own price).getD []
    let own' := setLevel own price (queue ++ [(step.2.2.order_id, step.2.2.remaining_size)])
    let order :=
      if step.2.2.status = OStatus.pending then { step.2.2 with status := OStatus.active }
      else step.2.2
    ( step.1,
      { step.2.1 with
        bids := if step.2.2.side = Side.buy then own' else step.2.1.bids,
        asks := if step.2.2.side = Side.buy then step.2.1.asks else own' },
      order )
  else step

/-- `LimitOrderBook.add_order`.  The source stores the incoming order object
in the index and then mutates it through the alias; the model writes the
final taker back into the index at the end. -/
def add_order (timeSrc : ℕ → ℚ) (lob : LimitOrderBook) (order : Order) :
    List Fill × LimitOrderBook :=
  let order := { order with remaining_size := order.size }
  let lob := { lob with orders := setOrder lob.orders order.order_id order }
  match order.type with
  | OKind.market =>
    let res := match_market_order timeSrc lob order
    (res.1, { res.2.1 with orders := setOrder res.2.1.orders res.2.2.order_id res.2.2 })
  | OKind.limit =>
    match order.price with
    | some p =>
      let res := add_limit_order timeSrc lob order p
      (res.1, { res.2.1 with orders := setOrder res.2.1.orders res.2.2.order_id res.2.2 })
    | none =>
      -- the source raises `TypeError` inside `_round_price` here; the branch is
      -- unreachable for well-formed limit orders and is modelled as a no-op
      ([], lob)

/-- `LimitOrderBook.cancel_order`. -/
def cancel_order (lob : LimitOrderBook) (order_id : OrderId) : Bool × LimitOrderBook :=
  match findOrder lob.orders order_id with
  | none => (false, lob)
  | some order =>
    if order.status = OStatus.filled ∨ order.status = OStatus.canceled then (false, lob)
    else
      let book := if order.side = Side.buy then lob.bids else lob.asks
      let book' :=
        match order.price with
        | none => book
        | some price =>
          match findLevel book price with
          | none => book
          | some q =>
            let new_queue := q.filter fun e => ¬ e.1 = order_id
            if new_queue.isEmpty then eraseLevel book price
            else setLevel book price new_queue
      let order' := { order with status := OStatus.canceled }
      ( true,
        { lob with
          bids := if order.side = Side.buy then book' else lob.bids,
          asks := if order.side = Side.buy then lob.asks else book',
          orders := setOrder lob.orders order_id order' } )

/-! ## Risk manager (`src/src/risk/risk_manager.py`)

The per-client state is threaded directly (the source's
`get_or_create_state(client_id)` fetch of a `defaultdict`-style entry); the
error strings of the source are modelled by the `RiskError` kinds below, one
per distinct message. -/

/-- `RiskLimits` dataclass with its source defaults. -/
structure RiskLimits where
  max_position : ℤ := 100
  max_daily_loss : ℚ := 1000
  max_order_rate : ℤ := 100
  max_order_size : ℤ := 50
  price_deviation_pct : ℚ := 5 / 100
deriving DecidableEq

/-- `ClientRiskState` dataclass with its source defaults. -/
structure ClientRiskState where
  position : ℤ := 0
  realized_pnl : ℚ := 0
  unrealized_pnl : ℚ := 0
  daily_pnl : ℚ := 0
  order_count : ℤ := 0
  last_order_time : ℚ := 0
  is_blocked : Bool := false
deriving DecidableEq

/-- The distinct error messages `risk_manager.py` returns, one kind each. -/
inductive RiskError where
  | blocked
  | rate_limit
  | size_limit
  | size_nonpositive
  | position_limit
  | price_bounds
  | daily_loss
deriving DecidableEq

/-- `RiskManager.check_order_rate` (the wall-clock read `time.time()` is the
explicit argument `now`; the counter reset and increment mutate the stored
state and therefore persist even when a later check fails). -/
def check_order_rate (limits : RiskLimits) (state : ClientRiskState) (now : ℚ) :
    Bool × Option RiskError × ClientRiskState :=
  let state := if 1 ≤ now - state.last_order_time then { state with order_count := 0 } else state
  if limits.max_order_rate ≤ state.order_count then (false, some RiskError.rate_limit, state)
  else (true, none, { state with order_count := state.order_count + 1, last_order_time := now })

/-- `RiskManager.check_position_limit`. -/
def check_position_limit (limits : RiskLimits) (state : ClientRiskState)
    (side : Side) (size : ℤ) : Bool × Option RiskError :=
  let position_delta := if side = Side.buy then size else -size
  let new_position := state.position + position_delta
  if limits.max_position < |new_position| then (false, some RiskError.position_limit)
  else (true, none)

/-- `RiskManager.check_order_size`. -/
def check_order_size (limits : RiskLimits) (size : ℤ) : Bool × Option RiskError :=
  if limits.max_order_size < size then (false, some RiskError.size_limit)
  else if size ≤ 0 then (false, some RiskError.size_nonpositive)
  else (true, none)

/-- `RiskManager.check_price_bounds`. -/
def check_price_bounds (limits : RiskLimits) (price : ℚ) (mid_price : Option ℚ) :
    Bool × Option RiskError :=
  match mid_price with
  | none => (true, none)
  | some mid =>
    let deviation := |price - mid| / mid
    if limits.price_deviation_pct < deviation then (false, some RiskError.price_bounds)
    else (true, none)

/-- `RiskManager.check_daily_loss` (tripping the limit also sets the sticky
`is_blocked` flag on the stored state). -/
def check_daily_loss (limits : RiskLimits) (state : ClientRiskState) :
    Bool × Option RiskError × ClientRiskState :=
  let total_pnl := state.realized_pnl + state.unrealized_pnl
  if total_pnl < -limits.max_daily_loss then
    (false, some RiskError.daily_loss, { state with is_blocked := true })
  else (true, none, state)

/-- `RiskManager.validate_order`: the fixed cascade
blocked → rate → size → position → price bounds → daily loss, short-circuiting
on the first failure.  The price-bounds check runs only when both a limit
price and a mid price are known, as in the source. -/
def validate_order (limits : RiskLimits) (state : ClientRiskState) (side : Side)
    (size : ℤ) (price : Option ℚ) (mid_price : Option ℚ) (now : ℚ) :
    Bool × Option RiskError × ClientRiskState :=
  if state.is_blocked then (false, some RiskError.blocked, state)
  else
    let (v1, m1, state) := check_order_rate limits state now
    if ¬ v1 then (false, m1, state)
    else
      let (v2, m2) := check_order_size limits size
      if ¬ v2 then (false, m2, state)
      else
        let (v3, m3) := check_position_limit limits state side size
        if ¬ v3 then (false, m3, state)
        else
          let (v4, m4) :=
            match price, mid_price with
            | some p, some mid => check_price_bounds limits p (some mid)
            | _, _ => (true, none)
          if ¬ v4 then (false, m4, state)
          else
            let (v5, m5, state) := check_daily_loss limits state
            if ¬ v5 then (false, m5, state)
            else (true, none, state)

/-- `RiskManager.update_position` — the post-fill update the interface calls
for every fill (`price` is accepted and ignored, as in the source). -/
def update_position (state : ClientRiskState) (side : Side) (size : ℤ) (price : ℚ) :
    ClientRiskState :=
  let position_delta := if side = Side.buy then size else -size
  { state with position := state.position + position_delta }

/-! ## Observations used by the claims -/

/-- Sum of the sizes of the fills recorded for one order id. -/
def fillSum (fills : List Fill) (oid : OrderId) : ℤ :=
  ((fills.filter fun f => f.order_id = oid).map Fill.size).sum

/-- The `(price, cached size)` pairs of every queue entry on one book side
that references the given order id. -/
def entriesFor (b : Ladder) (oid : OrderId) : List (ℚ × ℤ) :=
  b.flatMap fun pq => (pq.2.filter fun e => e.1 = oid).map fun e => (pq.1, e.2)

/-- Every queue entry in the whole book referencing `oid`, tagged with its
side. -/
def refsFor (lob : LimitOrderBook) (oid : OrderId) : List (Side × ℚ × ℤ) :=
  (entriesFor lob.bids oid).map (fun e => (Side.buy, e))
    ++ (entriesFor lob.asks oid).map (fun e => (Side.sell, e))

/-- All order ids referenced by queue entries of one side. -/
def ladderRefs (b : Ladder) : List OrderId :=
  b.flatMap fun pq => pq.2.map Prod.fst

/-- All order ids referenced anywhere in the book (bids, then asks). -/
def allRefs (lob : LimitOrderBook) : List OrderId :=
  ladderRefs lob.bids ++ ladderRefs lob.asks

/-- A resting-eligible status: the statuses for which the book is supposed to
hold exactly one queue entry (for limit orders). -/
def restingStatus (o : Order) : Prop :=
  o.status = OStatus.active ∨ (o.status = OStatus.partially_filled ∧ o.type = OKind.limit)

instance (o : Order) : Decidable (restingStatus o) := by
  unfold restingStatus; infer_instance

/-- A well-formed submission, as produced by the ingress layer
(`trading_interface.py` mints a fresh uuid4 id, validated size is positive, a
limit order carries a price, a new order starts `pending`). -/
def WFSubmit (lob : LimitOrderBook) (o : Order) : Prop :=
  findOrder lob.orders o.order_id = none ∧
    o.order_id ∉ allRefs lob ∧
    0 < o.size ∧
    (o.type = OKind.limit → o.price.isSome) ∧
    o.status = OStatus.pending

instance (lob : LimitOrderBook) (o : Order) : Decidable (WFSubmit lob o) := by
  unfold WFSubmit; infer_instance

/-- The books reachable from an empty book by submissions (through
`add_order`) and cancels, for a fixed wall-clock read-out. -/
inductive Reachable (timeSrc : ℕ → ℚ) : LimitOrderBook → Prop where
  | init (tick_size : ℚ) (h : 0 < tick_size) :
      Reachable timeSrc { tick_size := tick_size }
  | submit {lob : LimitOrderBook} {o : Order} (hr : Reachable timeSrc lob)
      (hwf : WFSubmit lob o) : Reachable timeSrc (add_order timeSrc lob o).2
  | cancel {lob : LimitOrderBook} (oid : OrderId) (hr : Reachable timeSrc lob) :
      Reachable timeSrc (cancel_order lob oid).2


/-! ## Association-list lemmas -/

@[simp]
theorem findOrder_setOrder_self (m : List (OrderId × Order)) (i : OrderId) (o : Order) :
    findOrder (setOrder m i o) i = some o := by
  induction m with
  | nil => simp [findOrder, setOrder]
  | cons e rest ih =>
    by_cases h : e.1 = i <;> simp [findOrder, setOrder, h, ih]

@[simp]
theorem findOrder_setOrder_ne (m : List (OrderId × Order)) (i j : OrderId) (o : Order)
    (h : i ≠ j) : findOrder (setOrder m i o) j = findOrder m j := by
  induction m with
  | nil => simp [findOrder, setOrder, h]
  | cons e rest ih =>
    by_cases he : e.1 = i
    · simp [findOrder, setOrder, he, h]
    · simp only [setOrder, if_neg he, findOrder]
      by_cases hj : e.1 = j <;> simp [hj, ih]

@[simp]
theorem findLevel_setLevel_self (b : Ladder) (p : ℚ) (q : Level) :
    findLevel (setLevel b p q) p = some q := by
  induction b with
  | nil => simp [findLevel, setLevel]
  | cons e rest ih =>
    by_cases h : e.1 = p <;> simp [findLevel, setLevel, h, ih]

@[simp]
theorem findLevel_setLevel_ne (b : Ladder) (p x : ℚ) (q : Level) (h : p ≠ x) :
    findLevel (setLevel b p q) x = findLevel b x := by
  induction b with
  | nil => simp [findLevel, setLevel, h]
  | cons e rest ih =>
    by_cases he : e.1 = p
    · simp [findLevel, setLevel, he, h]
    · simp only [setLevel, if_neg he, findLevel]
      by_cases hx : e.1 = x <;> simp [hx, ih]

/-! ## Concrete scenarios

Explicit states together with lemmas identifying them as the results of
`add_order` runs; the arithmetic is discharged by `norm_num` because the
kernel does not reduce rational arithmetic. -/

/-- A concrete wall clock: the n-th read returns `n` (strictly increasing). -/
def stepClock : ℕ → ℚ := fun n => (n : ℚ)

/-- An empty book with `tick_size = 1`. -/
def book0 : LimitOrderBook := { tick_size := 1 }

/-- A fresh limit order as the ingress layer mints it. -/
def limitOrder (i : OrderId) (c : ClientId) (s : Side) (p : ℚ) (sz : ℤ) : Order :=
  { order_id := i, client_id := c, side := s, type := OKind.limit, price := some p, size := sz }

/-- A fresh market order as the ingress layer mints it. -/
def marketOrder (i : OrderId) (c : ClientId) (s : Side) (sz : ℤ) : Order :=
  { order_id := i, client_id := c, side := s, type := OKind.market, size := sz }

/-- One ask (order 1) resting at price 10, one share. -/
def bookOneAsk : LimitOrderBook :=
  { tick_size := 1, bids := [], asks := [(10, [(1, 1)])],
    orders := [(1,
      { order_id := 1, client_id := 1, side := Side.sell, type := OKind.limit,
        price := some 10, size := 1, remaining_size := 1, timestamp := 0,
        status := OStatus.active })],
    fills := [], last_trade_price := none, last_trade_size := 0, clock := 0 }

/-- Asks resting at 10 and 30 (orders 1 and 2, one share each). -/
def bookTwoAsks : LimitOrderBook :=
  { tick_size := 1, bids := [], asks := [(10, [(1, 1)]), (30, [(2, 1)])],
    orders := [(1,
      { order_id := 1, client_id := 1, side := Side.sell, type := OKind.limit,
        price := some 10, size := 1, remaining_size := 1, timestamp := 0,
        status := OStatus.active }),
      (2,
      { order_id := 2, client_id := 2, side := Side.sell, type := OKind.limit,
        price := some 30, size := 1, remaining_size := 1, timestamp := 0,
        status := OStatus.active })],
    fills := [], last_trade_price := none, last_trade_size := 0, clock := 0 }

/-- The state after a market buy for 5 hits an empty book: rejected. -/
def rejectedMarketBook : LimitOrderBook :=
  { tick_size := 1, bids := [], asks := [],
    orders := [(1,
      { order_id := 1, client_id := 1, side := Side.buy, type := OKind.market,
        price := none, size := 5, remaining_size := 5, timestamp := 0,
        status := OStatus.rejected })],
    fills := [], last_trade_price := none, last_trade_size := 0, clock := 0 }

/-- The state after a market buy for 2 hits `bookOneAsk`: one share fills at
10, the taker keeps residual 1 and rests nowhere. -/
def partialMarketBook : LimitOrderBook :=
  { tick_size := 1, bids := [], asks := [],
    orders := [(1,
      { order_id := 1, client_id := 1, side := Side.sell, type := OKind.limit,
        price := some 10, size := 1, remaining_size := 0, timestamp := 0,
        status := OStatus.filled }),
      (2,
      { order_id := 2, client_id := 2, side := Side.buy, type := OKind.market,
        price := none, size := 2, remaining_size := 1, timestamp := 0,
        status := OStatus.partially_filled })],
    fills := [{ order_id := 2, client_id := 2, side := Side.buy, price := 10,
                size := 1, timestamp := 0 },
              { order_id := 1, client_id := 1, side := Side.sell, price := 10,
                size := 1, timestamp := 1 }],
    last_trade_price := some 10, last_trade_size := 1, clock := 2 }

theorem bookOneAsk_eq :
    (add_order stepClock book0 (limitOrder 1 1 Side.sell 10 1)).2 = bookOneAsk := by
  norm_num +decide [add_order, add_limit_order, match_market_order, matchPrices,
    matchQueue, matchStep, takerFill, makerFill, round_price, pyRound, setOrder, findOrder, setLevel, findLevel,
    eraseLevel, ladderKeys, sortAsc, insertAsc, minKey, maxKey, book0, limitOrder,
    stepClock, bookOneAsk]

theorem bookTwoAsks_eq :
    (add_order stepClock bookOneAsk (limitOrder 2 2 Side.sell 30 1)).2 = bookTwoAsks := by
  norm_num +decide [add_order, add_limit_order, match_market_order, matchPrices,
    matchQueue, matchStep, takerFill, makerFill, round_price, pyRound, setOrder, findOrder, setLevel, findLevel,
    eraseLevel, ladderKeys, sortAsc, insertAsc, minKey, maxKey, bookOneAsk, limitOrder,
    stepClock, bookTwoAsks]

theorem rejectedMarketBook_eq :
    (add_order stepClock book0 (marketOrder 1 1 Side.buy 5)).2 = rejectedMarketBook := by
  norm_num +decide [add_order, add_limit_order, match_market_order, matchPrices,
    matchQueue, matchStep, takerFill, makerFill, round_price, pyRound, setOrder, findOrder, setLevel, findLevel,
    eraseLevel, ladderKeys, sortAsc, insertAsc, minKey, maxKey, book0, marketOrder,
    stepClock, rejectedMarketBook]

theorem partialMarketBook_eq :
    (add_order stepClock bookOneAsk (marketOrder 2 2 Side.buy 2)).2 = partialMarketBook := by
  norm_num +decide [add_order, add_limit_order, match_market_order, matchPrices,
    matchQueue, matchStep, takerFill, makerFill, round_price, pyRound, setOrder, findOrder, setLevel, findLevel,
    eraseLevel, ladderKeys, sortAsc, insertAsc, minKey, maxKey, bookOneAsk, marketOrder,
    stepClock, partialMarketBook]

theorem reachable_bookOneAsk : Reachable stepClock bookOneAsk := by
  rw [← bookOneAsk_eq]
  exact Reachable.submit (Reachable.init 1 one_pos) (by decide)

theorem reachable_bookTwoAsks : Reachable stepClock bookTwoAsks := by
  rw [← bookTwoAsks_eq]
  exact Reachable.submit reachable_bookOneAsk (by decide)

theorem reachable_partialMarketBook : Reachable stepClock partialMarketBook := by
  rw [← partialMarketBook_eq]
  exact Reachable.submit reachable_bookOneAsk (by decide)

theorem reachable_rejectedMarketBook : Reachable stepClock rejectedMarketBook := by
  rw [← rejectedMarketBook_eq]
  exact Reachable.submit (Reachable.init 1 one_pos) (by decide)

/-! ## C1 — limit-order matching is not bounded by the taker's limit price -/

/-- C1: the code checks the price cross only once and then walks the *entire*
opposite side, so a limit buy at 20 submitted against asks at 10 and 30 fills
at 30 — above its own limit price.  This evaluates `add_order` at that
failing input: the claim (and the spec's matching step 6, "continue while the
price-cross condition still holds") requires every fill of a limit buy taker
to have price ≤ 20, but the second generated fill has price 30. -/
theorem C1_limit_buy_fills_above_its_limit :
    ((add_order stepClock bookTwoAsks (limitOrder 3 3 Side.buy 20 2)).1.map
        fun f => (f.order_id, f.price, f.size)) = [(3, 10, 1), (3, 30, 1)] ∧
      ∃ f ∈ (add_order stepClock bookTwoAsks (limitOrder 3 3 Side.buy 20 2)).1,
        20 < f.price := by
  norm_num +decide [add_order, add_limit_order, match_market_order, matchPrices,
    matchQueue, matchStep, takerFill, makerFill, round_price, pyRound, setOrder, findOrder, setLevel, findLevel,
    eraseLevel, ladderKeys, sortAsc, insertAsc, minKey, maxKey, bookTwoAsks,
    limitOrder, stepClock]

/-! ## C2 — the returned fill list is taker fills only, one per match -/

/-- C2 counterexample: a single crossing submission returns a fill list of
length 1, so the list returned by `add_order` does not have even length and
does not consist of taker–maker pairs (the maker fill is appended to the
book's fill history only). -/
theorem C2_counterexample_returned_list_odd :
    (add_order stepClock bookOneAsk (limitOrder 2 2 Side.buy 10 1)).1.length = 1 ∧
      ¬ 2 ∣ (add_order stepClock bookOneAsk (limitOrder 2 2 Side.buy 10 1)).1.length := by
  have h : (add_order stepClock bookOneAsk (limitOrder 2 2 Side.buy 10 1)).1.length = 1 := by
    norm_num +decide [add_order, add_limit_order, match_market_order, matchPrices,
      matchQueue, matchStep, takerFill, makerFill, round_price, pyRound, setOrder, findOrder, setLevel, findLevel,
      eraseLevel, ladderKeys, sortAsc, insertAsc, minKey, maxKey, bookOneAsk,
      limitOrder, stepClock]
  exact ⟨h, by rw [h]; decide⟩

/-! ## C3 — cancel on terminal orders -/

/-- C3 counterexample: `cancel_order` refuses only the statuses `filled` and
`canceled`; a market order rejected at submission (a terminal status) is
"canceled" successfully, moving its status from `rejected` to `canceled` —
contradicting the claim that every order in a terminal status fails with a
not-cancelable error. -/
theorem C3_counterexample_rejected_order_cancels :
    (findOrder rejectedMarketBook.orders 1).map Order.status = some OStatus.rejected ∧
      (cancel_order rejectedMarketBook 1).1 = true ∧
      (findOrder (cancel_order rejectedMarketBook 1).2.orders 1).map Order.status
        = some OStatus.canceled := by
  refine ⟨by decide, by decide, by decide⟩

/-! ## C4 — the post-fill risk update touches only `position` -/

/-- C4 counterexample: `update_position` ignores the execution price and does
not touch realized PnL (the client state has no cash field at all): updating
with price 100 and with price 999 produces identical states, and
`realized_pnl` is unchanged — contradicting the claim that cash and realized
PnL are updated "using the execution price of that fill". -/
theorem C4_counterexample_price_ignored :
    update_position {} Side.buy 5 100 = update_position {} Side.buy 5 999 ∧
      (update_position {} Side.buy 5 100).realized_pnl
        = ({} : ClientRiskState).realized_pnl ∧
      (update_position {} Side.buy 5 100).position = 5 := by
  refine ⟨by decide, by decide, by decide⟩

/-- C4 amended: for every fill processed after matching, `update_position`
changes the client's position by +size for a buy and −size for a sell and
changes nothing else: realized and unrealized PnL, daily PnL, the rate
counters and the blocked flag are untouched, and the execution price is
ignored entirely (the state holds no cash balance to update). -/
theorem C4_update_position_amended (st : ClientRiskState) (side : Side)
    (size : ℤ) (p1 p2 : ℚ) :
    (update_position st side size p1).position
        = st.position + (if side = Side.buy then size else -size) ∧
      (update_position st side size p1).realized_pnl = st.realized_pnl ∧
      (update_position st side size p1).unrealized_pnl = st.unrealized_pnl ∧
      (update_position st side size p1).daily_pnl = st.daily_pnl ∧
      (update_position st side size p1).order_count = st.order_count ∧
      (update_position st side size p1).last_order_time = st.last_order_time ∧
      (update_position st side size p1).is_blocked = st.is_blocked ∧
      update_position st side size p1 = update_position st side size p2 :=
  ⟨rfl, rfl, rfl, rfl, rfl, rfl, rfl, rfl⟩

/-! ## C6 — the queue-entry / index invariant, as claimed -/

/-- C6 as written: every indexed order with status `active` or
`partially_filled` has exactly one queue entry, at its limit price on its own
side, caching its `remaining_size`. -/
def claimC6 (lob : LimitOrderBook) : Prop :=
  ∀ e ∈ lob.orders,
    (e.2.status = OStatus.active ∨ e.2.status = OStatus.partially_filled) →
    ∃ p, e.2.price = some p ∧ refsFor lob e.1 = [(e.2.side, p, e.2.remaining_size)]

instance (lob : LimitOrderBook) : Decidable (claimC6 lob) := by
  unfold claimC6; infer_instance

/-- C6 counterexample: after a market buy partially exhausts the book (two
legal submissions from an empty book), the taker sits in the index with
status `partially_filled` but has no queue entry anywhere — market orders
never rest — so the claimed invariant fails. -/
theorem C6_counterexample_partially_filled_market_order :
    ¬ claimC6 partialMarketBook := by
  decide

/-! ## C7 — fill pairs in the emitted history -/

/-- The shared-timestamp part of C7, over an emitted fill history:
consecutive pairs carry equal timestamps. -/
def pairedTimestamps : List Fill → Prop
  | [] => True
  | _ :: [] => False
  | f1 :: f2 :: rest => f1.timestamp = f2.timestamp ∧ pairedTimestamps rest

instance pairedTimestamps.dec : ∀ fs : List Fill, Decidable (pairedTimestamps fs)
  | [] => by unfold pairedTimestamps; infer_instance
  | _ :: [] => by unfold pairedTimestamps; infer_instance
  | _ :: _ :: rest => by
    unfold pairedTimestamps
    have := pairedTimestamps.dec rest
    infer_instance

/-- C7 counterexample: the source reads `time.time()` once for the taker fill
and again for the maker fill of the same match, so under a strictly
increasing wall clock the two fills of the single match emitted into the fill
history carry timestamps 0 and 1 — the pair does not share a timestamp. -/
theorem C7_counterexample_pair_timestamps_differ :
    ((add_order stepClock bookOneAsk (limitOrder 2 2 Side.buy 10 1)).2.fills.map
        Fill.timestamp) = [0, 1] ∧
      ¬ pairedTimestamps
          (add_order stepClock bookOneAsk (limitOrder 2 2 Side.buy 10 1)).2.fills := by
  have h : (add_order stepClock bookOneAsk (limitOrder 2 2 Side.buy 10 1)).2.fills
      = [{ order_id := 2, client_id := 2, side := Side.buy, price := 10, size := 1,
           timestamp := 0 },
         { order_id := 1, client_id := 1, side := Side.sell, price := 10, size := 1,
           timestamp := 1 }] := by
    norm_num +decide [add_order, add_limit_order, match_market_order, matchPrices,
      matchQueue, matchStep, takerFill, makerFill, round_price, pyRound, setOrder, findOrder, setLevel, findLevel,
      eraseLevel, ladderKeys, sortAsc, insertAsc, minKey, maxKey, bookOneAsk,
      limitOrder, stepClock]
  rw [h]
  exact ⟨by decide, by decide⟩

/-! ## C8, C10 — the risk-gate cascade -/

theorem check_order_rate_fail_msg (limits : RiskLimits) (st : ClientRiskState) (now : ℚ)
    (h : (check_order_rate limits st now).1 = false) :
    (check_order_rate limits st now).2.1 = some RiskError.rate_limit := by
  simp only [check_order_rate] at h ⊢
  split_ifs at h ⊢ <;> simp_all

theorem check_order_rate_pass_state (limits : RiskLimits) (st : ClientRiskState) (now : ℚ)
    (h : (check_order_rate limits st now).1 = true) :
    (check_order_rate limits st now).2.2
      = { st with
          order_count := (if 1 ≤ now - st.last_order_time then 0 else st.order_count) + 1,
          last_order_time := now } := by
  simp only [check_order_rate] at h ⊢
  split_ifs at h ⊢ <;> simp_all

theorem check_position_limit_fail_msg (limits : RiskLimits) (st : ClientRiskState)
    (side : Side) (size : ℤ)
    (h : (check_position_limit limits st side size).1 = false) :
    (check_position_limit limits st side size).2 = some RiskError.position_limit := by
  simp only [check_position_limit] at h ⊢
  split_ifs at h ⊢ <;> simp_all

theorem check_price_bounds_fail_msg (limits : RiskLimits) (p m : ℚ)
    (h : (check_price_bounds limits p (some m)).1 = false) :
    (check_price_bounds limits p (some m)).2 = some RiskError.price_bounds := by
  simp only [check_price_bounds] at h ⊢
  split_ifs at h ⊢ <;> simp_all

theorem check_daily_loss_fail_msg (limits : RiskLimits) (st : ClientRiskState)
    (h : (check_daily_loss limits st).1 = false) :
    (check_daily_loss limits st).2.1 = some RiskError.daily_loss := by
  simp only [check_daily_loss] at h ⊢
  split_ifs at h ⊢ <;> simp_all

/-- `validate_order` written out as its explicit decision cascade (holds by
unfolding the definition). -/
theorem validate_order_eq (limits : RiskLimits) (st : ClientRiskState) (side : Side)
    (size : ℤ) (price : Option ℚ) (mid : Option ℚ) (now : ℚ) :
    validate_order limits st side size price mid now =
      if st.is_blocked then (false, some RiskError.blocked, st)
      else
        match check_order_rate limits st now with
        | (v1, m1, state) =>
          if ¬ v1 then (false, m1, state)
          else
            match check_order_size limits size with
            | (v2, m2) =>
              if ¬ v2 then (false, m2, state)
              else
                match check_position_limit limits state side size with
                | (v3, m3) =>
                  if ¬ v3 then (false, m3, state)
                  else
                    match
                      match price, mid with
                      | some p, some m => check_price_bounds limits p (some m)
                      | _, _ => (true, none) with
                    | (v4, m4) =>
                      if ¬ v4 then (false, m4, state)
                      else
                        match check_daily_loss limits state with
                        | (v5, m5, state2) =>
                          if ¬ v5 then (false, m5, state2)
                          else (true, none, state2) := rfl

/-- C8: `validate_order` runs blocked → rate → size → position → price-bounds
→ daily-loss in that fixed order, short-circuits on the first failure — it
returns that check's error together with the state as mutated so far, so the
state effects of the checks after the failing one (the rate counter, the
daily-loss blocked flag) are absent — and returns ok exactly when all six
checks pass (the price-bounds check passes by default unless both a limit
price and a mid price are known, as in the source). -/
theorem C8_validate_order_cascade (limits : RiskLimits) (st : ClientRiskState)
    (side : Side) (size : ℤ) (price : Option ℚ) (mid : Option ℚ) (now : ℚ) :
    (st.is_blocked = true →
        validate_order limits st side size price mid now
          = (false, some RiskError.blocked, st)) ∧
      (st.is_blocked = false → (check_order_rate limits st now).1 = false →
        validate_order limits st side size price mid now
          = (false, some RiskError.rate_limit, (check_order_rate limits st now).2.2)) ∧
      (st.is_blocked = false → (check_order_rate limits st now).1 = true →
        (check_order_size limits size).1 = false →
        validate_order limits st side size price mid now
          = (false, (check_order_size limits size).2,
              (check_order_rate limits st now).2.2)) ∧
      (st.is_blocked = false → (check_order_rate limits st now).1 = true →
        (check_order_size limits size).1 = true →
        (check_position_limit limits (check_order_rate limits st now).2.2 side size).1
            = false →
        validate_order limits st side size price mid now
          = (false, some RiskError.position_limit,
              (check_order_rate limits st now).2.2)) ∧
      (∀ p m, price = some p → mid = some m →
        st.is_blocked = false → (check_order_rate limits st now).1 = true →
        (check_order_size limits size).1 = true →
        (check_position_limit limits (check_order_rate limits st now).2.2 side size).1
            = true →
        (check_price_bounds limits p (some m)).1 = false →
        validate_order limits st side size price mid now
          = (false, some RiskError.price_bounds,
              (check_order_rate limits st now).2.2)) ∧
      (st.is_blocked = false → (check_order_rate limits st now).1 = true →
        (check_order_size limits size).1 = true →
        (check_position_limit limits (check_order_rate limits st now).2.2 side size).1
            = true →
        (match price, mid with
          | some p, some m => check_price_bounds limits p (some m)
          | _, _ => (true, none)).1 = true →
        (check_daily_loss limits (check_order_rate limits st now).2.2).1 = false →
        validate_order limits st side size price mid now
          = (false, some RiskError.daily_loss,
              (check_daily_loss limits (check_order_rate limits st now).2.2).2.2)) ∧
      ((validate_order limits st side size price mid now).1 = true ↔
        st.is_blocked = false ∧ (check_order_rate limits st now).1 = true ∧
          (check_order_size limits size).1 = true ∧
          (check_position_limit limits (check_order_rate limits st now).2.2 side size).1
            = true ∧
          (match price, mid with
            | some p, some m => check_price_bounds limits p (some m)
            | _, _ => (true, none)).1 = true ∧
          (check_daily_loss limits (check_order_rate limits st now).2.2).1 = true) := by
  simp only [validate_order_eq]
  rcases hrc : check_order_rate limits st now with ⟨v1, m1, st1⟩
  rcases hsc : check_order_size limits size with ⟨v2, m2⟩
  rcases hpc : check_position_limit limits st1 side size with ⟨v3, m3⟩
  rcases hdc : check_daily_loss limits st1 with ⟨v5, m5, st2⟩
  have hm1 := check_order_rate_fail_msg limits st now
  have hm3 := check_position_limit_fail_msg limits st1 side size
  have hm5 := check_daily_loss_fail_msg limits st1
  rw [hrc] at hm1
  rw [hpc] at hm3
  rw [hdc] at hm5
  dsimp only
  cases hb : st.is_blocked
  · cases v1
    · simp
      exact hm1 rfl
    · cases v2
      · simp
      · cases v3
        · simp
          exact hm3 rfl
        · rcases price with _ | p <;> rcases mid with _ | m
          · cases v5
            · simp
              exact hm5 rfl
            · simp
          · cases v5
            · simp
              exact hm5 rfl
            · simp
          · cases v5
            · simp
              exact hm5 rfl
            · simp
          · rcases hbc : check_price_bounds limits p (some m) with ⟨v4, m4⟩
            have hm4 := check_price_bounds_fail_msg limits p m
            rw [hbc] at hm4
            cases v4
            · simp [hbc]
              exact hm4 rfl
            · cases v5
              · simp [hbc]
                exact hm5 rfl
              · simp [hbc]
  · simp

theorem check_daily_loss_state_fields (limits : RiskLimits) (st : ClientRiskState) :
    (check_daily_loss limits st).2.2.order_count = st.order_count ∧
      (check_daily_loss limits st).2.2.last_order_time = st.last_order_time := by
  simp only [check_daily_loss]
  split_ifs <;> simp

/-- C10: once a non-blocked client passes the rate check, the stored state
has already consumed one unit of the per-second budget — `order_count` is the
(window-reset) count plus one and `last_order_time` is the current clock
read — and this holds whatever the later size, position, price-bounds and
daily-loss checks decide, since no assumption is made on them. -/
theorem C10_rate_budget_consumed (limits : RiskLimits) (st : ClientRiskState)
    (side : Side) (size : ℤ) (price : Option ℚ) (mid : Option ℚ) (now : ℚ)
    (hb : st.is_blocked = false) (hrate : (check_order_rate limits st now).1 = true) :
    (validate_order limits st side size price mid now).2.2.order_count
        = (if 1 ≤ now - st.last_order_time then 0 else st.order_count) + 1 ∧
      (validate_order limits st side size price mid now).2.2.last_order_time = now := by
  have hst := check_order_rate_pass_state limits st now hrate
  simp only [validate_order_eq]
  rcases hrc : check_order_rate limits st now with ⟨v1, m1, st1⟩
  rw [hrc] at hrate hst
  dsimp only at hrate hst
  subst hrate
  have hdl := check_daily_loss_state_fields limits st1
  rcases hsc : check_order_size limits size with ⟨v2, m2⟩
  rcases hpc : check_position_limit limits st1 side size with ⟨v3, m3⟩
  rcases hdc : check_daily_loss limits st1 with ⟨v5, m5, st2⟩
  rw [hdc] at hdl
  dsimp only at hdl
  simp only [hb, hst]
  cases v2
  · simp [hst]
  · cases v3
    · simp [hst]
    · rcases price with _ | p <;> rcases mid with _ | m
      · cases v5 <;> simp [hdl.1, hdl.2, hst]
      · cases v5 <;> simp [hdl.1, hdl.2, hst]
      · cases v5 <;> simp [hdl.1, hdl.2, hst]
      · rcases hbc : check_price_bounds limits p (some m) with ⟨v4, m4⟩
        cases v4
        · simp [hbc, hst]
        · cases v5 <;> simp [hbc, hdl.1, hdl.2, hst]

/-- Witness for C8 at a concrete input: a blocked client is refused with the
blocked error and an untouched state. -/
theorem C8_validate_order_cascade_witness :
    validate_order {} { is_blocked := true } Side.buy 1 none none 0
      = (false, some RiskError.blocked, { is_blocked := true }) :=
  (C8_validate_order_cascade {} { is_blocked := true } Side.buy 1 none none 0).1 rfl

/-- Witness for C10: a fresh client at time 0 ends with `order_count = 1`
even though the order will be judged later in the cascade. -/
theorem C10_rate_budget_consumed_witness :
    (validate_order {} {} Side.buy 1 none none 0).2.2.order_count
        = (if 1 ≤ (0 : ℚ) - ({} : ClientRiskState).last_order_time
            then 0 else ({} : ClientRiskState).order_count) + 1 ∧
      (validate_order {} {} Side.buy 1 none none 0).2.2.last_order_time = 0 :=
  C10_rate_budget_consumed {} {} Side.buy 1 none none 0 rfl
    (by norm_num [check_order_rate])

/-! ## Matching-loop invariants: helper notions and list lemmas -/

/-- The order ids of a queue. -/
def queueIds (q : Level) : List OrderId := q.map Prod.fst

/-- A well-formed queue entry at price `p` on book side `bs`: it references an
indexed limit order of that side resting at that price, whose
`remaining_size` is positive and equals the cached size. -/
def entryOK (orders : List (OrderId × Order)) (p : ℚ) (bs : Side)
    (e : OrderId × ℤ) : Prop :=
  ∃ o, findOrder orders e.1 = some o ∧ o.side = bs ∧ o.type = OKind.limit ∧
    o.price = some p ∧ o.remaining_size = e.2 ∧ 0 < e.2 ∧
    (o.status = OStatus.active ∨ o.status = OStatus.partially_filled)

/-- Every entry of every level of a book side is well formed. -/
def ladderOK (orders : List (OrderId × Order)) (bs : Side) (b : Ladder) : Prop :=
  ∀ pq ∈ b, ∀ e ∈ pq.2, entryOK orders pq.1 bs e

/-- The remaining size recorded in the index for an id (0 when absent). -/
def remOrd (orders : List (OrderId × Order)) (id : OrderId) : ℤ :=
  match findOrder orders id with
  | some o => o.remaining_size
  | none => 0

theorem fillSum_append (a b : List Fill) (id : OrderId) :
    fillSum (a ++ b) id = fillSum a id + fillSum b id := by
  simp [fillSum, List.filter_append]

theorem fillSum_pair (f1 f2 : Fill) (id : OrderId) :
    fillSum [f1, f2] id = (if f1.order_id = id then f1.size else 0)
      + (if f2.order_id = id then f2.size else 0) := by
  by_cases h1 : f1.order_id = id <;> by_cases h2 : f2.order_id = id <;>
    simp [fillSum, List.filter_cons, h1, h2]

theorem remOrd_setOrder_self (orders : List (OrderId × Order)) (id : OrderId) (o : Order) :
    remOrd (setOrder orders id o) id = o.remaining_size := by
  simp [remOrd]

theorem remOrd_setOrder_ne (orders : List (OrderId × Order)) (i j : OrderId) (o : Order)
    (h : i ≠ j) : remOrd (setOrder orders i o) j = remOrd orders j := by
  simp [remOrd, findOrder_setOrder_ne _ _ _ _ h]

theorem findOrder_setOrder_none_iff (orders : List (OrderId × Order)) (i j : OrderId)
    (o o0 : Order) (hi : findOrder orders i = some o0) :
    (findOrder (setOrder orders i o) j = none ↔ findOrder orders j = none) := by
  by_cases h : i = j
  · subst h
    simp [hi]
  · simp [findOrder_setOrder_ne _ _ _ _ h]

theorem mem_queueIds (q : Level) (e : OrderId × ℤ) (h : e ∈ q) : e.1 ∈ queueIds q :=
  List.mem_map_of_mem _ h

theorem mem_ladderRefs (b : Ladder) (pq : ℚ × Level) (e : OrderId × ℤ)
    (hpq : pq ∈ b) (he : e ∈ pq.2) : e.1 ∈ ladderRefs b := by
  simp only [ladderRefs, List.mem_flatMap]
  exact ⟨pq, hpq, List.mem_map_of_mem _ he⟩

theorem findLevel_mem (b : Ladder) (p : ℚ) (q : Level) (h : findLevel b p = some q) :
    (p, q) ∈ b := by
  induction b with
  | nil => simp [findLevel] at h
  | cons pq rest ih =>
    rcases pq with ⟨p0, q0⟩
    by_cases hp : p0 = p
    · subst hp
      simp [findLevel] at h
      subst h
      exact List.mem_cons_self _ _
    · simp only [findLevel, if_neg hp] at h
      exact List.mem_cons_of_mem _ (ih h)

theorem queueIds_sub_ladderRefs (b : Ladder) (p : ℚ) :
    ∀ id ∈ queueIds ((findLevel b p).getD []), id ∈ ladderRefs b := by
  intro id hid
  rcases hq : findLevel b p with _ | q
  · rw [hq] at hid
    simp [queueIds] at hid
  · rw [hq] at hid
    simp only [Option.getD_some, queueIds, List.mem_map] at hid
    rcases hid with ⟨e, he, rfl⟩
    exact mem_ladderRefs b (p, q) e (findLevel_mem b p q hq) he

theorem mem_setLevel (b : Ladder) (p : ℚ) (q' : Level) :
    ∀ pq ∈ setLevel b p q', pq = (p, q') ∨ pq ∈ b := by
  induction b with
  | nil => simp [setLevel]
  | cons e rest ih =>
    intro pq hpq
    by_cases hp : e.1 = p
    · simp only [setLevel, if_pos hp, List.mem_cons] at hpq
      rcases hpq with h | h
      · exact Or.inl h
      · exact Or.inr (List.mem_cons_of_mem _ h)
    · simp only [setLevel, if_neg hp, List.mem_cons] at hpq
      rcases hpq with h | h
      · exact Or.inr (h ▸ List.mem_cons_self _ _)
      · rcases ih pq h with h' | h'
        · exact Or.inl h'
        · exact Or.inr (List.mem_cons_of_mem _ h')

theorem ladderRefs_setLevel_sublist (b : Ladder) (p : ℚ) (q' : Level)
    (h : List.IsSuffix (queueIds q') (queueIds ((findLevel b p).getD []))) :
    List.Sublist (ladderRefs (setLevel b p q')) (ladderRefs b) := by
  induction b with
  | nil =>
    have hnil : queueIds q' = [] := List.suffix_nil.mp (by simpa [findLevel, queueIds] using h)
    simp only [queueIds] at hnil
    simp [setLevel, ladderRefs, hnil]
  | cons e rest ih =>
    rcases e with ⟨p0, q0⟩
    by_cases hp : p0 = p
    · subst hp
      simp only [findLevel, if_pos rfl, Option.getD_some] at h
      simp only [setLevel, if_pos rfl, ladderRefs, List.flatMap_cons]
      exact List.Sublist.append (h.sublist) (List.Sublist.refl _)
    · simp only [findLevel, if_neg hp] at h
      simp only [setLevel, if_neg hp, ladderRefs, List.flatMap_cons]
      exact List.Sublist.append (List.Sublist.refl _) (ih h)

theorem ladderRefs_filter_nonempty (b : Ladder) :
    ladderRefs (b.filter fun pq => !pq.2.isEmpty) = ladderRefs b := by
  induction b with
  | nil => rfl
  | cons e rest ih =>
    rcases e with ⟨p, q⟩
    cases q with
    | nil => simpa [ladderRefs, List.filter_cons] using ih
    | cons a as =>
      simp only [ladderRefs] at ih
      simp [ladderRefs, List.filter_cons, ih]


/-! ## Basic facts about the inner matching loop -/

theorem matchStep_orders (timeSrc : ℕ → ℚ) (price : ℚ) (ctx : MatchCtx)
    (oid : OrderId) (oth : Order) :
    (matchStep timeSrc price ctx oid oth).orders
      = setOrder ctx.orders oid
          { oth with
            remaining_size :=
              oth.remaining_size - min ctx.taker.remaining_size oth.remaining_size,
            status :=
              if oth.remaining_size - min ctx.taker.remaining_size oth.remaining_size = 0
              then OStatus.filled else OStatus.partially_filled } := rfl

theorem matchStep_taker (timeSrc : ℕ → ℚ) (price : ℚ) (ctx : MatchCtx)
    (oid : OrderId) (oth : Order) :
    (matchStep timeSrc price ctx oid oth).taker
      = { ctx.taker with
          remaining_size :=
            ctx.taker.remaining_size - min ctx.taker.remaining_size oth.remaining_size } := rfl

theorem matchStep_gfills (timeSrc : ℕ → ℚ) (price : ℚ) (ctx : MatchCtx)
    (oid : OrderId) (oth : Order) :
    (matchStep timeSrc price ctx oid oth).gfills
      = ctx.gfills
        ++ [takerFill timeSrc price ctx (min ctx.taker.remaining_size oth.remaining_size),
            makerFill timeSrc price ctx oid oth
              (min ctx.taker.remaining_size oth.remaining_size)] := rfl

theorem matchStep_rfills (timeSrc : ℕ → ℚ) (price : ℚ) (ctx : MatchCtx)
    (oid : OrderId) (oth : Order) :
    (matchStep timeSrc price ctx oid oth).rfills
      = ctx.rfills
        ++ [takerFill timeSrc price ctx (min ctx.taker.remaining_size oth.remaining_size)] := rfl

theorem matchQueue_orders_frame (timeSrc : ℕ → ℚ) (price : ℚ) :
    ∀ (fuel : ℕ) (ctx : MatchCtx) (queue : Level) (id : OrderId),
      id ∉ queueIds queue →
      findOrder (matchQueue timeSrc price fuel ctx queue).1.orders id
        = findOrder ctx.orders id := by
  intro fuel
  induction fuel with
  | zero => intro ctx queue id _; rfl
  | succ n ih =>
    intro ctx queue id hid
    cases queue with
    | nil => rfl
    | cons e rest =>
      rcases e with ⟨oid, avail⟩
      simp only [queueIds, List.map_cons, List.mem_cons, not_or] at hid
      obtain ⟨hne, hrest⟩ := hid
      rw [matchQueue]
      by_cases ht : ctx.taker.remaining_size ≤ 0
      · rw [if_pos ht]
      · rw [if_neg ht]
        rcases hfo : findOrder ctx.orders oid with _ | oth
        · exact ih ctx rest id hrest
        · dsimp only
          by_cases hz : oth.remaining_size - min ctx.taker.remaining_size oth.remaining_size = 0
          · rw [if_pos hz, ih _ rest id hrest, matchStep_orders]
            exact findOrder_setOrder_ne _ _ _ _ (fun h => hne (h ▸ rfl))
          · rw [if_neg hz,
              ih _ ((oid, oth.remaining_size - min ctx.taker.remaining_size oth.remaining_size) :: rest)
                id (by simp [queueIds, hne, hrest]),
              matchStep_orders]
            exact findOrder_setOrder_ne _ _ _ _ (fun h => hne (h ▸ rfl))

theorem matchQueue_orders_none_iff (timeSrc : ℕ → ℚ) (price : ℚ) :
    ∀ (fuel : ℕ) (ctx : MatchCtx) (queue : Level) (id : OrderId),
      (findOrder (matchQueue timeSrc price fuel ctx queue).1.orders id = none
        ↔ findOrder ctx.orders id = none) := by
  intro fuel
  induction fuel with
  | zero => intro ctx queue id; rfl
  | succ n ih =>
    intro ctx queue id
    cases queue with
    | nil => rfl
    | cons e rest =>
      rcases e with ⟨oid, avail⟩
      rw [matchQueue]
      by_cases ht : ctx.taker.remaining_size ≤ 0
      · rw [if_pos ht]
      · rw [if_neg ht]
        rcases hfo : findOrder ctx.orders oid with _ | oth
        · exact ih ctx rest id
        · dsimp only
          by_cases hz : oth.remaining_size - min ctx.taker.remaining_size oth.remaining_size = 0
          · rw [if_pos hz, ih _ rest id, matchStep_orders]
            exact findOrder_setOrder_none_iff _ _ _ _ _ hfo
          · rw [if_neg hz, ih _ _ id, matchStep_orders]
            exact findOrder_setOrder_none_iff _ _ _ _ _ hfo

theorem matchQueue_taker_frame (timeSrc : ℕ → ℚ) (price : ℚ) :
    ∀ (fuel : ℕ) (ctx : MatchCtx) (queue : Level),
      (matchQueue timeSrc price fuel ctx queue).1.taker
        = { ctx.taker with
            remaining_size :=
              (matchQueue timeSrc price fuel ctx queue).1.taker.remaining_size } := by
  intro fuel
  induction fuel with
  | zero => intro ctx queue; rfl
  | succ n ih =>
    intro ctx queue
    cases queue with
    | nil => rfl
    | cons e rest =>
      rcases e with ⟨oid, avail⟩
      rw [matchQueue]
      by_cases ht : ctx.taker.remaining_size ≤ 0
      · rw [if_pos ht]
      · rw [if_neg ht]
        rcases hfo : findOrder ctx.orders oid with _ | oth
        · exact ih ctx rest
        · dsimp only
          by_cases hz : oth.remaining_size - min ctx.taker.remaining_size oth.remaining_size = 0
          · rw [if_pos hz, ih, matchStep_taker]
          · rw [if_neg hz, ih, matchStep_taker]

theorem matchQueue_queueIds_suffix (timeSrc : ℕ → ℚ) (price : ℚ) :
    ∀ (fuel : ℕ) (ctx : MatchCtx) (queue : Level),
      List.IsSuffix (queueIds (matchQueue timeSrc price fuel ctx queue).2)
        (queueIds queue) := by
  intro fuel
  induction fuel with
  | zero => intro ctx queue; exact List.suffix_refl _
  | succ n ih =>
    intro ctx queue
    cases queue with
    | nil => exact List.suffix_refl _
    | cons e rest =>
      rcases e with ⟨oid, avail⟩
      rw [matchQueue]
      by_cases ht : ctx.taker.remaining_size ≤ 0
      · rw [if_pos ht]
      · rw [if_neg ht]
        rcases hfo : findOrder ctx.orders oid with _ | oth
        · exact (ih ctx rest).trans (List.suffix_cons _ _)
        · dsimp only
          by_cases hz : oth.remaining_size - min ctx.taker.remaining_size oth.remaining_size = 0
          · rw [if_pos hz]
            exact (ih _ rest).trans (List.suffix_cons _ _)
          · rw [if_neg hz]
            exact ih _ _

/-! ## Fill-size accounting through the inner loop -/

theorem matchQueue_accounting (timeSrc : ℕ → ℚ) (price : ℚ) :
    ∀ (fuel : ℕ) (ctx : MatchCtx) (queue : Level),
      ctx.taker.order_id ∉ queueIds queue →
      (fillSum (matchQueue timeSrc price fuel ctx queue).1.gfills ctx.taker.order_id
          = fillSum ctx.gfills ctx.taker.order_id
            + (ctx.taker.remaining_size
                - (matchQueue timeSrc price fuel ctx queue).1.taker.remaining_size)) ∧
      (∀ id, id ≠ ctx.taker.order_id →
        fillSum (matchQueue timeSrc price fuel ctx queue).1.gfills id
          = fillSum ctx.gfills id
            + (remOrd ctx.orders id
                - remOrd (matchQueue timeSrc price fuel ctx queue).1.orders id)) := by
  intro fuel
  induction fuel with
  | zero =>
    intro ctx queue _
    rw [matchQueue]
    exact ⟨by dsimp only; omega, fun id _ => by dsimp only; omega⟩
  | succ n ih =>
    intro ctx queue htk
    cases queue with
    | nil =>
      rw [matchQueue]
      exact ⟨by dsimp only; omega, fun id _ => by dsimp only; omega⟩
    | cons e rest =>
      rcases e with ⟨oid, avail⟩
      simp only [queueIds, List.map_cons, List.mem_cons, not_or] at htk
      obtain ⟨hne, hrest⟩ := htk
      rw [matchQueue]
      by_cases ht : ctx.taker.remaining_size ≤ 0
      · rw [if_pos ht]
        exact ⟨by dsimp only; omega, fun id _ => by dsimp only; omega⟩
      · rw [if_neg ht]
        rcases hfo : findOrder ctx.orders oid with _ | oth
        · exact ih ctx rest hrest
        · dsimp only
          have hro : remOrd ctx.orders oid = oth.remaining_size := by
            simp [remOrd, hfo]
          by_cases hz : oth.remaining_size - min ctx.taker.remaining_size oth.remaining_size = 0
          · rw [if_pos hz]
            obtain ⟨iha, ihb⟩ :=
              ih (matchStep timeSrc price ctx oid oth) rest
                (by rw [matchStep_taker]; exact hrest)
            rw [show (matchStep timeSrc price ctx oid oth).taker.order_id
                  = ctx.taker.order_id from rfl] at iha ihb
            constructor
            · rw [iha, matchStep_gfills, fillSum_append, fillSum_pair, matchStep_taker]
              simp only [takerFill, makerFill, if_true]
              rw [if_neg (fun h : oid = ctx.taker.order_id => hne h.symm)]
              omega
            · intro id hid
              rw [ihb id hid, matchStep_gfills, fillSum_append, fillSum_pair,
                matchStep_orders]
              by_cases hoid : id = oid
              · subst hoid
                rw [remOrd_setOrder_self]
                simp only [takerFill, makerFill, if_true]
                rw [if_neg hne]
                omega
              · rw [remOrd_setOrder_ne _ _ _ _ (fun h => hoid h.symm)]
                simp only [takerFill, makerFill, if_true]
                rw [if_neg (fun h : ctx.taker.order_id = id => hid h.symm),
                  if_neg (fun h : oid = id => hoid h.symm)]
                omega
          · rw [if_neg hz]
            obtain ⟨iha, ihb⟩ :=
              ih (matchStep timeSrc price ctx oid oth)
                ((oid, oth.remaining_size
                    - min ctx.taker.remaining_size oth.remaining_size) :: rest)
                (by rw [matchStep_taker]; simp [queueIds, hne, hrest])
            rw [show (matchStep timeSrc price ctx oid oth).taker.order_id
                  = ctx.taker.order_id from rfl] at iha ihb
            constructor
            · rw [iha, matchStep_gfills, fillSum_append, fillSum_pair, matchStep_taker]
              simp only [takerFill, makerFill, if_true]
              rw [if_neg (fun h : oid = ctx.taker.order_id => hne h.symm)]
              omega
            · intro id hid
              rw [ihb id hid, matchStep_gfills, fillSum_append, fillSum_pair,
                matchStep_orders]
              by_cases hoid : id = oid
              · subst hoid
                rw [remOrd_setOrder_self]
                simp only [takerFill, makerFill, if_true]
                rw [if_neg hne]
                omega
              · rw [remOrd_setOrder_ne _ _ _ _ (fun h => hoid h.symm)]
                simp only [takerFill, makerFill, if_true]
                rw [if_neg (fun h : ctx.taker.order_id = id => hid h.symm),
                  if_neg (fun h : oid = id => hoid h.symm)]
                omega

/-! ## The queue invariant and the pair structure of emitted fills -/

theorem entryOK_setOrder_ne (orders : List (OrderId × Order)) (p : ℚ) (bs : Side)
    (e : OrderId × ℤ) (i : OrderId) (o : Order) (h : e.1 ≠ i)
    (he : entryOK orders p bs e) : entryOK (setOrder orders i o) p bs e := by
  obtain ⟨o0, ho0, hrest⟩ := he
  exact ⟨o0, by
    rw [findOrder_setOrder_ne _ _ _ _ (fun hh => h hh.symm)]
    exact ho0, hrest⟩

theorem matchQueue_invariant (timeSrc : ℕ → ℚ) (price : ℚ) (bs : Side) :
    ∀ (fuel : ℕ) (ctx : MatchCtx) (queue : Level),
      (∀ e ∈ queue, entryOK ctx.orders price bs e) →
      (queueIds queue).Nodup →
      ctx.taker.order_id ∉ queueIds queue →
      (∀ e ∈ (matchQueue timeSrc price fuel ctx queue).2,
          entryOK (matchQueue timeSrc price fuel ctx queue).1.orders price bs e) ∧
      (∀ id ∈ queueIds queue, id ∉ queueIds (matchQueue timeSrc price fuel ctx queue).2 →
          ∃ o', findOrder (matchQueue timeSrc price fuel ctx queue).1.orders id = some o' ∧
            o'.status = OStatus.filled ∧ o'.remaining_size = 0) ∧
      ((matchQueue timeSrc price fuel ctx queue).1.taker.remaining_size
          ≤ ctx.taker.remaining_size ∧
        (0 ≤ ctx.taker.remaining_size →
          0 ≤ (matchQueue timeSrc price fuel ctx queue).1.taker.remaining_size)) ∧
      (∃ ps : List (Fill × Fill),
        (matchQueue timeSrc price fuel ctx queue).1.rfills
            = ctx.rfills ++ ps.map Prod.fst ∧
        (matchQueue timeSrc price fuel ctx queue).1.gfills
            = ctx.gfills ++ ps.flatMap (fun pr => [pr.1, pr.2]) ∧
        ∀ pr ∈ ps,
          pr.1.order_id = ctx.taker.order_id ∧ pr.1.client_id = ctx.taker.client_id ∧
          pr.1.side = ctx.taker.side ∧ pr.1.price = price ∧ pr.2.price = price ∧
          pr.1.size = pr.2.size ∧ 0 < pr.1.size ∧ pr.2.side = bs ∧
          pr.2.order_id ∈ queueIds queue ∧
          ∃ k, pr.1.timestamp = timeSrc k ∧ pr.2.timestamp = timeSrc (k + 1)) := by
  intro fuel
  induction fuel with
  | zero =>
    intro ctx queue hall _ _
    rw [matchQueue]
    exact ⟨hall, fun id hin hout => absurd hin hout, ⟨le_refl _, fun h => h⟩,
      [], by simp, by simp, by simp⟩
  | succ n ih =>
    intro ctx queue hall hnd htk
    cases queue with
    | nil =>
      rw [matchQueue]
      exact ⟨fun e he => absurd he (List.not_mem_nil e), fun id hin _ => by simp [queueIds] at hin,
        ⟨le_refl _, fun h => h⟩, [], by simp, by simp, by simp⟩
    | cons e rest =>
      rcases e with ⟨oid, avail⟩
      have hnd' : (oid :: queueIds rest).Nodup := by
        simpa only [queueIds, List.map_cons] using hnd
      have hndr : (queueIds rest).Nodup := (List.nodup_cons.mp hnd').2
      have hoidr : oid ∉ queueIds rest := (List.nodup_cons.mp hnd').1
      simp only [queueIds, List.map_cons, List.mem_cons, not_or] at htk
      obtain ⟨hne, hrest⟩ := htk
      rw [matchQueue]
      by_cases ht : ctx.taker.remaining_size ≤ 0
      · rw [if_pos ht]
        exact ⟨hall, fun id hin hout => absurd hin hout, ⟨le_refl _, fun h => h⟩,
          [], by simp, by simp, by simp⟩
      · rw [if_neg ht]
        rcases hfo : findOrder ctx.orders oid with _ | oth
        · obtain ⟨o0, ho0, _⟩ := hall (oid, avail) (List.mem_cons_self _ _)
          dsimp only at ho0
          rw [hfo] at ho0
          cases ho0
        · obtain ⟨o0, ho0, hside, htype, hprice, hrem, hpos, hstat⟩ :=
            hall (oid, avail) (List.mem_cons_self _ _)
          dsimp only at ho0 hrem hpos
          rw [hfo] at ho0
          injection ho0 with ho0
          subst ho0
          dsimp only
          have hts : 0 < ctx.taker.remaining_size := by omega
          have hsl := min_le_left ctx.taker.remaining_size oth.remaining_size
          have hsr := min_le_right ctx.taker.remaining_size oth.remaining_size
          have hspos : 0 < min ctx.taker.remaining_size oth.remaining_size :=
            lt_min hts (by omega)
          by_cases hz : oth.remaining_size - min ctx.taker.remaining_size oth.remaining_size = 0
          · rw [if_pos hz]
            have hall1 : ∀ e ∈ rest,
                entryOK (matchStep timeSrc price ctx oid oth).orders price bs e := by
              intro e he
              rw [matchStep_orders]
              exact entryOK_setOrder_ne _ _ _ _ _ _
                (fun hh => hoidr (hh ▸ mem_queueIds _ _ he))
                (hall e (List.mem_cons_of_mem _ he))
            have htk1 : (matchStep timeSrc price ctx oid oth).taker.order_id
                ∉ queueIds rest := by
              rw [matchStep_taker]; exact hrest
            obtain ⟨ia, ib, ⟨ic1, ic2⟩, ps1, id1, id2, id3⟩ :=
              ih (matchStep timeSrc price ctx oid oth) rest hall1 hndr htk1
            refine ⟨ia, ?_, ?_, ?_⟩
            · intro id hin hout
              simp only [queueIds, List.map_cons, List.mem_cons] at hin
              rcases hin with rfl | hin
              · rw [matchQueue_orders_frame timeSrc price n _ rest id hoidr,
                  matchStep_orders, findOrder_setOrder_self]
                exact ⟨_, rfl, by simp [hz], by dsimp only; omega⟩
              · exact ib id hin hout
            · constructor
              · refine le_trans ic1 ?_
                rw [matchStep_taker]
                dsimp only
                omega
              · intro h0
                refine ic2 ?_
                rw [matchStep_taker]
                dsimp only
                omega
            · refine ⟨(takerFill timeSrc price ctx
                  (min ctx.taker.remaining_size oth.remaining_size),
                makerFill timeSrc price ctx oid oth
                  (min ctx.taker.remaining_size oth.remaining_size)) :: ps1, ?_, ?_, ?_⟩
              · rw [id1, matchStep_rfills]
                simp
              · rw [id2, matchStep_gfills]
                simp
              · intro pr hpr
                rcases List.mem_cons.mp hpr with rfl | hpr
                · refine ⟨rfl, rfl, rfl, rfl, rfl, rfl, hspos, hside, ?_, ctx.clock, rfl, rfl⟩
                  simp [queueIds, makerFill]
                · obtain ⟨p1, p2, p3, p4, p5, p6, p7, p8, p9, p10⟩ := id3 pr hpr
                  rw [matchStep_taker] at p1 p2 p3
                  refine ⟨p1, p2, p3, p4, p5, p6, p7, p8, ?_, p10⟩
                  simp only [queueIds, List.map_cons, List.mem_cons]
                  right
                  simpa [queueIds] using p9
          · rw [if_neg hz]
            have hall1 : ∀ e ∈ ((oid, oth.remaining_size
                  - min ctx.taker.remaining_size oth.remaining_size) :: rest),
                entryOK (matchStep timeSrc price ctx oid oth).orders price bs e := by
              intro e he
              rcases List.mem_cons.mp he with rfl | he
              · rw [matchStep_orders]
                refine ⟨_, findOrder_setOrder_self _ _ _, hside, htype, hprice, rfl, by omega, ?_⟩
                right
                simp [hz]
              · rw [matchStep_orders]
                exact entryOK_setOrder_ne _ _ _ _ _ _
                  (fun hh => hoidr (hh ▸ mem_queueIds _ _ he))
                  (hall e (List.mem_cons_of_mem _ he))
            have htk1 : (matchStep timeSrc price ctx oid oth).taker.order_id
                ∉ queueIds ((oid, oth.remaining_size
                  - min ctx.taker.remaining_size oth.remaining_size) :: rest) := by
              rw [matchStep_taker]
              simp only [queueIds, List.map_cons, List.mem_cons, not_or]
              exact ⟨hne, hrest⟩
            have hnd1 : (queueIds ((oid, oth.remaining_size
                  - min ctx.taker.remaining_size oth.remaining_size) :: rest)).Nodup := by
              simp only [queueIds, List.map_cons]
              rw [List.nodup_cons]
              exact ⟨by simpa [queueIds] using hoidr, by simpa [queueIds] using hndr⟩
            obtain ⟨ia, ib, ⟨ic1, ic2⟩, ps1, id1, id2, id3⟩ :=
              ih (matchStep timeSrc price ctx oid oth) _ hall1 hnd1 htk1
            refine ⟨ia, ?_, ?_, ?_⟩
            · intro id hin hout
              refine ib id ?_ hout
              simpa [queueIds] using hin
            · constructor
              · refine le_trans ic1 ?_
                rw [matchStep_taker]
                dsimp only
                omega
              · intro h0
                refine ic2 ?_
                rw [matchStep_taker]
                dsimp only
                omega
            · refine ⟨(takerFill timeSrc price ctx
                  (min ctx.taker.remaining_size oth.remaining_size),
                makerFill timeSrc price ctx oid oth
                  (min ctx.taker.remaining_size oth.remaining_size)) :: ps1, ?_, ?_, ?_⟩
              · rw [id1, matchStep_rfills]
                simp
              · rw [id2, matchStep_gfills]
                simp
              · intro pr hpr
                rcases List.mem_cons.mp hpr with rfl | hpr
                · refine ⟨rfl, rfl, rfl, rfl, rfl, rfl, hspos, hside, ?_, ctx.clock, rfl, rfl⟩
                  simp [queueIds, makerFill]
                · obtain ⟨p1, p2, p3, p4, p5, p6, p7, p8, p9, p10⟩ := id3 pr hpr
                  rw [matchStep_taker] at p1 p2 p3
                  refine ⟨p1, p2, p3, p4, p5, p6, p7, p8, ?_, p10⟩
                  simpa [queueIds] using p9

/-! ## Ladder-level helper lemmas -/

theorem mem_setLevel_self (b : Ladder) (p : ℚ) (q' : Level) :
    (p, q') ∈ setLevel b p q' := by
  induction b with
  | nil => simp [setLevel]
  | cons e rest ih =>
    by_cases hp : e.1 = p
    · simp [setLevel, hp]
    · simp only [setLevel, if_neg hp, List.mem_cons]
      exact Or.inr ih

theorem queueIds_findLevel_sublist (b : Ladder) (p : ℚ) :
    List.Sublist (queueIds ((findLevel b p).getD [])) (ladderRefs b) := by
  induction b with
  | nil => simp [findLevel, queueIds, ladderRefs]
  | cons e rest ih =>
    rcases e with ⟨p0, q0⟩
    by_cases hp : p0 = p
    · subst hp
      simp only [findLevel, if_pos rfl, Option.getD_some, ladderRefs, List.flatMap_cons]
      exact (List.sublist_append_left _ _)
    · simp only [findLevel, if_neg hp, ladderRefs, List.flatMap_cons]
      exact ih.trans (List.sublist_append_right _ _)

theorem mem_setLevel_cases (b : Ladder) (p : ℚ) (q' : Level)
    (hnd : (ladderRefs b).Nodup) :
    ∀ pq ∈ setLevel b p q', pq = (p, q') ∨
      (pq ∈ b ∧ ∀ e ∈ pq.2, e.1 ∉ queueIds ((findLevel b p).getD [])) := by
  induction b with
  | nil =>
    intro pq hpq
    simp only [setLevel, List.mem_singleton] at hpq
    exact Or.inl hpq
  | cons hd rest ih =>
    rcases hd with ⟨p0, q0⟩
    intro pq hpq
    have hnd' : (queueIds q0 ++ ladderRefs rest).Nodup := by
      simpa [ladderRefs, queueIds] using hnd
    have hdisj : ∀ a, a ∈ queueIds q0 → a ∉ ladderRefs rest :=
      fun a ha => (List.disjoint_of_nodup_append hnd') ha
    by_cases hp : p0 = p
    · subst hp
      simp only [setLevel, eq_self_iff_true, if_true, List.mem_cons] at hpq
      rcases hpq with rfl | hpq
      · exact Or.inl rfl
      · refine Or.inr ⟨List.mem_cons_of_mem _ hpq, fun e he hq => ?_⟩
        simp only [findLevel, eq_self_iff_true, if_true, Option.getD_some] at hq
        exact hdisj e.1 hq (mem_ladderRefs rest pq e hpq he)
    · simp only [setLevel, if_neg hp, List.mem_cons] at hpq
      rcases hpq with rfl | hpq
      · refine Or.inr ⟨List.mem_cons_self _ _, fun e he hq => ?_⟩
        simp only [findLevel, if_neg hp] at hq
        exact hdisj e.1 (mem_queueIds _ _ he)
          ((queueIds_findLevel_sublist rest p).subset hq)
      · have hndr : (ladderRefs rest).Nodup := (List.nodup_append.mp hnd').2.1
        rcases ih hndr pq hpq with h | ⟨hmem, hids⟩
        · exact Or.inl h
        · refine Or.inr ⟨List.mem_cons_of_mem _ hmem, fun e he hq => ?_⟩
          refine hids e he ?_
          simpa only [findLevel, if_neg hp] using hq

theorem mem_refs_setLevel_or (b : Ladder) (p : ℚ) (q' : Level) :
    ∀ id ∈ ladderRefs b,
      id ∈ ladderRefs (setLevel b p q') ∨ id ∈ queueIds ((findLevel b p).getD []) := by
  induction b with
  | nil => simp [ladderRefs]
  | cons hd rest ih =>
    rcases hd with ⟨p0, q0⟩
    intro id hid
    simp only [ladderRefs, List.flatMap_cons, List.mem_append] at hid
    by_cases hp : p0 = p
    · subst hp
      rcases hid with hid | hid
      · right
        simpa [findLevel, queueIds] using hid
      · left
        simp only [setLevel, eq_self_iff_true, if_true, ladderRefs, List.flatMap_cons, List.mem_append]
        right
        simpa [ladderRefs] using hid
    · rcases hid with hid | hid
      · left
        simp only [setLevel, if_neg hp, ladderRefs, List.flatMap_cons, List.mem_append]
        left
        exact hid
      · rcases ih id (by simpa [ladderRefs] using hid) with h | h
        · left
          simp only [setLevel, if_neg hp, ladderRefs, List.flatMap_cons, List.mem_append]
          right
          simpa [ladderRefs] using h
        · right
          simpa only [findLevel, if_neg hp] using h

theorem entryOK_frame (orders orders' : List (OrderId × Order)) (p : ℚ) (bs : Side)
    (e : OrderId × ℤ) (h : findOrder orders' e.1 = findOrder orders e.1)
    (he : entryOK orders p bs e) : entryOK orders' p bs e := by
  obtain ⟨o, ho, hrest⟩ := he
  exact ⟨o, h.trans ho, hrest⟩

theorem matchQueue_taker_order_id (timeSrc : ℕ → ℚ) (price : ℚ) (fuel : ℕ)
    (ctx : MatchCtx) (queue : Level) :
    (matchQueue timeSrc price fuel ctx queue).1.taker.order_id = ctx.taker.order_id := by
  rw [matchQueue_taker_frame]

/-! ## Facts about the outer per-price loop -/

theorem matchPrices_orders_frame (timeSrc : ℕ → ℚ) :
    ∀ (prices : List ℚ) (ctx : MatchCtx) (book : Ladder) (id : OrderId),
      id ∉ ladderRefs book →
      findOrder (matchPrices timeSrc ctx book prices).1.orders id
        = findOrder ctx.orders id := by
  intro prices
  induction prices with
  | nil => intro ctx book id _; rfl
  | cons p ps ih =>
    intro ctx book id hid
    rw [matchPrices]
    by_cases ht : ctx.taker.remaining_size ≤ 0
    · rw [if_pos ht]
    · rw [if_neg ht]
      dsimp only
      have hidq : id ∉ queueIds ((findLevel book p).getD []) :=
        fun h => hid (queueIds_sub_ladderRefs book p id h)
      rw [ih _ _ id (fun hmem => hid ((ladderRefs_setLevel_sublist book p _
          (matchQueue_queueIds_suffix timeSrc p _ ctx _)).subset hmem))]
      exact matchQueue_orders_frame timeSrc p _ ctx _ id hidq

theorem matchPrices_orders_none_iff (timeSrc : ℕ → ℚ) :
    ∀ (prices : List ℚ) (ctx : MatchCtx) (book : Ladder) (id : OrderId),
      (findOrder (matchPrices timeSrc ctx book prices).1.orders id = none
        ↔ findOrder ctx.orders id = none) := by
  intro prices
  induction prices with
  | nil => intro ctx book id; rfl
  | cons p ps ih =>
    intro ctx book id
    rw [matchPrices]
    by_cases ht : ctx.taker.remaining_size ≤ 0
    · rw [if_pos ht]
    · rw [if_neg ht]
      dsimp only
      exact (ih _ _ id).trans (matchQueue_orders_none_iff timeSrc p _ ctx _ id)

theorem matchPrices_taker_frame (timeSrc : ℕ → ℚ) :
    ∀ (prices : List ℚ) (ctx : MatchCtx) (book : Ladder),
      (matchPrices timeSrc ctx book prices).1.taker
        = { ctx.taker with
            remaining_size :=
              (matchPrices timeSrc ctx book prices).1.taker.remaining_size } := by
  intro prices
  induction prices with
  | nil => intro ctx book; rfl
  | cons p ps ih =>
    intro ctx book
    rw [matchPrices]
    by_cases ht : ctx.taker.remaining_size ≤ 0
    · rw [if_pos ht]
    · rw [if_neg ht]
      dsimp only
      rw [ih, matchQueue_taker_frame]

theorem matchPrices_taker_order_id (timeSrc : ℕ → ℚ) (prices : List ℚ)
    (ctx : MatchCtx) (book : Ladder) :
    (matchPrices timeSrc ctx book prices).1.taker.order_id = ctx.taker.order_id := by
  rw [matchPrices_taker_frame]

theorem matchPrices_refs_sublist (timeSrc : ℕ → ℚ) :
    ∀ (prices : List ℚ) (ctx : MatchCtx) (book : Ladder),
      List.Sublist (ladderRefs (matchPrices timeSrc ctx book prices).2)
        (ladderRefs book) := by
  intro prices
  induction prices with
  | nil => intro ctx book; exact List.Sublist.refl _
  | cons p ps ih =>
    intro ctx book
    rw [matchPrices]
    by_cases ht : ctx.taker.remaining_size ≤ 0
    · rw [if_pos ht]
    · rw [if_neg ht]
      dsimp only
      exact (ih _ _).trans (ladderRefs_setLevel_sublist book p _
        (matchQueue_queueIds_suffix timeSrc p _ ctx _))

theorem matchPrices_accounting (timeSrc : ℕ → ℚ) :
    ∀ (prices : List ℚ) (ctx : MatchCtx) (book : Ladder),
      ctx.taker.order_id ∉ ladderRefs book →
      (fillSum (matchPrices timeSrc ctx book prices).1.gfills ctx.taker.order_id
          = fillSum ctx.gfills ctx.taker.order_id
            + (ctx.taker.remaining_size
                - (matchPrices timeSrc ctx book prices).1.taker.remaining_size)) ∧
      (∀ id, id ≠ ctx.taker.order_id →
        fillSum (matchPrices timeSrc ctx book prices).1.gfills id
          = fillSum ctx.gfills id
            + (remOrd ctx.orders id
                - remOrd (matchPrices timeSrc ctx book prices).1.orders id)) := by
  intro prices
  induction prices with
  | nil =>
    intro ctx book _
    rw [matchPrices]
    exact ⟨by dsimp only; omega, fun id _ => by dsimp only; omega⟩
  | cons p ps ih =>
    intro ctx book htk
    rw [matchPrices]
    by_cases ht : ctx.taker.remaining_size ≤ 0
    · rw [if_pos ht]
      exact ⟨by dsimp only; omega, fun id _ => by dsimp only; omega⟩
    · rw [if_neg ht]
      dsimp only
      have htkq : ctx.taker.order_id ∉ queueIds ((findLevel book p).getD []) :=
        fun h => htk (queueIds_sub_ladderRefs book p _ h)
      obtain ⟨qa, qb⟩ := matchQueue_accounting timeSrc p
        (((findLevel book p).getD []).length + ctx.taker.remaining_size.toNat + 2)
        ctx _ htkq
      obtain ⟨pa, pb⟩ := ih (matchQueue timeSrc p
          (((findLevel book p).getD []).length + ctx.taker.remaining_size.toNat + 2)
          ctx ((findLevel book p).getD [])).1
        (setLevel book p (matchQueue timeSrc p
          (((findLevel book p).getD []).length + ctx.taker.remaining_size.toNat + 2)
          ctx ((findLevel book p).getD [])).2)
        (by
          rw [matchQueue_taker_order_id]
          exact fun hmem => htk ((ladderRefs_setLevel_sublist book p _
            (matchQueue_queueIds_suffix timeSrc p _ ctx _)).subset hmem))
      rw [matchQueue_taker_order_id] at pa pb
      constructor
      · rw [pa, qa]
        omega
      · intro id hid
        rw [pb id hid, qb id hid]
        omega

theorem matchPrices_invariant (timeSrc : ℕ → ℚ) (bs : Side) :
    ∀ (prices : List ℚ) (ctx : MatchCtx) (book : Ladder),
      ladderOK ctx.orders bs book →
      (ladderRefs book).Nodup →
      ctx.taker.order_id ∉ ladderRefs book →
      ladderOK (matchPrices timeSrc ctx book prices).1.orders bs
          (matchPrices timeSrc ctx book prices).2 ∧
      (∀ id ∈ ladderRefs book,
          id ∉ ladderRefs (matchPrices timeSrc ctx book prices).2 →
          ∃ o', findOrder (matchPrices timeSrc ctx book prices).1.orders id = some o' ∧
            o'.status = OStatus.filled ∧ o'.remaining_size = 0) ∧
      ((matchPrices timeSrc ctx book prices).1.taker.remaining_size
          ≤ ctx.taker.remaining_size ∧
        (0 ≤ ctx.taker.remaining_size →
          0 ≤ (matchPrices timeSrc ctx book prices).1.taker.remaining_size)) ∧
      (∃ ps : List (Fill × Fill),
        (matchPrices timeSrc ctx book prices).1.rfills = ctx.rfills ++ ps.map Prod.fst ∧
        (matchPrices timeSrc ctx book prices).1.gfills
            = ctx.gfills ++ ps.flatMap (fun pr => [pr.1, pr.2]) ∧
        ∀ pr ∈ ps,
          pr.1.order_id = ctx.taker.order_id ∧ pr.1.client_id = ctx.taker.client_id ∧
          pr.1.side = ctx.taker.side ∧ pr.1.price = pr.2.price ∧
          pr.1.size = pr.2.size ∧ 0 < pr.1.size ∧ pr.2.side = bs ∧
          pr.2.order_id ∈ ladderRefs book ∧
          ∃ k, pr.1.timestamp = timeSrc k ∧ pr.2.timestamp = timeSrc (k + 1)) := by
  intro prices
  induction prices with
  | nil =>
    intro ctx book hall hnd htk
    rw [matchPrices]
    exact ⟨hall, fun id hin hout => absurd hin hout, ⟨le_refl _, fun h => h⟩,
      [], by simp, by simp, by simp⟩
  | cons p ps ih =>
    intro ctx book hall hnd htk
    rw [matchPrices]
    by_cases ht : ctx.taker.remaining_size ≤ 0
    · rw [if_pos ht]
      exact ⟨hall, fun id hin hout => absurd hin hout, ⟨le_refl _, fun h => h⟩,
        [], by simp, by simp, by simp⟩
    · rw [if_neg ht]
      dsimp only
      have hallq : ∀ e ∈ (findLevel book p).getD [], entryOK ctx.orders p bs e := by
        intro e he
        rcases hfl : findLevel book p with _ | q
        · rw [hfl] at he
          cases he
        · rw [hfl] at he
          exact hall (p, q) (findLevel_mem book p q hfl) e he
      have hndq : (queueIds ((findLevel book p).getD [])).Nodup :=
        hnd.sublist (queueIds_findLevel_sublist book p)
      have htkq : ctx.taker.order_id ∉ queueIds ((findLevel book p).getD []) :=
        fun h => htk (queueIds_sub_ladderRefs book p _ h)
      obtain ⟨ia, ib, ⟨ic1, ic2⟩, ps1, j1, j2, j3⟩ :=
        matchQueue_invariant timeSrc p bs
          (((findLevel book p).getD []).length + ctx.taker.remaining_size.toNat + 2)
          ctx _ hallq hndq htkq
      have hsetsub := ladderRefs_setLevel_sublist book p
        (matchQueue timeSrc p
          (((findLevel book p).getD []).length + ctx.taker.remaining_size.toNat + 2)
          ctx ((findLevel book p).getD [])).2
        (matchQueue_queueIds_suffix timeSrc p _ ctx _)
      have hall1 : ladderOK (matchQueue timeSrc p
          (((findLevel book p).getD []).length + ctx.taker.remaining_size.toNat + 2)
          ctx ((findLevel book p).getD [])).1.orders bs
          (setLevel book p (matchQueue timeSrc p
            (((findLevel book p).getD []).length + ctx.taker.remaining_size.toNat + 2)
            ctx ((findLevel book p).getD [])).2) := by
        intro pq hpq e he
        rcases mem_setLevel_cases book p _ hnd pq hpq with heq | ⟨hmem, hnotq⟩
        · subst heq
          exact ia e he
        · exact entryOK_frame ctx.orders _ pq.1 bs e
            (matchQueue_orders_frame timeSrc p _ ctx _ e.1 (hnotq e he))
            (hall pq hmem e he)
      have hnd1 : (ladderRefs (setLevel book p (matchQueue timeSrc p
          (((findLevel book p).getD []).length + ctx.taker.remaining_size.toNat + 2)
          ctx ((findLevel book p).getD [])).2)).Nodup :=
        hnd.sublist hsetsub
      have htk1 : (matchQueue timeSrc p
          (((findLevel book p).getD []).length + ctx.taker.remaining_size.toNat + 2)
          ctx ((findLevel book p).getD [])).1.taker.order_id
          ∉ ladderRefs (setLevel book p (matchQueue timeSrc p
            (((findLevel book p).getD []).length + ctx.taker.remaining_size.toNat + 2)
            ctx ((findLevel book p).getD [])).2) := by
        rw [matchQueue_taker_order_id]
        exact fun hmem => htk (hsetsub.subset hmem)
      obtain ⟨A2, B2, ⟨C2a, C2b⟩, ps2, k1, k2, k3⟩ := ih _ _ hall1 hnd1 htk1
      have e1 := matchQueue_taker_order_id timeSrc p
        (((findLevel book p).getD []).length + ctx.taker.remaining_size.toNat + 2)
        ctx ((findLevel book p).getD [])
      have e2 : (matchQueue timeSrc p
          (((findLevel book p).getD []).length + ctx.taker.remaining_size.toNat + 2)
          ctx ((findLevel book p).getD [])).1.taker.client_id
          = ctx.taker.client_id := by rw [matchQueue_taker_frame]
      have e3 : (matchQueue timeSrc p
          (((findLevel book p).getD []).length + ctx.taker.remaining_size.toNat + 2)
          ctx ((findLevel book p).getD [])).1.taker.side
          = ctx.taker.side := by rw [matchQueue_taker_frame]
      refine ⟨A2, ?_, ?_, ?_⟩
      · intro id hin hout
        by_cases hid1 : id ∈ ladderRefs (setLevel book p (matchQueue timeSrc p
            (((findLevel book p).getD []).length + ctx.taker.remaining_size.toNat + 2)
            ctx ((findLevel book p).getD [])).2)
        · exact B2 id hid1 hout
        · have hidq : id ∈ queueIds ((findLevel book p).getD []) :=
            (mem_refs_setLevel_or book p _ id hin).resolve_left hid1
          have hidq2 : id ∉ queueIds (matchQueue timeSrc p
              (((findLevel book p).getD []).length + ctx.taker.remaining_size.toNat + 2)
              ctx ((findLevel book p).getD [])).2 := by
            intro h
            rcases List.mem_map.mp h with ⟨e, he, rfl⟩
            exact hid1 (mem_ladderRefs _ (p, _) e (mem_setLevel_self book p _) he)
          obtain ⟨o', ho', h1, h2⟩ := ib id hidq hidq2
          refine ⟨o', ?_, h1, h2⟩
          rw [matchPrices_orders_frame timeSrc ps _ _ id hid1]
          exact ho'
      · exact ⟨le_trans C2a ic1, fun h0 => C2b (ic2 h0)⟩
      · refine ⟨ps1 ++ ps2, ?_, ?_, ?_⟩
        · rw [k1, j1, List.map_append, List.append_assoc]
        · rw [k2, j2, List.flatMap_append, List.append_assoc]
        · intro pr hpr
          rcases List.mem_append.mp hpr with h | h
          · obtain ⟨p1, p2, p3, p4, p5, p6, p7, p8, p9, p10⟩ := j3 pr h
            exact ⟨p1, p2, p3, p4.trans p5.symm, p6, p7, p8,
              queueIds_sub_ladderRefs book p _ p9, p10⟩
          · obtain ⟨p1, p2, p3, p4, p5, p6, p7, p8, p9⟩ := k3 pr h
            exact ⟨p1.trans e1, p2.trans e2, p3.trans e3, p4, p5, p6, p7,
              hsetsub.subset p8, p9⟩

/-- The state invariant of the book maintained by submissions and cancels:
queue entries are coherent with the order index (own side, limit type,
matching price and cached size), every order id is referenced at most once
book-wide, an indexed order is referenced exactly when it is resting-eligible
(`active`, or `partially_filled` for a limit order), and the recorded fills
account exactly for the drained sizes. -/
def Inv (lob : LimitOrderBook) : Prop :=
  ladderOK lob.orders Side.buy lob.bids ∧
  ladderOK lob.orders Side.sell lob.asks ∧
  (allRefs lob).Nodup ∧
  (ladderKeys lob.bids).Nodup ∧
  (ladderKeys lob.asks).Nodup ∧
  (∀ id o, findOrder lob.orders id = some o → (restingStatus o ↔ id ∈ allRefs lob)) ∧
  (∀ id o, findOrder lob.orders id = some o →
      fillSum lob.fills id = o.size - o.remaining_size ∧
        0 ≤ o.remaining_size ∧ o.remaining_size ≤ o.size) ∧
  (∀ id, findOrder lob.orders id = none → fillSum lob.fills id = 0)

/-- `Inv` with the resting-status clause withheld at one order id: the
intermediate state between matching and the final status/queue bookkeeping
of the taker satisfies this. -/
def InvAt (lob : LimitOrderBook) (tid : OrderId) : Prop :=
  ladderOK lob.orders Side.buy lob.bids ∧
  ladderOK lob.orders Side.sell lob.asks ∧
  (allRefs lob).Nodup ∧
  (ladderKeys lob.bids).Nodup ∧
  (ladderKeys lob.asks).Nodup ∧
  (∀ id o, id ≠ tid → findOrder lob.orders id = some o →
      (restingStatus o ↔ id ∈ allRefs lob)) ∧
  (∀ id o, findOrder lob.orders id = some o →
      fillSum lob.fills id = o.size - o.remaining_size ∧
        0 ≤ o.remaining_size ∧ o.remaining_size ≤ o.size) ∧
  (∀ id, findOrder lob.orders id = none → fillSum lob.fills id = 0)

theorem InvAt_of_Inv {lob : LimitOrderBook} (tid : OrderId) (h : Inv lob) :
    InvAt lob tid := by
  obtain ⟨h1, h2, h3, h4, h5, h6, h7, h8⟩ := h
  exact ⟨h1, h2, h3, h4, h5, fun id o _ => h6 id o, h7, h8⟩

theorem Inv_of_InvAt {lob : LimitOrderBook} {tid : OrderId} (h : InvAt lob tid)
    (ht : ∀ o, findOrder lob.orders tid = some o → (restingStatus o ↔ tid ∈ allRefs lob)) :
    Inv lob := by
  obtain ⟨h1, h2, h3, h4, h5, h6, h7, h8⟩ := h
  refine ⟨h1, h2, h3, h4, h5, fun id o ho => ?_, h7, h8⟩
  by_cases hid : id = tid
  · subst hid
    exact ht o ho
  · exact h6 id o hid ho

/-- Writing a fresh record (with `remaining_size = size`) into the index
preserves everything except possibly the resting clause at that id. -/
theorem InvAt_setOrder_fresh {lob : LimitOrderBook} {tid : OrderId} {w : Order}
    (hInv : Inv lob)
    (hnone : findOrder lob.orders tid = none)
    (hfresh : tid ∉ allRefs lob)
    (hwr : w.remaining_size = w.size)
    (h0 : 0 ≤ w.size) :
    InvAt { lob with orders := setOrder lob.orders tid w } tid := by
  obtain ⟨h1, h2, h3, h4, h5, h6, h7, h8⟩ := hInv
  have hfills0 : fillSum lob.fills tid = 0 := h8 tid hnone
  refine ⟨?_, ?_, h3, h4, h5, ?_, ?_, ?_⟩
  · intro pq hpq e he
    have hne : e.1 ≠ tid := fun hh =>
      hfresh (hh ▸ List.mem_append_left _ (mem_ladderRefs _ pq e hpq he))
    obtain ⟨o, ho, hrest⟩ := h1 pq hpq e he
    exact ⟨o, by rw [findOrder_setOrder_ne _ _ _ _ (fun hh => hne hh.symm)]; exact ho, hrest⟩
  · intro pq hpq e he
    have hne : e.1 ≠ tid := fun hh =>
      hfresh (hh ▸ List.mem_append_right _ (mem_ladderRefs _ pq e hpq he))
    obtain ⟨o, ho, hrest⟩ := h2 pq hpq e he
    exact ⟨o, by rw [findOrder_setOrder_ne _ _ _ _ (fun hh => hne hh.symm)]; exact ho, hrest⟩
  · intro id o hid ho
    rw [findOrder_setOrder_ne _ _ _ _ (fun hh => hid hh.symm)] at ho
    exact h6 id o ho
  · intro id o ho
    by_cases hid : id = tid
    · subst hid
      rw [findOrder_setOrder_self] at ho
      cases ho
      refine ⟨by rw [hfills0, hwr]; ring, by omega, by omega⟩
    · rw [findOrder_setOrder_ne _ _ _ _ (fun hh => hid hh.symm)] at ho
      exact h7 id o ho
  · intro id ho
    by_cases hid : id = tid
    · subst hid
      rw [findOrder_setOrder_self] at ho
      cases ho
    · rw [findOrder_setOrder_ne _ _ _ _ (fun hh => hid hh.symm)] at ho
      exact h8 id ho

theorem fillSum_nonneg (fs : List Fill) (id : OrderId)
    (h : ∀ f ∈ fs, 0 ≤ f.size) : 0 ≤ fillSum fs id := by
  induction fs with
  | nil => simp [fillSum]
  | cons f rest ih =>
    have hr := ih fun g hg => h g (List.mem_cons_of_mem _ hg)
    have hf0 := h f (List.mem_cons_self _ _)
    by_cases hf : f.order_id = id
    · simp [fillSum, List.filter_cons, hf] at hr ⊢
      omega
    · simp [fillSum, List.filter_cons, hf] at hr ⊢
      omega


/-! ## Specification of `_match_market_order` -/

/-- Agreement of an order record with another on all fields except
`remaining_size` and `status`. -/
def sameCore (a b : Order) : Prop :=
  a.order_id = b.order_id ∧ a.client_id = b.client_id ∧ a.side = b.side ∧
    a.type = b.type ∧ a.price = b.price ∧ a.size = b.size ∧ a.timestamp = b.timestamp

theorem match_market_order_tick (timeSrc : ℕ → ℚ) (lob : LimitOrderBook) (order : Order) :
    (match_market_order timeSrc lob order).2.1.tick_size = lob.tick_size := by
  rw [match_market_order]
  split_ifs <;> rfl

theorem match_market_order_own_buy (timeSrc : ℕ → ℚ) (lob : LimitOrderBook)
    (order : Order) (hs : order.side = Side.buy) :
    (match_market_order timeSrc lob order).2.1.bids = lob.bids := by
  rw [match_market_order]
  simp only [hs, reduceIte]
  split_ifs <;> rfl

theorem match_market_order_own_sell (timeSrc : ℕ → ℚ) (lob : LimitOrderBook)
    (order : Order) (hs : order.side = Side.sell) :
    (match_market_order timeSrc lob order).2.1.asks = lob.asks := by
  rw [match_market_order]
  simp only [hs, reduceCtorEq, if_false, ite_false, if_true, ite_true]
  split_ifs <;> rfl

theorem match_market_order_taker_core (timeSrc : ℕ → ℚ) (lob : LimitOrderBook)
    (order : Order) :
    sameCore (match_market_order timeSrc lob order).2.2 order := by
  rw [match_market_order]
  dsimp only
  split_ifs <;>
    refine ⟨?_, ?_, ?_, ?_, ?_, ?_, ?_⟩ <;>
      first
        | rfl
        | (rw [matchPrices_taker_frame]; try rfl)

theorem match_market_order_empty (timeSrc : ℕ → ℚ) (lob : LimitOrderBook)
    (order : Order) (h : (if order.side = Side.buy then lob.asks else lob.bids) = []) :
    match_market_order timeSrc lob order
      = ([], lob, { order with status := OStatus.rejected }) := by
  rw [match_market_order]
  have hemp : (if order.side = Side.buy then lob.asks else lob.bids).isEmpty := by
    simp [h]
  rw [if_pos hemp]

theorem match_market_order_status (timeSrc : ℕ → ℚ) (lob : LimitOrderBook)
    (order : Order) (h : (if order.side = Side.buy then lob.asks else lob.bids) ≠ []) :
    (match_market_order timeSrc lob order).2.2.status
      = (if (match_market_order timeSrc lob order).2.2.remaining_size = 0
         then OStatus.filled else OStatus.partially_filled) := by
  rw [match_market_order]
  have hemp : ¬ (if order.side = Side.buy then lob.asks else lob.bids).isEmpty := by
    simpa [List.isEmpty_iff] using h
  rw [if_neg hemp]
  dsimp only
  split_ifs <;> simp_all

/-! ## Field preservation of maker records -/

theorem sameCore_refl (a : Order) : sameCore a a :=
  ⟨rfl, rfl, rfl, rfl, rfl, rfl, rfl⟩

theorem sameCore_trans {a b c : Order} (h1 : sameCore a b) (h2 : sameCore b c) :
    sameCore a c := by
  obtain ⟨x1, x2, x3, x4, x5, x6, x7⟩ := h1
  obtain ⟨y1, y2, y3, y4, y5, y6, y7⟩ := h2
  exact ⟨x1.trans y1, x2.trans y2, x3.trans y3, x4.trans y4, x5.trans y5,
    x6.trans y6, x7.trans y7⟩

theorem matchQueue_orders_core (timeSrc : ℕ → ℚ) (price : ℚ) :
    ∀ (fuel : ℕ) (ctx : MatchCtx) (queue : Level) (id : OrderId) (o o' : Order),
      findOrder ctx.orders id = some o →
      findOrder (matchQueue timeSrc price fuel ctx queue).1.orders id = some o' →
      sameCore o' o := by
  intro fuel
  induction fuel with
  | zero =>
    intro ctx queue id o o' h1 h2
    rw [matchQueue, h1] at h2
    cases h2
    exact sameCore_refl o
  | succ n ih =>
    intro ctx queue id o o' h1 h2
    cases queue with
    | nil =>
      rw [matchQueue, h1] at h2
      cases h2
      exact sameCore_refl o
    | cons e rest =>
      rcases e with ⟨oid, avail⟩
      rw [matchQueue] at h2
      by_cases ht : ctx.taker.remaining_size ≤ 0
      · rw [if_pos ht] at h2
        dsimp only at h2
        rw [h1] at h2
        cases h2
        exact sameCore_refl o
      · rw [if_neg ht] at h2
        rcases hfo : findOrder ctx.orders oid with _ | oth
        · rw [hfo] at h2
          exact ih ctx rest id o o' h1 h2
        · rw [hfo] at h2
          dsimp only at h2
          have hstep : ∀ queue' : Level,
              findOrder (matchQueue timeSrc price n
                (matchStep timeSrc price ctx oid oth) queue').1.orders id = some o' →
              sameCore o' o := by
            intro queue' hq
            by_cases hio : id = oid
            · subst hio
              have hoo : oth = o := by
                rw [h1] at hfo
                exact ((Option.some.injEq _ _).mp hfo.symm)
              have hmid : findOrder (matchStep timeSrc price ctx id oth).orders id
                  = some { oth with
                      remaining_size := oth.remaining_size
                        - min ctx.taker.remaining_size oth.remaining_size,
                      status := if oth.remaining_size
                          - min ctx.taker.remaining_size oth.remaining_size = 0
                        then OStatus.filled else OStatus.partially_filled } := by
                rw [matchStep_orders]
                exact findOrder_setOrder_self _ _ _
              refine sameCore_trans (ih _ queue' id _ o' hmid hq) ?_
              subst hoo
              exact ⟨rfl, rfl, rfl, rfl, rfl, rfl, rfl⟩
            · have hmid : findOrder (matchStep timeSrc price ctx oid oth).orders id
                  = some o := by
                rw [matchStep_orders,
                  findOrder_setOrder_ne _ _ _ _ (fun h => hio h.symm)]
                exact h1
              exact ih _ queue' id o o' hmid hq
          by_cases hz : oth.remaining_size - min ctx.taker.remaining_size oth.remaining_size = 0
          · rw [if_pos hz] at h2
            exact hstep rest h2
          · rw [if_neg hz] at h2
            exact hstep _ h2

theorem matchPrices_orders_core (timeSrc : ℕ → ℚ) :
    ∀ (prices : List ℚ) (ctx : MatchCtx) (book : Ladder) (id : OrderId) (o o' : Order),
      findOrder ctx.orders id = some o →
      findOrder (matchPrices timeSrc ctx book prices).1.orders id = some o' →
      sameCore o' o := by
  intro prices
  induction prices with
  | nil =>
    intro ctx book id o o' h1 h2
    rw [matchPrices, h1] at h2
    cases h2
    exact sameCore_refl o
  | cons p ps ih =>
    intro ctx book id o o' h1 h2
    rw [matchPrices] at h2
    by_cases ht : ctx.taker.remaining_size ≤ 0
    · rw [if_pos ht] at h2
      dsimp only at h2
      rw [h1] at h2
      cases h2
      exact sameCore_refl o
    · rw [if_neg ht] at h2
      dsimp only at h2
      rcases hmid : findOrder (matchQueue timeSrc p
          (((findLevel book p).getD []).length + ctx.taker.remaining_size.toNat + 2)
          ctx ((findLevel book p).getD [])).1.orders id with _ | omid
      · rw [(matchPrices_orders_none_iff timeSrc ps _ _ id).mpr hmid] at h2
        cases h2
      · exact sameCore_trans (ih _ _ id omid o' hmid h2)
          (matchQueue_orders_core timeSrc p _ ctx _ id o omid h1 hmid)

/-! ## Per-side unfolding of `_match_market_order` -/

/-- The loop context at entry of `_match_market_order`. -/
def initCtx (lob : LimitOrderBook) (order : Order) : MatchCtx :=
  { orders := lob.orders, taker := order, rfills := [], gfills := [],
    last_trade_price := lob.last_trade_price,
    last_trade_size := lob.last_trade_size, clock := lob.clock }

theorem match_market_order_buy_eq (timeSrc : ℕ → ℚ) (lob : LimitOrderBook)
    (order : Order) (hs : order.side = Side.buy) (h : lob.asks ≠ []) :
    match_market_order timeSrc lob order =
      ((matchPrices timeSrc (initCtx lob order) lob.asks
          (sortAsc (ladderKeys lob.asks))).1.rfills,
       { lob with
         asks := (matchPrices timeSrc (initCtx lob order) lob.asks
             (sortAsc (ladderKeys lob.asks))).2.filter fun pq => !pq.2.isEmpty,
         orders := (matchPrices timeSrc (initCtx lob order) lob.asks
             (sortAsc (ladderKeys lob.asks))).1.orders,
         fills := lob.fills ++ (matchPrices timeSrc (initCtx lob order) lob.asks
             (sortAsc (ladderKeys lob.asks))).1.gfills,
         last_trade_price := (matchPrices timeSrc (initCtx lob order) lob.asks
             (sortAsc (ladderKeys lob.asks))).1.last_trade_price,
         last_trade_size := (matchPrices timeSrc (initCtx lob order) lob.asks
             (sortAsc (ladderKeys lob.asks))).1.last_trade_size,
         clock := (matchPrices timeSrc (initCtx lob order) lob.asks
             (sortAsc (ladderKeys lob.asks))).1.clock },
       if (matchPrices timeSrc (initCtx lob order) lob.asks
             (sortAsc (ladderKeys lob.asks))).1.taker.remaining_size = 0
       then { (matchPrices timeSrc (initCtx lob order) lob.asks
             (sortAsc (ladderKeys lob.asks))).1.taker with status := OStatus.filled }
       else { (matchPrices timeSrc (initCtx lob order) lob.asks
             (sortAsc (ladderKeys lob.asks))).1.taker with
            status := OStatus.partially_filled }) := by
  rw [match_market_order]
  simp only [hs, eq_self_iff_true, if_true, ite_true, reduceCtorEq, if_false, ite_false]
  rw [if_neg (by simpa [List.isEmpty_iff] using h)]
  rfl

theorem match_market_order_sell_eq (timeSrc : ℕ → ℚ) (lob : LimitOrderBook)
    (order : Order) (hs : order.side = Side.sell) (h : lob.bids ≠ []) :
    match_market_order timeSrc lob order =
      ((matchPrices timeSrc (initCtx lob order) lob.bids
          (sortAsc (ladderKeys lob.bids)).reverse).1.rfills,
       { lob with
         bids := (matchPrices timeSrc (initCtx lob order) lob.bids
             (sortAsc (ladderKeys lob.bids)).reverse).2.filter fun pq => !pq.2.isEmpty,
         orders := (matchPrices timeSrc (initCtx lob order) lob.bids
             (sortAsc (ladderKeys lob.bids)).reverse).1.orders,
         fills := lob.fills ++ (matchPrices timeSrc (initCtx lob order) lob.bids
             (sortAsc (ladderKeys lob.bids)).reverse).1.gfills,
         last_trade_price := (matchPrices timeSrc (initCtx lob order) lob.bids
             (sortAsc (ladderKeys lob.bids)).reverse).1.last_trade_price,
         last_trade_size := (matchPrices timeSrc (initCtx lob order) lob.bids
             (sortAsc (ladderKeys lob.bids)).reverse).1.last_trade_size,
         clock := (matchPrices timeSrc (initCtx lob order) lob.bids
             (sortAsc (ladderKeys lob.bids)).reverse).1.clock },
       if (matchPrices timeSrc (initCtx lob order) lob.bids
             (sortAsc (ladderKeys lob.bids)).reverse).1.taker.remaining_size = 0
       then { (matchPrices timeSrc (initCtx lob order) lob.bids
             (sortAsc (ladderKeys lob.bids)).reverse).1.taker with
            status := OStatus.filled }
       else { (matchPrices timeSrc (initCtx lob order) lob.bids
             (sortAsc (ladderKeys lob.bids)).reverse).1.taker with
            status := OStatus.partially_filled }) := by
  rw [match_market_order]
  simp only [hs, eq_self_iff_true, if_true, ite_true, reduceCtorEq, if_false, ite_false]
  rw [if_neg (by simpa [List.isEmpty_iff] using h)]
  rfl

/-! ## Ladder bookkeeping lemmas -/

theorem ladderOK_filter (orders : List (OrderId × Order)) (bs : Side) (b : Ladder)
    (P : ℚ × Level → Bool) (h : ladderOK orders bs b) :
    ladderOK orders bs (b.filter P) :=
  fun pq hpq e he => h pq (List.mem_of_mem_filter hpq) e he

theorem ladderRefs_setLevel_append (b : Ladder) (p : ℚ) (id : OrderId) (sz : ℤ) :
    List.Perm (ladderRefs (setLevel b p ((findLevel b p).getD [] ++ [(id, sz)])))
      (ladderRefs b ++ [id]) := by
  induction b with
  | nil =>
    simp [findLevel, setLevel, ladderRefs, queueIds]
  | cons e rest ih =>
    rcases e with ⟨p0, q0⟩
    by_cases hp : p0 = p
    · subst hp
      simp only [findLevel, eq_self_iff_true, if_true, ite_true, Option.getD_some,
        setLevel, ladderRefs,
        List.flatMap_cons, List.map_append, List.map_cons, List.map_nil,
        List.append_assoc, List.singleton_append]
      exact List.Perm.append_left _ (List.perm_append_singleton id _).symm
    · simp only [findLevel, if_neg hp, setLevel, if_neg hp, ladderRefs, List.flatMap_cons,
        List.append_assoc]
      exact List.Perm.append_left _ ih

theorem ladderKeys_setLevel_of_mem (b : Ladder) (p : ℚ) (q : Level)
    (h : p ∈ ladderKeys b) : ladderKeys (setLevel b p q) = ladderKeys b := by
  induction b with
  | nil => simp [ladderKeys] at h
  | cons e rest ih =>
    rcases e with ⟨p0, q0⟩
    by_cases hp : p0 = p
    · subst hp
      simp [setLevel, ladderKeys]
    · simp only [ladderKeys, List.map_cons, List.mem_cons] at h
      rcases h with h | h
      · exact absurd h.symm hp
      · have hrec := ih (by simpa [ladderKeys] using h)
        simp only [ladderKeys] at hrec
        simp [setLevel, if_neg hp, ladderKeys, hrec]

theorem ladderKeys_setLevel_not_mem (b : Ladder) (p : ℚ) (q : Level)
    (h : p ∉ ladderKeys b) : ladderKeys (setLevel b p q) = ladderKeys b ++ [p] := by
  induction b with
  | nil => simp [setLevel, ladderKeys]
  | cons e rest ih =>
    rcases e with ⟨p0, q0⟩
    simp only [ladderKeys, List.map_cons, List.mem_cons, not_or] at h
    obtain ⟨h1, h2⟩ := h
    have hrec := ih (by simpa [ladderKeys] using h2)
    simp only [ladderKeys] at hrec
    simp [setLevel, if_neg (fun hh : p0 = p => h1 hh.symm), ladderKeys, hrec]

theorem mem_insertAsc (x y : ℚ) (l : List ℚ) :
    y ∈ insertAsc x l ↔ y = x ∨ y ∈ l := by
  induction l with
  | nil => simp [insertAsc]
  | cons a as ih =>
    by_cases h : x ≤ a
    · simp [insertAsc, if_pos h]
    · simp only [insertAsc, if_neg h, List.mem_cons, ih]
      tauto

theorem mem_sortAsc (x : ℚ) (l : List ℚ) : x ∈ sortAsc l ↔ x ∈ l := by
  induction l with
  | nil => simp [sortAsc]
  | cons a as ih =>
    simp [sortAsc, mem_insertAsc, ih]

theorem matchPrices_keys (timeSrc : ℕ → ℚ) :
    ∀ (prices : List ℚ) (ctx : MatchCtx) (book : Ladder),
      (∀ p ∈ prices, p ∈ ladderKeys book) →
      ladderKeys (matchPrices timeSrc ctx book prices).2 = ladderKeys book := by
  intro prices
  induction prices with
  | nil => intro ctx book _; rfl
  | cons p ps ih =>
    intro ctx book hmem
    rw [matchPrices]
    by_cases ht : ctx.taker.remaining_size ≤ 0
    · rw [if_pos ht]
    · rw [if_neg ht]
      dsimp only
      have hp : p ∈ ladderKeys book := hmem p (List.mem_cons_self _ _)
      have hkeys := ladderKeys_setLevel_of_mem book p
        (matchQueue timeSrc p
          (((findLevel book p).getD []).length + ctx.taker.remaining_size.toNat + 2)
          ctx ((findLevel book p).getD [])).2 hp
      rw [ih _ _ (fun p' hp' => by rw [hkeys]; exact hmem p' (List.mem_cons_of_mem _ hp')),
        hkeys]

theorem ladderKeys_filter (b : Ladder) (P : ℚ × Level → Bool) :
    List.Sublist (ladderKeys (b.filter P)) (ladderKeys b) :=
  (List.filter_sublist b).map Prod.fst

theorem ladderKeys_eraseLevel (b : Ladder) (p : ℚ) :
    List.Sublist (ladderKeys (eraseLevel b p)) (ladderKeys b) := by
  induction b with
  | nil => simp [eraseLevel]
  | cons e rest ih =>
    rcases e with ⟨p0, q0⟩
    by_cases hp : p0 = p
    · simp only [eraseLevel, if_pos hp, ladderKeys, List.map_cons]
      exact (List.Sublist.refl _).cons _
    · simp only [eraseLevel, if_neg hp, ladderKeys, List.map_cons]
      exact ih.cons₂ _

/-! ## Invariant preservation through a full match pass -/

theorem initCtx_orders (lob : LimitOrderBook) (order : Order) :
    (initCtx lob order).orders = lob.orders := rfl

theorem initCtx_taker (lob : LimitOrderBook) (order : Order) :
    (initCtx lob order).taker = order := rfl

theorem initCtx_gfills (lob : LimitOrderBook) (order : Order) :
    (initCtx lob order).gfills = [] := rfl

theorem initCtx_rfills (lob : LimitOrderBook) (order : Order) :
    (initCtx lob order).rfills = [] := rfl

theorem fillSum_nil (id : OrderId) : fillSum [] id = 0 := rfl

theorem exists_entry_of_mem_ladderRefs (b : Ladder) (id : OrderId)
    (h : id ∈ ladderRefs b) : ∃ pq ∈ b, ∃ e ∈ pq.2, e.1 = id := by
  simp only [ladderRefs, List.mem_flatMap, List.mem_map] at h
  rcases h with ⟨pq, hpq, e, he, hid⟩
  exact ⟨pq, hpq, e, he, hid⟩

theorem InvAt_mmo_buy (timeSrc : ℕ → ℚ) (lob L : LimitOrderBook) (order w : Order)
    (prices : List ℚ)
    (hInv : Inv lob)
    (hfresh : order.order_id ∉ allRefs lob)
    (hrs : order.remaining_size = order.size)
    (h0 : 0 ≤ order.size)
    (hacc0 : fillSum lob.fills order.order_id = 0)
    (hprices : ∀ p ∈ prices, p ∈ ladderKeys lob.asks)
    (hwrem : w.remaining_size
      = (matchPrices timeSrc (initCtx lob order) lob.asks prices).1.taker.remaining_size)
    (hwsz : w.size = order.size)
    (hLb : L.bids = lob.bids)
    (hLa : L.asks = (matchPrices timeSrc (initCtx lob order) lob.asks prices).2.filter
        fun pq => !pq.2.isEmpty)
    (hLo : L.orders = setOrder
        (matchPrices timeSrc (initCtx lob order) lob.asks prices).1.orders
        order.order_id w)
    (hLf : L.fills = lob.fills
        ++ (matchPrices timeSrc (initCtx lob order) lob.asks prices).1.gfills) :
    InvAt L order.order_id ∧ order.order_id ∉ allRefs L ∧
      findOrder L.orders order.order_id = some w := by
  obtain ⟨h1, h2, h3, h4, h5, h6, h7, h8⟩ := hInv
  have hndasks : (ladderRefs lob.asks).Nodup :=
    h3.sublist (List.sublist_append_right _ _)
  have hdisj : List.Disjoint (ladderRefs lob.bids) (ladderRefs lob.asks) :=
    List.disjoint_of_nodup_append h3
  have htk_bids : order.order_id ∉ ladderRefs lob.bids :=
    fun h => hfresh (List.mem_append_left _ h)
  have htk_asks : order.order_id ∉ ladderRefs lob.asks :=
    fun h => hfresh (List.mem_append_right _ h)
  obtain ⟨A2, B2, ⟨C2a, C2b⟩, ps, k1, k2, k3⟩ :=
    matchPrices_invariant timeSrc Side.sell prices (initCtx lob order) lob.asks
      h2 hndasks htk_asks
  obtain ⟨acc_a, acc_b⟩ :=
    matchPrices_accounting timeSrc prices (initCtx lob order) lob.asks htk_asks
  have hframe := matchPrices_orders_frame timeSrc prices (initCtx lob order) lob.asks
  have hnone := matchPrices_orders_none_iff timeSrc prices (initCtx lob order) lob.asks
  have hrefs_sub := matchPrices_refs_sublist timeSrc prices (initCtx lob order) lob.asks
  have hkeys := matchPrices_keys timeSrc prices (initCtx lob order) lob.asks hprices
  have hcore := matchPrices_orders_core timeSrc prices (initCtx lob order) lob.asks
  rw [initCtx_gfills, List.nil_append] at k2
  simp only [initCtx_taker, initCtx_orders, initCtx_gfills, fillSum_nil] at acc_a acc_b
  have hpos_g : ∀ f ∈ (matchPrices timeSrc (initCtx lob order) lob.asks prices).1.gfills,
      0 ≤ f.size := by
    rw [k2]
    intro f hf
    rcases List.mem_flatMap.mp hf with ⟨pr, hpr, hm⟩
    obtain ⟨_, _, _, _, hsz, hpos, _, _, _⟩ := k3 pr hpr
    simp only [List.mem_cons, List.not_mem_nil, or_false] at hm
    rcases hm with rfl | rfl
    · omega
    · omega
  have hgacc : ∀ id, id ≠ order.order_id →
      fillSum (matchPrices timeSrc (initCtx lob order) lob.asks prices).1.gfills id
        = remOrd lob.orders id
          - remOrd (matchPrices timeSrc (initCtx lob order) lob.asks prices).1.orders id := by
    intro id hid
    have := acc_b id hid
    omega
  have htacc : fillSum (matchPrices timeSrc (initCtx lob order) lob.asks prices).1.gfills
        order.order_id
      = order.remaining_size
        - (matchPrices timeSrc (initCtx lob order) lob.asks prices).1.taker.remaining_size := by
    omega
  have hmemL : ∀ id, id ∈ allRefs L ↔
      id ∈ ladderRefs lob.bids ∨
        id ∈ ladderRefs (matchPrices timeSrc (initCtx lob order) lob.asks prices).2 := by
    intro id
    simp [allRefs, hLb, hLa, ladderRefs_filter_nonempty]
  have hLmem_not_taker : order.order_id ∉ allRefs L := by
    rw [hmemL]
    rintro (h | h)
    · exact htk_bids h
    · exact htk_asks (hrefs_sub.subset h)
  refine ⟨⟨?_, ?_, ?_, ?_, ?_, ?_, ?_, ?_⟩, hLmem_not_taker, ?_⟩
  · -- bids side is untouched and its entries reference untouched orders
    intro pq hpq e he
    rw [hLb] at hpq
    have hmemb : e.1 ∈ ladderRefs lob.bids := mem_ladderRefs _ pq e hpq he
    have hne_t : e.1 ≠ order.order_id := fun hh => htk_bids (hh ▸ hmemb)
    have hnot_a : e.1 ∉ ladderRefs lob.asks := fun hh => hdisj hmemb hh
    refine entryOK_frame lob.orders L.orders pq.1 Side.buy e ?_ (h1 pq hpq e he)
    rw [hLo, findOrder_setOrder_ne _ _ _ _ (fun hh => hne_t hh.symm), hframe e.1 hnot_a]
    rfl
  · -- the matched side keeps well-formed entries
    intro pq hpq e he
    rw [hLa] at hpq
    have hpq' : pq ∈ (matchPrices timeSrc (initCtx lob order) lob.asks prices).2 :=
      List.mem_of_mem_filter hpq
    have hOKe := A2 pq hpq' e he
    have hne_t : e.1 ≠ order.order_id := fun hh =>
      htk_asks (hh ▸ hrefs_sub.subset (mem_ladderRefs _ pq e hpq' he))
    rw [hLo]
    exact entryOK_setOrder_ne _ _ _ _ _ _ hne_t hOKe
  · -- no order id is referenced twice
    simp only [allRefs, hLb, hLa, ladderRefs_filter_nonempty]
    exact h3.sublist ((List.Sublist.refl _).append hrefs_sub)
  · rw [hLb]; exact h4
  · rw [hLa]
    exact h5.sublist ((ladderKeys_filter _ _).trans (hkeys ▸ List.Sublist.refl _))
  · -- resting status matches referencedness away from the taker
    intro id o hid ho
    rw [hLo, findOrder_setOrder_ne _ _ _ _ (fun hh => hid hh.symm)] at ho
    rw [hmemL id]
    by_cases hb : id ∈ ladderRefs lob.bids
    · have hnot_a : id ∉ ladderRefs lob.asks := fun hh => hdisj hb hh
      rw [hframe id hnot_a, initCtx_orders] at ho
      have := (h6 id o ho).mpr (List.mem_append_left _ hb)
      exact iff_of_true this (Or.inl hb)
    · by_cases ha : id ∈ ladderRefs lob.asks
      · by_cases hres : id ∈ ladderRefs (matchPrices timeSrc (initCtx lob order)
            lob.asks prices).2
        · obtain ⟨pq, hpq, e, he, hide⟩ := exists_entry_of_mem_ladderRefs _ id hres
          obtain ⟨o2, ho2, hside, htype, hprice, hrem, hpos, hstat⟩ := A2 pq hpq e he
          rw [hide] at ho2
          rw [ho] at ho2
          cases ho2
          refine iff_of_true ?_ (Or.inr hres)
          rcases hstat with hst | hst
          · exact Or.inl hst
          · exact Or.inr ⟨hst, htype⟩
        · obtain ⟨o2, ho2, hst, _⟩ := B2 id ha hres
          rw [ho] at ho2
          cases ho2
          refine iff_of_false ?_ ?_
          · rintro (hr | ⟨hr, _⟩) <;> rw [hst] at hr <;> cases hr
          · rintro (h | h)
            · exact hb h
            · exact hres h
      · have hnot : id ∉ allRefs lob := by
          simp only [allRefs, List.mem_append]
          rintro (h | h)
          · exact hb h
          · exact ha h
        rw [hframe id ha, initCtx_orders] at ho
        refine iff_of_false (fun hr => hnot ((h6 id o ho).mp hr)) ?_
        rintro (h | h)
        · exact hb h
        · exact ha (hrefs_sub.subset h)
  · -- fills account exactly for the drained size of every indexed order
    intro id o ho
    rw [hLf, fillSum_append]
    by_cases hid : id = order.order_id
    · subst hid
      rw [hLo, findOrder_setOrder_self] at ho
      cases ho
      have hle : (matchPrices timeSrc (initCtx lob order) lob.asks
            prices).1.taker.remaining_size ≤ order.remaining_size := by
        have := C2a
        rw [initCtx_taker] at this
        exact this
      have hge : 0 ≤ (matchPrices timeSrc (initCtx lob order) lob.asks
            prices).1.taker.remaining_size := by
        have := C2b
        rw [initCtx_taker] at this
        exact this (by omega)
      rw [htacc, hacc0, hwrem, hwsz]
      omega
    · rw [hLo, findOrder_setOrder_ne _ _ _ _ (fun hh => hid hh.symm)] at ho
      rcases hold : findOrder lob.orders id with _ | o0
      · rw [(hnone id).mpr hold] at ho
        cases ho
      · have hcoreo : sameCore o o0 := hcore id o0 o hold ho
        obtain ⟨hfb, hb1, hb2⟩ := h7 id o0 hold
        have hsz : o.size = o0.size := hcoreo.2.2.2.2.2.1
        have hrel := hgacc id hid
        simp only [remOrd, hold, ho] at hrel
        have hnn : 0 ≤ fillSum (matchPrices timeSrc (initCtx lob order) lob.asks
            prices).1.gfills id := fillSum_nonneg _ _ hpos_g
        have hrem0 : 0 ≤ o.remaining_size := by
          by_cases hres : id ∈ ladderRefs (matchPrices timeSrc (initCtx lob order)
              lob.asks prices).2
          · obtain ⟨pq, hpq, e, he, hide⟩ := exists_entry_of_mem_ladderRefs _ id hres
            obtain ⟨o2, ho2, _, _, _, hrem, hpos, _⟩ := A2 pq hpq e he
            rw [hide, ho] at ho2
            cases ho2
            omega
          · by_cases ha : id ∈ ladderRefs lob.asks
            · obtain ⟨o2, ho2, _, hz⟩ := B2 id ha hres
              rw [ho] at ho2
              cases ho2
              omega
            · rw [hframe id ha, initCtx_orders, hold] at ho
              cases ho
              omega
        omega
  · -- unindexed ids have no recorded fills
    intro id ho
    rw [hLo] at ho
    have hid : id ≠ order.order_id := by
      intro hh
      subst hh
      rw [findOrder_setOrder_self] at ho
      cases ho
    rw [findOrder_setOrder_ne _ _ _ _ (fun hh => hid hh.symm)] at ho
    have hold : findOrder lob.orders id = none := (hnone id).mp ho
    have hrel := hgacc id hid
    simp only [remOrd, hold, ho] at hrel
    rw [hLf, fillSum_append, h8 id hold]
    omega
  · rw [hLo]
    exact findOrder_setOrder_self _ _ _

theorem InvAt_mmo_sell (timeSrc : ℕ → ℚ) (lob L : LimitOrderBook) (order w : Order)
    (prices : List ℚ)
    (hInv : Inv lob)
    (hfresh : order.order_id ∉ allRefs lob)
    (hrs : order.remaining_size = order.size)
    (h0 : 0 ≤ order.size)
    (hacc0 : fillSum lob.fills order.order_id = 0)
    (hprices : ∀ p ∈ prices, p ∈ ladderKeys lob.bids)
    (hwrem : w.remaining_size
      = (matchPrices timeSrc (initCtx lob order) lob.bids prices).1.taker.remaining_size)
    (hwsz : w.size = order.size)
    (hLa : L.asks = lob.asks)
    (hLb : L.bids = (matchPrices timeSrc (initCtx lob order) lob.bids prices).2.filter
        fun pq => !pq.2.isEmpty)
    (hLo : L.orders = setOrder
        (matchPrices timeSrc (initCtx lob order) lob.bids prices).1.orders
        order.order_id w)
    (hLf : L.fills = lob.fills
        ++ (matchPrices timeSrc (initCtx lob order) lob.bids prices).1.gfills) :
    InvAt L order.order_id ∧ order.order_id ∉ allRefs L ∧
      findOrder L.orders order.order_id = some w := by
  obtain ⟨h1, h2, h3, h4, h5, h6, h7, h8⟩ := hInv
  have hndbids : (ladderRefs lob.bids).Nodup :=
    h3.sublist (List.sublist_append_left _ _)
  have hdisj : List.Disjoint (ladderRefs lob.bids) (ladderRefs lob.asks) :=
    List.disjoint_of_nodup_append h3
  have htk_bids : order.order_id ∉ ladderRefs lob.bids :=
    fun h => hfresh (List.mem_append_left _ h)
  have htk_asks : order.order_id ∉ ladderRefs lob.asks :=
    fun h => hfresh (List.mem_append_right _ h)
  obtain ⟨A2, B2, ⟨C2a, C2b⟩, ps, k1, k2, k3⟩ :=
    matchPrices_invariant timeSrc Side.buy prices (initCtx lob order) lob.bids
      h1 hndbids htk_bids
  obtain ⟨acc_a, acc_b⟩ :=
    matchPrices_accounting timeSrc prices (initCtx lob order) lob.bids htk_bids
  have hframe := matchPrices_orders_frame timeSrc prices (initCtx lob order) lob.bids
  have hnone := matchPrices_orders_none_iff timeSrc prices (initCtx lob order) lob.bids
  have hrefs_sub := matchPrices_refs_sublist timeSrc prices (initCtx lob order) lob.bids
  have hkeys := matchPrices_keys timeSrc prices (initCtx lob order) lob.bids hprices
  have hcore := matchPrices_orders_core timeSrc prices (initCtx lob order) lob.bids
  rw [initCtx_gfills, List.nil_append] at k2
  simp only [initCtx_taker, initCtx_orders, initCtx_gfills, fillSum_nil] at acc_a acc_b
  have hpos_g : ∀ f ∈ (matchPrices timeSrc (initCtx lob order) lob.bids prices).1.gfills,
      0 ≤ f.size := by
    rw [k2]
    intro f hf
    rcases List.mem_flatMap.mp hf with ⟨pr, hpr, hm⟩
    obtain ⟨_, _, _, _, hsz, hpos, _, _, _⟩ := k3 pr hpr
    simp only [List.mem_cons, List.not_mem_nil, or_false] at hm
    rcases hm with rfl | rfl
    · omega
    · omega
  have hgacc : ∀ id, id ≠ order.order_id →
      fillSum (matchPrices timeSrc (initCtx lob order) lob.bids prices).1.gfills id
        = remOrd lob.orders id
          - remOrd (matchPrices timeSrc (initCtx lob order) lob.bids prices).1.orders id := by
    intro id hid
    have := acc_b id hid
    omega
  have htacc : fillSum (matchPrices timeSrc (initCtx lob order) lob.bids prices).1.gfills
        order.order_id
      = order.remaining_size
        - (matchPrices timeSrc (initCtx lob order) lob.bids prices).1.taker.remaining_size := by
    omega
  have hmemL : ∀ id, id ∈ allRefs L ↔
      id ∈ ladderRefs (matchPrices timeSrc (initCtx lob order) lob.bids prices).2 ∨
        id ∈ ladderRefs lob.asks := by
    intro id
    simp [allRefs, hLa, hLb, ladderRefs_filter_nonempty]
  have hLmem_not_taker : order.order_id ∉ allRefs L := by
    rw [hmemL]
    rintro (h | h)
    · exact htk_bids (hrefs_sub.subset h)
    · exact htk_asks h
  refine ⟨⟨?_, ?_, ?_, ?_, ?_, ?_, ?_, ?_⟩, hLmem_not_taker, ?_⟩
  · -- the matched side keeps well-formed entries
    intro pq hpq e he
    rw [hLb] at hpq
    have hpq' : pq ∈ (matchPrices timeSrc (initCtx lob order) lob.bids prices).2 :=
      List.mem_of_mem_filter hpq
    have hOKe := A2 pq hpq' e he
    have hne_t : e.1 ≠ order.order_id := fun hh =>
      htk_bids (hh ▸ hrefs_sub.subset (mem_ladderRefs _ pq e hpq' he))
    rw [hLo]
    exact entryOK_setOrder_ne _ _ _ _ _ _ hne_t hOKe
  · -- asks side is untouched and its entries reference untouched orders
    intro pq hpq e he
    rw [hLa] at hpq
    have hmema : e.1 ∈ ladderRefs lob.asks := mem_ladderRefs _ pq e hpq he
    have hne_t : e.1 ≠ order.order_id := fun hh => htk_asks (hh ▸ hmema)
    have hnot_b : e.1 ∉ ladderRefs lob.bids := fun hh => hdisj hh hmema
    refine entryOK_frame lob.orders L.orders pq.1 Side.sell e ?_ (h2 pq hpq e he)
    rw [hLo, findOrder_setOrder_ne _ _ _ _ (fun hh => hne_t hh.symm), hframe e.1 hnot_b]
    rfl
  · -- no order id is referenced twice
    simp only [allRefs, hLb, hLa, ladderRefs_filter_nonempty]
    exact h3.sublist (hrefs_sub.append (List.Sublist.refl _))
  · rw [hLb]
    exact h4.sublist ((ladderKeys_filter _ _).trans (hkeys ▸ List.Sublist.refl _))
  · rw [hLa]; exact h5
  · -- resting status matches referencedness away from the taker
    intro id o hid ho
    rw [hLo, findOrder_setOrder_ne _ _ _ _ (fun hh => hid hh.symm)] at ho
    rw [hmemL id]
    by_cases ha : id ∈ ladderRefs lob.asks
    · have hnot_b : id ∉ ladderRefs lob.bids := fun hh => hdisj hh ha
      rw [hframe id hnot_b, initCtx_orders] at ho
      have := (h6 id o ho).mpr (List.mem_append_right _ ha)
      exact iff_of_true this (Or.inr ha)
    · by_cases hb : id ∈ ladderRefs lob.bids
      · by_cases hres : id ∈ ladderRefs (matchPrices timeSrc (initCtx lob order)
            lob.bids prices).2
        · obtain ⟨pq, hpq, e, he, hide⟩ := exists_entry_of_mem_ladderRefs _ id hres
          obtain ⟨o2, ho2, hside, htype, hprice, hrem, hpos, hstat⟩ := A2 pq hpq e he
          rw [hide] at ho2
          rw [ho] at ho2
          cases ho2
          refine iff_of_true ?_ (Or.inl hres)
          rcases hstat with hst | hst
          · exact Or.inl hst
          · exact Or.inr ⟨hst, htype⟩
        · obtain ⟨o2, ho2, hst, _⟩ := B2 id hb hres
          rw [ho] at ho2
          cases ho2
          refine iff_of_false ?_ ?_
          · rintro (hr | ⟨hr, _⟩) <;> rw [hst] at hr <;> cases hr
          · rintro (h | h)
            · exact hres h
            · exact ha h
      · have hnot : id ∉ allRefs lob := by
          simp only [allRefs, List.mem_append]
          rintro (h | h)
          · exact hb h
          · exact ha h
        rw [hframe id hb, initCtx_orders] at ho
        refine iff_of_false (fun hr => hnot ((h6 id o ho).mp hr)) ?_
        rintro (h | h)
        · exact hb (hrefs_sub.subset h)
        · exact ha h
  · -- fills account exactly for the drained size of every indexed order
    intro id o ho
    rw [hLf, fillSum_append]
    by_cases hid : id = order.order_id
    · subst hid
      rw [hLo, findOrder_setOrder_self] at ho
      cases ho
      have hle : (matchPrices timeSrc (initCtx lob order) lob.bids
            prices).1.taker.remaining_size ≤ order.remaining_size := by
        have := C2a
        rw [initCtx_taker] at this
        exact this
      have hge : 0 ≤ (matchPrices timeSrc (initCtx lob order) lob.bids
            prices).1.taker.remaining_size := by
        have := C2b
        rw [initCtx_taker] at this
        exact this (by omega)
      rw [htacc, hacc0, hwrem, hwsz]
      omega
    · rw [hLo, findOrder_setOrder_ne _ _ _ _ (fun hh => hid hh.symm)] at ho
      rcases hold : findOrder lob.orders id with _ | o0
      · rw [(hnone id).mpr hold] at ho
        cases ho
      · have hcoreo : sameCore o o0 := hcore id o0 o hold ho
        obtain ⟨hfb, hb1, hb2⟩ := h7 id o0 hold
        have hsz : o.size = o0.size := hcoreo.2.2.2.2.2.1
        have hrel := hgacc id hid
        simp only [remOrd, hold, ho] at hrel
        have hnn : 0 ≤ fillSum (matchPrices timeSrc (initCtx lob order) lob.bids
            prices).1.gfills id := fillSum_nonneg _ _ hpos_g
        have hrem0 : 0 ≤ o.remaining_size := by
          by_cases hres : id ∈ ladderRefs (matchPrices timeSrc (initCtx lob order)
              lob.bids prices).2
          · obtain ⟨pq, hpq, e, he, hide⟩ := exists_entry_of_mem_ladderRefs _ id hres
            obtain ⟨o2, ho2, _, _, _, hrem, hpos, _⟩ := A2 pq hpq e he
            rw [hide, ho] at ho2
            cases ho2
            omega
          · by_cases hb : id ∈ ladderRefs lob.bids
            · obtain ⟨o2, ho2, _, hz⟩ := B2 id hb hres
              rw [ho] at ho2
              cases ho2
              omega
            · rw [hframe id hb, initCtx_orders, hold] at ho
              cases ho
              omega
        omega
  · -- unindexed ids have no recorded fills
    intro id ho
    rw [hLo] at ho
    have hid : id ≠ order.order_id := by
      intro hh
      subst hh
      rw [findOrder_setOrder_self] at ho
      cases ho
    rw [findOrder_setOrder_ne _ _ _ _ (fun hh => hid hh.symm)] at ho
    have hold : findOrder lob.orders id = none := (hnone id).mp ho
    have hrel := hgacc id hid
    simp only [remOrd, hold, ho] at hrel
    rw [hLf, fillSum_append, h8 id hold]
    omega
  · rw [hLo]
    exact findOrder_setOrder_self _ _ _

/-! ## Invariant restoration when a residual order is appended to the book -/

theorem Inv_rest_buy (L : LimitOrderBook) (id : OrderId) (w : Order) (price : ℚ)
    (hAt : InvAt L id)
    (hfind : findOrder L.orders id = some w)
    (hfresh : id ∉ allRefs L)
    (hside : w.side = Side.buy)
    (htype : w.type = OKind.limit)
    (hprice : w.price = some price)
    (hpos : 0 < w.remaining_size)
    (hstat : w.status = OStatus.active ∨ w.status = OStatus.partially_filled) :
    Inv { L with bids := setLevel L.bids price ((findLevel L.bids price).getD []
        ++ [(id, w.remaining_size)]) } := by
  obtain ⟨h1, h2, h3, h4, h5, h6, h7, h8⟩ := hAt
  have hperm := ladderRefs_setLevel_append L.bids price id w.remaining_size
  have hpermAll : (allRefs { L with bids := (setLevel L.bids price
        ((findLevel L.bids price).getD [] ++ [(id, w.remaining_size)])) }).Perm
      (id :: allRefs L) := by
    simp only [allRefs]
    refine (hperm.append_right _).trans ?_
    simpa [List.append_assoc] using
      (show (ladderRefs L.bids ++ id :: ladderRefs L.asks).Perm
          (id :: (ladderRefs L.bids ++ ladderRefs L.asks)) from List.perm_middle)
  refine ⟨?_, h2, ?_, ?_, h5, ?_, h7, h8⟩
  · intro pq hpq e he
    rcases mem_setLevel L.bids price _ pq hpq with heq | hmem
    · subst heq
      rcases List.mem_append.mp he with hq | hnew
      · rcases hfl : findLevel L.bids price with _ | q0
        · rw [hfl] at hq
          cases hq
        · rw [hfl] at hq
          exact h1 (price, q0) (findLevel_mem _ _ _ hfl) e hq
      · simp only [List.mem_singleton] at hnew
        subst hnew
        exact ⟨w, hfind, hside, htype, hprice, rfl, hpos, hstat⟩
    · exact h1 pq hmem e he
  · exact (hpermAll.nodup_iff).mpr (List.nodup_cons.mpr ⟨hfresh, h3⟩)
  · by_cases hk : price ∈ ladderKeys L.bids
    · rw [ladderKeys_setLevel_of_mem _ _ _ hk]
      exact h4
    · rw [ladderKeys_setLevel_not_mem _ _ _ hk]
      simp [List.nodup_append, h4, hk]
  · intro id' o ho
    by_cases hi : id' = id
    · subst hi
      rw [hfind] at ho
      cases ho
      refine iff_of_true ?_ ?_
      · rcases hstat with hst | hst
        · exact Or.inl hst
        · exact Or.inr ⟨hst, htype⟩
      · rw [hpermAll.mem_iff]
        exact List.mem_cons_self _ _
    · have hmm : id' ∈ allRefs { L with bids := (setLevel L.bids price
          ((findLevel L.bids price).getD [] ++ [(id, w.remaining_size)])) }
          ↔ id' ∈ allRefs L := by
        rw [hpermAll.mem_iff, List.mem_cons]
        simp [hi]
      exact (h6 id' o hi ho).trans hmm.symm

theorem Inv_rest_sell (L : LimitOrderBook) (id : OrderId) (w : Order) (price : ℚ)
    (hAt : InvAt L id)
    (hfind : findOrder L.orders id = some w)
    (hfresh : id ∉ allRefs L)
    (hside : w.side = Side.sell)
    (htype : w.type = OKind.limit)
    (hprice : w.price = some price)
    (hpos : 0 < w.remaining_size)
    (hstat : w.status = OStatus.active ∨ w.status = OStatus.partially_filled) :
    Inv { L with asks := setLevel L.asks price ((findLevel L.asks price).getD []
        ++ [(id, w.remaining_size)]) } := by
  obtain ⟨h1, h2, h3, h4, h5, h6, h7, h8⟩ := hAt
  have hperm := ladderRefs_setLevel_append L.asks price id w.remaining_size
  have hpermAll : (allRefs { L with asks := (setLevel L.asks price
        ((findLevel L.asks price).getD [] ++ [(id, w.remaining_size)])) }).Perm
      (id :: allRefs L) := by
    simp only [allRefs]
    refine (List.Perm.append_left _ hperm).trans ?_
    refine (List.Perm.append_left _
      (List.perm_append_singleton id (ladderRefs L.asks))).trans ?_
    simpa [List.append_assoc] using
      (show (ladderRefs L.bids ++ id :: ladderRefs L.asks).Perm
          (id :: (ladderRefs L.bids ++ ladderRefs L.asks)) from List.perm_middle)
  refine ⟨h1, ?_, ?_, h4, ?_, ?_, h7, h8⟩
  · intro pq hpq e he
    rcases mem_setLevel L.asks price _ pq hpq with heq | hmem
    · subst heq
      rcases List.mem_append.mp he with hq | hnew
      · rcases hfl : findLevel L.asks price with _ | q0
        · rw [hfl] at hq
          cases hq
        · rw [hfl] at hq
          exact h2 (price, q0) (findLevel_mem _ _ _ hfl) e hq
      · simp only [List.mem_singleton] at hnew
        subst hnew
        exact ⟨w, hfind, hside, htype, hprice, rfl, hpos, hstat⟩
    · exact h2 pq hmem e he
  · exact (hpermAll.nodup_iff).mpr (List.nodup_cons.mpr ⟨hfresh, h3⟩)
  · by_cases hk : price ∈ ladderKeys L.asks
    · rw [ladderKeys_setLevel_of_mem _ _ _ hk]
      exact h5
    · rw [ladderKeys_setLevel_not_mem _ _ _ hk]
      simp [List.nodup_append, h5, hk]
  · intro id' o ho
    by_cases hi : id' = id
    · subst hi
      rw [hfind] at ho
      cases ho
      refine iff_of_true ?_ ?_
      · rcases hstat with hst | hst
        · exact Or.inl hst
        · exact Or.inr ⟨hst, htype⟩
      · rw [hpermAll.mem_iff]
        exact List.mem_cons_self _ _
    · have hmm : id' ∈ allRefs { L with asks := (setLevel L.asks price
          ((findLevel L.asks price).getD [] ++ [(id, w.remaining_size)])) }
          ↔ id' ∈ allRefs L := by
        rw [hpermAll.mem_iff, List.mem_cons]
        simp [hi]
      exact (h6 id' o hi ho).trans hmm.symm

/-! ## Ladder lemmas for `cancel_order` -/

theorem mem_eraseLevel (b : Ladder) (p : ℚ) :
    ∀ pq ∈ eraseLevel b p, pq ∈ b := by
  induction b with
  | nil => simp [eraseLevel]
  | cons e rest ih =>
    intro pq hpq
    by_cases hp : e.1 = p
    · rcases e with ⟨p0, q0⟩
      simp only at hp
      rw [eraseLevel, if_pos hp] at hpq
      exact List.mem_cons_of_mem _ hpq
    · rcases e with ⟨p0, q0⟩
      simp only at hp
      rw [eraseLevel, if_neg hp] at hpq
      rcases List.mem_cons.mp hpq with h | h
      · exact h ▸ List.mem_cons_self _ _
      · exact List.mem_cons_of_mem _ (ih pq h)

theorem ladderRefs_eraseLevel_sublist (b : Ladder) (p : ℚ) :
    List.Sublist (ladderRefs (eraseLevel b p)) (ladderRefs b) := by
  induction b with
  | nil => simp [eraseLevel]
  | cons e rest ih =>
    rcases e with ⟨p0, q0⟩
    by_cases hp : p0 = p
    · simp only [eraseLevel, if_pos hp, ladderRefs, List.flatMap_cons]
      exact List.sublist_append_right _ _
    · simp only [eraseLevel, if_neg hp, ladderRefs, List.flatMap_cons]
      exact List.Sublist.append (List.Sublist.refl _) ih

theorem mem_refs_eraseLevel_or (b : Ladder) (p : ℚ) :
    ∀ id ∈ ladderRefs b,
      id ∈ ladderRefs (eraseLevel b p) ∨ id ∈ queueIds ((findLevel b p).getD []) := by
  induction b with
  | nil => simp [ladderRefs]
  | cons hd rest ih =>
    rcases hd with ⟨p0, q0⟩
    intro id hid
    simp only [ladderRefs, List.flatMap_cons, List.mem_append] at hid
    by_cases hp : p0 = p
    · subst hp
      rcases hid with h | h
      · exact Or.inr (by simpa [findLevel, queueIds] using h)
      · simp only [eraseLevel, eq_self_iff_true, if_true, ite_true]
        exact Or.inl h
    · rcases hid with h | h
      · refine Or.inl ?_
        simp only [eraseLevel, if_neg hp, ladderRefs, List.flatMap_cons, List.mem_append]
        exact Or.inl h
      · rcases ih id h with h' | h'
        · refine Or.inl ?_
          simp only [eraseLevel, if_neg hp, ladderRefs, List.flatMap_cons, List.mem_append]
          exact Or.inr h'
        · simp only [findLevel, if_neg hp]
          exact Or.inr h'

theorem ladderRefs_setLevel_sublist_gen (b : Ladder) (p : ℚ) (q' : Level)
    (h : List.Sublist (queueIds q') (queueIds ((findLevel b p).getD []))) :
    List.Sublist (ladderRefs (setLevel b p q')) (ladderRefs b) := by
  induction b with
  | nil =>
    have hnil : queueIds q' = [] := List.sublist_nil.mp (by simpa [findLevel, queueIds] using h)
    simp only [queueIds] at hnil
    simp [setLevel, ladderRefs, hnil]
  | cons e rest ih =>
    rcases e with ⟨p0, q0⟩
    by_cases hp : p0 = p
    · subst hp
      simp only [findLevel, eq_self_iff_true, if_true, ite_true, Option.getD_some] at h
      simp only [setLevel, eq_self_iff_true, if_true, ite_true, ladderRefs, List.flatMap_cons]
      exact List.Sublist.append h (List.Sublist.refl _)
    · simp only [findLevel, if_neg hp] at h
      simp only [setLevel, if_neg hp, ladderRefs, List.flatMap_cons]
      exact List.Sublist.append (List.Sublist.refl _) (ih h)

theorem findLevel_of_mem_keys (b : Ladder) (p : ℚ) (h : p ∈ ladderKeys b) :
    ∃ q, findLevel b p = some q := by
  induction b with
  | nil => simp [ladderKeys] at h
  | cons e rest ih =>
    rcases e with ⟨p0, q0⟩
    by_cases hp : p0 = p
    · exact ⟨q0, by simp [findLevel, hp]⟩
    · simp only [ladderKeys, List.map_cons, List.mem_cons] at h
      rcases h with h | h
      · exact absurd h.symm hp
      · rcases ih (by simpa [ladderKeys] using h) with ⟨q, hq⟩
        exact ⟨q, by simpa [findLevel, if_neg hp] using hq⟩

theorem mem_keys_of_findLevel (b : Ladder) (p : ℚ) (q : Level)
    (h : findLevel b p = some q) : p ∈ ladderKeys b := by
  have := findLevel_mem b p q h
  simpa [ladderKeys] using List.mem_map_of_mem Prod.fst this

theorem queueIds_filter_ne (q : Level) (oid : OrderId) (id : OrderId)
    (hne : id ≠ oid) (h : id ∈ queueIds q) :
    id ∈ queueIds (q.filter fun e => ¬ e.1 = oid) := by
  simp only [queueIds, List.mem_map] at h ⊢
  rcases h with ⟨e, he, rfl⟩
  exact ⟨e, List.mem_filter.mpr ⟨he, by simpa using hne⟩, rfl⟩

theorem queueIds_filter_sublist (q : Level) (oid : OrderId) :
    List.Sublist (queueIds (q.filter fun e => ¬ e.1 = oid)) (queueIds q) :=
  (List.filter_sublist q).map Prod.fst

theorem not_mem_refs_cancel (b : Ladder) (price : ℚ) (oid : OrderId) (q : Level)
    (hq : findLevel b price = some q)
    (hkeys : (ladderKeys b).Nodup)
    (honly : ∀ pq ∈ b, ∀ e ∈ pq.2, e.1 = oid → pq.1 = price) :
    oid ∉ ladderRefs (if (q.filter fun e => ¬ e.1 = oid).isEmpty
      then eraseLevel b price else setLevel b price (q.filter fun e => ¬ e.1 = oid)) := by
  induction b with
  | nil => simp [findLevel] at hq
  | cons hd rest ih =>
    rcases hd with ⟨p0, q0⟩
    by_cases hp : p0 = price
    · subst hp
      rw [findLevel, if_pos rfl] at hq
      cases hq
      have hrest : oid ∉ ladderRefs rest := by
        intro hmem
        obtain ⟨pq, hpq, e, he, hid⟩ := exists_entry_of_mem_ladderRefs rest oid hmem
        have := honly pq (List.mem_cons_of_mem _ hpq) e he hid
        simp only [ladderKeys, List.map_cons, List.nodup_cons] at hkeys
        exact hkeys.1 (this ▸ List.mem_map_of_mem Prod.fst hpq)
      by_cases hemp : (q.filter fun e => ¬ e.1 = oid).isEmpty
      · rw [if_pos hemp]
        simpa [eraseLevel] using hrest
      · rw [if_neg hemp]
        simp only [setLevel, eq_self_iff_true, if_true, ite_true, ladderRefs,
          List.flatMap_cons, List.mem_append, queueIds]
        rintro (h | h)
        · rcases List.mem_map.mp h with ⟨e, he, hide⟩
          have := List.mem_filter.mp he
          simp [hide] at this
        · exact hrest h
    · rw [findLevel, if_neg hp] at hq
      have hkeys' : (ladderKeys rest).Nodup := by
        simp only [ladderKeys, List.map_cons, List.nodup_cons] at hkeys
        exact hkeys.2
      have honly' : ∀ pq ∈ rest, ∀ e ∈ pq.2, e.1 = oid → pq.1 = price :=
        fun pq hpq e he hid => honly pq (List.mem_cons_of_mem _ hpq) e he hid
      have hhd : oid ∉ queueIds q0 := by
        intro hmem
        rcases List.mem_map.mp hmem with ⟨e, he, hide⟩
        exact hp (honly (p0, q0) (List.mem_cons_self _ _) e he hide)
      have ihrest := ih hq hkeys' honly'
      by_cases hemp : (q.filter fun e => ¬ e.1 = oid).isEmpty
      · rw [if_pos hemp]
        rw [if_pos hemp] at ihrest
        simp only [eraseLevel, if_neg hp, ladderRefs, List.flatMap_cons, List.mem_append]
        rintro (h | h)
        · exact hhd h
        · exact ihrest h
      · rw [if_neg hemp]
        rw [if_neg hemp] at ihrest
        simp only [setLevel, if_neg hp, ladderRefs, List.flatMap_cons, List.mem_append]
        rintro (h | h)
        · exact hhd h
        · exact ihrest h

/-- The own-side ladder after `cancel_order`'s queue-rebuild (the body of the
`if price in book` block, which is skipped when the order has no price or its
price holds no level). -/
def cancelBook (b : Ladder) (oid : OrderId) (priceOpt : Option ℚ) : Ladder :=
  match priceOpt with
  | none => b
  | some price =>
    match findLevel b price with
    | none => b
    | some q =>
      if (q.filter fun e => ¬ e.1 = oid).isEmpty then eraseLevel b price
      else setLevel b price (q.filter fun e => ¬ e.1 = oid)

theorem cancel_order_buy_eq (lob : LimitOrderBook) (oid : OrderId) (order : Order)
    (h : findOrder lob.orders oid = some order)
    (hst : ¬(order.status = OStatus.filled ∨ order.status = OStatus.canceled))
    (hs : order.side = Side.buy) :
    cancel_order lob oid =
      (true, { lob with
        bids := cancelBook lob.bids oid order.price,
        orders := setOrder lob.orders oid { order with status := OStatus.canceled } }) := by
  rw [cancel_order, h]
  dsimp only
  rw [if_neg hst]
  simp only [hs, eq_self_iff_true, if_true, ite_true]
  rfl

theorem cancel_order_sell_eq (lob : LimitOrderBook) (oid : OrderId) (order : Order)
    (h : findOrder lob.orders oid = some order)
    (hst : ¬(order.status = OStatus.filled ∨ order.status = OStatus.canceled))
    (hs : order.side = Side.sell) :
    cancel_order lob oid =
      (true, { lob with
        asks := cancelBook lob.asks oid order.price,
        orders := setOrder lob.orders oid { order with status := OStatus.canceled } }) := by
  rw [cancel_order, h]
  dsimp only
  rw [if_neg hst]
  simp only [hs, reduceCtorEq, if_false, ite_false]
  rfl

theorem not_mem_refs_other (b : Ladder) (bs : Side) (orders : List (OrderId × Order))
    (oid : OrderId) (order : Order)
    (horder : findOrder orders oid = some order)
    (hOK : ladderOK orders bs b)
    (hside : order.side ≠ bs) : oid ∉ ladderRefs b := by
  intro hmem
  obtain ⟨pq, hpq, e, he, hid⟩ := exists_entry_of_mem_ladderRefs b oid hmem
  obtain ⟨o, ho, hos, _⟩ := hOK pq hpq e he
  rw [hid, horder] at ho
  cases ho
  exact hside hos

theorem cancel_book_facts (b : Ladder) (bs : Side) (orders : List (OrderId × Order))
    (oid : OrderId) (order : Order)
    (horder : findOrder orders oid = some order)
    (hOK : ladderOK orders bs b)
    (hkeys : (ladderKeys b).Nodup) :
    ladderOK orders bs (cancelBook b oid order.price) ∧
    List.Sublist (ladderRefs (cancelBook b oid order.price)) (ladderRefs b) ∧
    (∀ id, id ≠ oid → id ∈ ladderRefs b → id ∈ ladderRefs (cancelBook b oid order.price)) ∧
    oid ∉ ladderRefs (cancelBook b oid order.price) ∧
    (ladderKeys (cancelBook b oid order.price)).Nodup := by
  have hnotb : ∀ pq ∈ b, ∀ e ∈ pq.2, e.1 = oid → order.price = some pq.1 := by
    intro pq hpq e he hid
    obtain ⟨o, ho, _, _, hp, _⟩ := hOK pq hpq e he
    rw [hid, horder] at ho
    cases ho
    exact hp
  rcases hpo : order.price with _ | price
  · have hno : oid ∉ ladderRefs b := by
      intro hmem
      obtain ⟨pq, hpq, e, he, hid⟩ := exists_entry_of_mem_ladderRefs b oid hmem
      have := hnotb pq hpq e he hid
      rw [hpo] at this
      cases this
    rw [cancelBook]
    exact ⟨hOK, List.Sublist.refl _, fun id _ h => h, hno, hkeys⟩
  · have honly : ∀ pq ∈ b, ∀ e ∈ pq.2, e.1 = oid → pq.1 = price := by
      intro pq hpq e he hid
      have := hnotb pq hpq e he hid
      rw [hpo] at this
      exact ((Option.some.injEq _ _).mp this).symm
    rcases hfl : findLevel b price with _ | q
    · have hno : oid ∉ ladderRefs b := by
        intro hmem
        obtain ⟨pq, hpq, e, he, hid⟩ := exists_entry_of_mem_ladderRefs b oid hmem
        have hpq1 := honly pq hpq e he hid
        have : pq.1 ∈ ladderKeys b := by simpa [ladderKeys] using List.mem_map_of_mem Prod.fst hpq
        rw [hpq1] at this
        rcases findLevel_of_mem_keys b price this with ⟨q, hq⟩
        rw [hq] at hfl
        cases hfl
      rw [cancelBook, hfl]
      exact ⟨hOK, List.Sublist.refl _, fun id _ h => h, hno, hkeys⟩
    · have heval : cancelBook b oid (some price)
          = if (q.filter fun e => ¬ e.1 = oid).isEmpty then eraseLevel b price
            else setLevel b price (q.filter fun e => ¬ e.1 = oid) := by
        rw [cancelBook, hfl]
      have hnomem := not_mem_refs_cancel b price oid q hfl hkeys honly
      rw [← heval] at hnomem
      refine ⟨?_, ?_, ?_, hnomem, ?_⟩
      · intro pq hpq e he
        rw [heval] at hpq
        by_cases hemp : (q.filter fun e => ¬ e.1 = oid).isEmpty
        · rw [if_pos hemp] at hpq
          exact hOK pq (mem_eraseLevel b price pq hpq) e he
        · rw [if_neg hemp] at hpq
          rcases mem_setLevel b price _ pq hpq with heq | hmem
          · subst heq
            exact hOK (price, q) (findLevel_mem b price q hfl) e (List.mem_of_mem_filter he)
          · exact hOK pq hmem e he
      · rw [heval]
        by_cases hemp : (q.filter fun e => ¬ e.1 = oid).isEmpty
        · rw [if_pos hemp]
          exact ladderRefs_eraseLevel_sublist b price
        · rw [if_neg hemp]
          refine ladderRefs_setLevel_sublist_gen b price _ ?_
          rw [hfl]
          exact queueIds_filter_sublist q oid
      · intro id hid hmem
        rw [heval]
        by_cases hemp : (q.filter fun e => ¬ e.1 = oid).isEmpty
        · rw [if_pos hemp]
          rcases mem_refs_eraseLevel_or b price id hmem with h | h
          · exact h
          · rw [hfl] at h
            have := queueIds_filter_ne q oid id hid h
            rw [List.isEmpty_iff] at hemp
            rw [hemp] at this
            cases this
        · rw [if_neg hemp]
          rcases mem_refs_setLevel_or b price (q.filter fun e => ¬ e.1 = oid) id hmem
            with h | h
          · exact h
          · rw [hfl] at h
            have hin := queueIds_filter_ne q oid id hid h
            rcases List.mem_map.mp hin with ⟨e, he, rfl⟩
            exact mem_ladderRefs _ (price, _) e (mem_setLevel_self b price _) he
      · rw [heval]
        by_cases hemp : (q.filter fun e => ¬ e.1 = oid).isEmpty
        · rw [if_pos hemp]
          exact hkeys.sublist (ladderKeys_eraseLevel b price)
        · rw [if_neg hemp]
          rw [ladderKeys_setLevel_of_mem b price _ (mem_keys_of_findLevel b price q hfl)]
          exact hkeys

theorem Inv_cancel_order (lob : LimitOrderBook) (oid : OrderId) (hInv : Inv lob) :
    Inv (cancel_order lob oid).2 := by
  obtain ⟨h1, h2, h3, h4, h5, h6, h7, h8⟩ := hInv
  rcases hfind : findOrder lob.orders oid with _ | order
  · have heq : cancel_order lob oid = (false, lob) := by rw [cancel_order, hfind]
    rw [heq]
    exact ⟨h1, h2, h3, h4, h5, h6, h7, h8⟩
  · by_cases hst : order.status = OStatus.filled ∨ order.status = OStatus.canceled
    · have heq : cancel_order lob oid = (false, lob) := by
        rw [cancel_order, hfind]
        dsimp only
        rw [if_pos hst]
      rw [heq]
      exact ⟨h1, h2, h3, h4, h5, h6, h7, h8⟩
    · cases hs : order.side
      · -- buy-side cancel
        rw [cancel_order_buy_eq lob oid order hfind hst hs]
        dsimp only
        obtain ⟨c1, c2, c3, c4, c5⟩ :=
          cancel_book_facts lob.bids Side.buy lob.orders oid order hfind h1 h4
        have hother : oid ∉ ladderRefs lob.asks :=
          not_mem_refs_other lob.asks Side.sell lob.orders oid order hfind h2
            (by rw [hs]; intro hh; cases hh)
        have hmm : ∀ id, id ≠ oid →
            (id ∈ allRefs lob ↔
              id ∈ ladderRefs (cancelBook lob.bids oid order.price)
                ∨ id ∈ ladderRefs lob.asks) := by
          intro id hid
          constructor
          · intro h
            rcases List.mem_append.mp h with h | h
            · exact Or.inl (c3 id hid h)
            · exact Or.inr h
          · rintro (h | h)
            · exact List.mem_append_left _ (c2.subset h)
            · exact List.mem_append_right _ h
        refine ⟨?_, ?_, ?_, c5, h5, ?_, ?_, ?_⟩
        · intro pq hpq e he
          have hmem : e.1 ∈ ladderRefs (cancelBook lob.bids oid order.price) :=
            mem_ladderRefs (cancelBook lob.bids oid order.price) pq e hpq he
          have hne : e.1 ≠ oid := fun hh => c4 (hh ▸ hmem)
          exact entryOK_setOrder_ne _ _ _ _ _ _ hne (c1 pq hpq e he)
        · intro pq hpq e he
          have hmem : e.1 ∈ ladderRefs lob.asks :=
            mem_ladderRefs lob.asks pq e hpq he
          have hne : e.1 ≠ oid := fun hh => hother (hh ▸ hmem)
          exact entryOK_setOrder_ne _ _ _ _ _ _ hne (h2 pq hpq e he)
        · exact h3.sublist (c2.append (List.Sublist.refl _))
        · intro id o ho
          by_cases hid : id = oid
          · subst hid
            rw [findOrder_setOrder_self] at ho
            cases ho
            refine iff_of_false ?_ ?_
            · rintro (hr | ⟨hr, _⟩) <;> simp at hr
            · intro h
              rcases List.mem_append.mp h with h | h
              · exact c4 h
              · exact hother h
          · rw [findOrder_setOrder_ne _ _ _ _ (fun hh => hid hh.symm)] at ho
            exact (h6 id o ho).trans (by
              have := hmm id hid
              simpa [allRefs] using this)
        · intro id o ho
          by_cases hid : id = oid
          · subst hid
            rw [findOrder_setOrder_self] at ho
            cases ho
            simpa using h7 _ order hfind
          · rw [findOrder_setOrder_ne _ _ _ _ (fun hh => hid hh.symm)] at ho
            exact h7 id o ho
        · intro id ho
          have hid : id ≠ oid := by
            intro hh
            subst hh
            rw [findOrder_setOrder_self] at ho
            cases ho
          rw [findOrder_setOrder_ne _ _ _ _ (fun hh => hid hh.symm)] at ho
          exact h8 id ho
      · -- sell-side cancel
        rw [cancel_order_sell_eq lob oid order hfind hst hs]
        dsimp only
        obtain ⟨c1, c2, c3, c4, c5⟩ :=
          cancel_book_facts lob.asks Side.sell lob.orders oid order hfind h2 h5
        have hother : oid ∉ ladderRefs lob.bids :=
          not_mem_refs_other lob.bids Side.buy lob.orders oid order hfind h1
            (by rw [hs]; intro hh; cases hh)
        have hmm : ∀ id, id ≠ oid →
            (id ∈ allRefs lob ↔
              id ∈ ladderRefs lob.bids
                ∨ id ∈ ladderRefs (cancelBook lob.asks oid order.price)) := by
          intro id hid
          constructor
          · intro h
            rcases List.mem_append.mp h with h | h
            · exact Or.inl h
            · exact Or.inr (c3 id hid h)
          · rintro (h | h)
            · exact List.mem_append_left _ h
            · exact List.mem_append_right _ (c2.subset h)
        refine ⟨?_, ?_, ?_, h4, c5, ?_, ?_, ?_⟩
        · intro pq hpq e he
          have hmem : e.1 ∈ ladderRefs lob.bids :=
            mem_ladderRefs lob.bids pq e hpq he
          have hne : e.1 ≠ oid := fun hh => hother (hh ▸ hmem)
          exact entryOK_setOrder_ne _ _ _ _ _ _ hne (h1 pq hpq e he)
        · intro pq hpq e he
          have hmem : e.1 ∈ ladderRefs (cancelBook lob.asks oid order.price) :=
            mem_ladderRefs (cancelBook lob.asks oid order.price) pq e hpq he
          have hne : e.1 ≠ oid := fun hh => c4 (hh ▸ hmem)
          exact entryOK_setOrder_ne _ _ _ _ _ _ hne (c1 pq hpq e he)
        · exact h3.sublist ((List.Sublist.refl _).append c2)
        · intro id o ho
          by_cases hid : id = oid
          · subst hid
            rw [findOrder_setOrder_self] at ho
            cases ho
            refine iff_of_false ?_ ?_
            · rintro (hr | ⟨hr, _⟩) <;> simp at hr
            · intro h
              rcases List.mem_append.mp h with h | h
              · exact hother h
              · exact c4 h
          · rw [findOrder_setOrder_ne _ _ _ _ (fun hh => hid hh.symm)] at ho
            exact (h6 id o ho).trans (by
              have := hmm id hid
              simpa [allRefs] using this)
        · intro id o ho
          by_cases hid : id = oid
          · subst hid
            rw [findOrder_setOrder_self] at ho
            cases ho
            simpa using h7 _ order hfind
          · rw [findOrder_setOrder_ne _ _ _ _ (fun hh => hid hh.symm)] at ho
            exact h7 id o ho
        · intro id ho
          have hid : id ≠ oid := by
            intro hh
            subst hh
            rw [findOrder_setOrder_self] at ho
            cases ho
          rw [findOrder_setOrder_ne _ _ _ _ (fun hh => hid hh.symm)] at ho
          exact h8 id ho

/-! ## Invariant preservation through `add_order` -/

theorem setOrder_setOrder (m : List (OrderId × Order)) (k : OrderId) (v v' : Order) :
    setOrder (setOrder m k v) k v' = setOrder m k v' := by
  induction m with
  | nil => simp [setOrder]
  | cons e rest ih =>
    by_cases h : e.1 = k
    · rcases e with ⟨i, o⟩
      simp only at h
      simp [setOrder, h]
    · rcases e with ⟨i, o⟩
      simp only at h
      simp [setOrder, h, ih]

/-- The submitted order after `add_order`'s `order.remaining_size = order.size`. -/
def submitted (o : Order) : Order := { o with remaining_size := o.size }

/-- The book after `add_order`'s `self.orders[order.order_id] = order`. -/
def indexed (lob : LimitOrderBook) (o : Order) : LimitOrderBook :=
  { lob with orders := setOrder lob.orders o.order_id (submitted o) }

theorem add_order_market_eq (timeSrc : ℕ → ℚ) (lob : LimitOrderBook) (o : Order)
    (hty : o.type = OKind.market) :
    add_order timeSrc lob o
      = ((match_market_order timeSrc (indexed lob o) (submitted o)).1,
         { (match_market_order timeSrc (indexed lob o) (submitted o)).2.1 with
           orders := (setOrder
             (match_market_order timeSrc (indexed lob o) (submitted o)).2.1.orders
             (match_market_order timeSrc (indexed lob o) (submitted o)).2.2.order_id
             (match_market_order timeSrc (indexed lob o) (submitted o)).2.2) }) := by
  rw [add_order]
  dsimp only
  split
  · rfl
  · rename_i heq
    rw [hty] at heq
    cases heq

theorem add_order_limit_eq (timeSrc : ℕ → ℚ) (lob : LimitOrderBook) (o : Order) (p : ℚ)
    (hty : o.type = OKind.limit) (hp : o.price = some p) :
    add_order timeSrc lob o
      = ((add_limit_order timeSrc (indexed lob o) (submitted o) p).1,
         { (add_limit_order timeSrc (indexed lob o) (submitted o) p).2.1 with
           orders := (setOrder
             (add_limit_order timeSrc (indexed lob o) (submitted o) p).2.1.orders
             (add_limit_order timeSrc (indexed lob o) (submitted o) p).2.2.order_id
             (add_limit_order timeSrc (indexed lob o) (submitted o) p).2.2) }) := by
  rw [add_order]
  dsimp only
  split
  · rename_i heq
    rw [hty] at heq
    cases heq
  · split
    · rename_i heq hpeq
      rw [hp] at hpeq
      injection hpeq with hpe
      subst hpe
      rfl
    · rename_i heq hpeq
      rw [hp] at hpeq
      cases hpeq

theorem mmo_written_buy (timeSrc : ℕ → ℚ) (lob : LimitOrderBook) (order : Order)
    (hInv : Inv lob) (hfresh : order.order_id ∉ allRefs lob)
    (hrs : order.remaining_size = order.size) (h0 : 0 ≤ order.size)
    (hacc0 : fillSum lob.fills order.order_id = 0)
    (hs : order.side = Side.buy) (hne : lob.asks ≠ []) :
    InvAt { (match_market_order timeSrc lob order).2.1 with
        orders := (setOrder (match_market_order timeSrc lob order).2.1.orders
          (match_market_order timeSrc lob order).2.2.order_id
          (match_market_order timeSrc lob order).2.2) } order.order_id ∧
    order.order_id ∉ allRefs (match_market_order timeSrc lob order).2.1 ∧
    (match_market_order timeSrc lob order).2.2.order_id = order.order_id := by
  rw [match_market_order_buy_eq timeSrc lob order hs hne]
  dsimp only
  set t := (matchPrices timeSrc (initCtx lob order) lob.asks
    (sortAsc (ladderKeys lob.asks))).1.taker with ht
  have hido : (if t.remaining_size = 0 then { t with status := OStatus.filled }
      else { t with status := OStatus.partially_filled }).order_id = order.order_id := by
    rw [apply_ite Order.order_id]
    dsimp only
    rw [ite_self, ht, matchPrices_taker_order_id]
    rfl
  have hwrem : (if t.remaining_size = 0 then { t with status := OStatus.filled }
      else { t with status := OStatus.partially_filled }).remaining_size
      = t.remaining_size := by
    rw [apply_ite Order.remaining_size]
    dsimp only
    rw [ite_self]
  have hwsz : (if t.remaining_size = 0 then { t with status := OStatus.filled }
      else { t with status := OStatus.partially_filled }).size = order.size := by
    rw [apply_ite Order.size]
    dsimp only
    rw [ite_self, ht, matchPrices_taker_frame]
    rfl
  rw [hido]
  obtain ⟨a1, a2, a3⟩ := InvAt_mmo_buy timeSrc lob
    { tick_size := lob.tick_size,
      bids := lob.bids,
      asks := (matchPrices timeSrc (initCtx lob order) lob.asks
          (sortAsc (ladderKeys lob.asks))).2.filter fun pq => !pq.2.isEmpty,
      orders := (setOrder (matchPrices timeSrc (initCtx lob order) lob.asks
          (sortAsc (ladderKeys lob.asks))).1.orders order.order_id
          (if t.remaining_size = 0 then { t with status := OStatus.filled }
            else { t with status := OStatus.partially_filled })),
      fills := lob.fills ++ (matchPrices timeSrc (initCtx lob order) lob.asks
          (sortAsc (ladderKeys lob.asks))).1.gfills,
      last_trade_price := (matchPrices timeSrc (initCtx lob order) lob.asks
          (sortAsc (ladderKeys lob.asks))).1.last_trade_price,
      last_trade_size := (matchPrices timeSrc (initCtx lob order) lob.asks
          (sortAsc (ladderKeys lob.asks))).1.last_trade_size,
      clock := (matchPrices timeSrc (initCtx lob order) lob.asks
          (sortAsc (ladderKeys lob.asks))).1.clock }
    order
    (if t.remaining_size = 0 then { t with status := OStatus.filled }
      else { t with status := OStatus.partially_filled })
    (sortAsc (ladderKeys lob.asks))
    hInv hfresh hrs h0 hacc0
    (fun p hp => (mem_sortAsc p _).mp hp)
    (by rw [hwrem, ht]) hwsz rfl rfl rfl rfl
  exact ⟨a1, a2, rfl⟩

theorem mmo_written_sell (timeSrc : ℕ → ℚ) (lob : LimitOrderBook) (order : Order)
    (hInv : Inv lob) (hfresh : order.order_id ∉ allRefs lob)
    (hrs : order.remaining_size = order.size) (h0 : 0 ≤ order.size)
    (hacc0 : fillSum lob.fills order.order_id = 0)
    (hs : order.side = Side.sell) (hne : lob.bids ≠ []) :
    InvAt { (match_market_order timeSrc lob order).2.1 with
        orders := (setOrder (match_market_order timeSrc lob order).2.1.orders
          (match_market_order timeSrc lob order).2.2.order_id
          (match_market_order timeSrc lob order).2.2) } order.order_id ∧
    order.order_id ∉ allRefs (match_market_order timeSrc lob order).2.1 ∧
    (match_market_order timeSrc lob order).2.2.order_id = order.order_id := by
  rw [match_market_order_sell_eq timeSrc lob order hs hne]
  dsimp only
  set t := (matchPrices timeSrc (initCtx lob order) lob.bids
    (sortAsc (ladderKeys lob.bids)).reverse).1.taker with ht
  have hido : (if t.remaining_size = 0 then { t with status := OStatus.filled }
      else { t with status := OStatus.partially_filled }).order_id = order.order_id := by
    rw [apply_ite Order.order_id]
    dsimp only
    rw [ite_self, ht, matchPrices_taker_order_id]
    rfl
  have hwrem : (if t.remaining_size = 0 then { t with status := OStatus.filled }
      else { t with status := OStatus.partially_filled }).remaining_size
      = t.remaining_size := by
    rw [apply_ite Order.remaining_size]
    dsimp only
    rw [ite_self]
  have hwsz : (if t.remaining_size = 0 then { t with status := OStatus.filled }
      else { t with status := OStatus.partially_filled }).size = order.size := by
    rw [apply_ite Order.size]
    dsimp only
    rw [ite_self, ht, matchPrices_taker_frame]
    rfl
  rw [hido]
  obtain ⟨a1, a2, a3⟩ := InvAt_mmo_sell timeSrc lob
    { tick_size := lob.tick_size,
      bids := (matchPrices timeSrc (initCtx lob order) lob.bids
          (sortAsc (ladderKeys lob.bids)).reverse).2.filter fun pq => !pq.2.isEmpty,
      asks := lob.asks,
      orders := (setOrder (matchPrices timeSrc (initCtx lob order) lob.bids
          (sortAsc (ladderKeys lob.bids)).reverse).1.orders order.order_id
          (if t.remaining_size = 0 then { t with status := OStatus.filled }
            else { t with status := OStatus.partially_filled })),
      fills := lob.fills ++ (matchPrices timeSrc (initCtx lob order) lob.bids
          (sortAsc (ladderKeys lob.bids)).reverse).1.gfills,
      last_trade_price := (matchPrices timeSrc (initCtx lob order) lob.bids
          (sortAsc (ladderKeys lob.bids)).reverse).1.last_trade_price,
      last_trade_size := (matchPrices timeSrc (initCtx lob order) lob.bids
          (sortAsc (ladderKeys lob.bids)).reverse).1.last_trade_size,
      clock := (matchPrices timeSrc (initCtx lob order) lob.bids
          (sortAsc (ladderKeys lob.bids)).reverse).1.clock }
    order
    (if t.remaining_size = 0 then { t with status := OStatus.filled }
      else { t with status := OStatus.partially_filled })
    (sortAsc (ladderKeys lob.bids)).reverse
    hInv hfresh hrs h0 hacc0
    (fun p hp => (mem_sortAsc p _).mp (List.mem_reverse.mp hp))
    (by rw [hwrem, ht]) hwsz rfl rfl rfl rfl
  exact ⟨a1, a2, rfl⟩

theorem InvAt_indexed_written (lob : LimitOrderBook) (o w : Order)
    (hInv : Inv lob)
    (hnone : findOrder lob.orders o.order_id = none)
    (hfresh : o.order_id ∉ allRefs lob)
    (hwr : w.remaining_size = w.size) (h0 : 0 ≤ w.size) :
    InvAt { indexed lob o with
        orders := setOrder (indexed lob o).orders o.order_id w } o.order_id ∧
    findOrder (setOrder (indexed lob o).orders o.order_id w) o.order_id = some w ∧
    o.order_id ∉ allRefs { indexed lob o with
        orders := setOrder (indexed lob o).orders o.order_id w } := by
  have hcol : setOrder (indexed lob o).orders o.order_id w
      = setOrder lob.orders o.order_id w :=
    setOrder_setOrder lob.orders o.order_id (submitted o) w
  rw [hcol]
  exact ⟨InvAt_setOrder_fresh hInv hnone hfresh hwr h0,
    findOrder_setOrder_self _ _ _, hfresh⟩

theorem Inv_add_order_market (timeSrc : ℕ → ℚ) (lob : LimitOrderBook) (o : Order)
    (hInv : Inv lob) (hwf : WFSubmit lob o) (hty : o.type = OKind.market) :
    Inv (add_order timeSrc lob o).2 := by
  obtain ⟨hnone, hfreshA, hpos, hlim, hpend⟩ := hwf
  have hacc0 : fillSum lob.fills o.order_id = 0 :=
    hInv.2.2.2.2.2.2.2 o.order_id hnone
  have hInv1 : Inv (indexed lob o) := by
    refine Inv_of_InvAt (InvAt_setOrder_fresh hInv hnone hfreshA rfl
      (le_of_lt hpos)) ?_
    intro o2 ho2
    have ho2' : findOrder (setOrder lob.orders o.order_id (submitted o)) o.order_id
        = some o2 := ho2
    rw [findOrder_setOrder_self] at ho2'
    cases ho2'
    refine iff_of_false ?_ ?_
    · rintro (hr | ⟨hr, _⟩) <;>
        · have hr' : o.status = OStatus.active ∨ o.status = OStatus.partially_filled := by
            first
              | exact Or.inl hr
              | exact Or.inr hr
          rw [hpend] at hr'
          rcases hr' with h | h <;> cases h
    · exact fun hm => hfreshA hm
  rw [add_order_market_eq timeSrc lob o hty]
  dsimp only
  have hcore := match_market_order_taker_core timeSrc (indexed lob o) (submitted o)
  cases hside : o.side
  · -- buy
    by_cases hemp : lob.asks = []
    · have hemp1 : (if (submitted o).side = Side.buy
          then (indexed lob o).asks else (indexed lob o).bids) = [] := by
        have hside1 : (submitted o).side = Side.buy := hside
        rw [hside1, if_pos rfl]
        exact hemp
      rw [match_market_order_empty timeSrc (indexed lob o) (submitted o) hemp1]
      dsimp only
      obtain ⟨hAt, hfind, hnm⟩ := InvAt_indexed_written lob o
        { submitted o with status := OStatus.rejected } hInv hnone hfreshA rfl
        (le_of_lt hpos)
      refine Inv_of_InvAt hAt ?_
      intro o2 ho2
      have ho2' : findOrder (setOrder (indexed lob o).orders o.order_id
          { submitted o with status := OStatus.rejected }) o.order_id = some o2 := ho2
      rw [hfind] at ho2'
      cases ho2'
      refine iff_of_false ?_ (fun hm => hnm hm)
      rintro (hr | ⟨hr, _⟩) <;>
        · have hr' : OStatus.rejected = OStatus.active
              ∨ OStatus.rejected = OStatus.partially_filled := by
            first
              | exact Or.inl hr
              | exact Or.inr hr
          rcases hr' with h | h <;> cases h
    · have hside1 : (submitted o).side = Side.buy := hside
      have hne1 : (indexed lob o).asks ≠ [] := hemp
      obtain ⟨hAt, hnm, hid3⟩ := mmo_written_buy timeSrc (indexed lob o) (submitted o)
        hInv1 hfreshA rfl (le_of_lt hpos) hacc0 hside1 hne1
      refine Inv_of_InvAt hAt ?_
      intro o2 ho2
      have hid3' : (match_market_order timeSrc (indexed lob o)
          (submitted o)).2.2.order_id = o.order_id := hid3
      have ho2' : findOrder (setOrder
          (match_market_order timeSrc (indexed lob o) (submitted o)).2.1.orders
          (match_market_order timeSrc (indexed lob o) (submitted o)).2.2.order_id
          (match_market_order timeSrc (indexed lob o) (submitted o)).2.2) o.order_id
          = some o2 := ho2
      rw [hid3', findOrder_setOrder_self] at ho2'
      cases ho2'
      have hstat := match_market_order_status timeSrc (indexed lob o) (submitted o)
        (by
          intro hh
          rw [if_pos hside1] at hh
          exact hne1 hh)
      refine iff_of_false ?_ (fun hm => hnm hm)
      rintro (hr | ⟨_, htp⟩)
      · rw [hstat] at hr
        split_ifs at hr <;> cases hr
      · have htp' : (match_market_order timeSrc (indexed lob o)
            (submitted o)).2.2.type = o.type := hcore.2.2.2.1
        rw [htp', hty] at htp
        cases htp
  · -- sell
    by_cases hemp : lob.bids = []
    · have hemp1 : (if (submitted o).side = Side.buy
          then (indexed lob o).asks else (indexed lob o).bids) = [] := by
        have hside1 : (submitted o).side = Side.sell := hside
        rw [hside1]
        simp only [reduceCtorEq, if_false, ite_false]
        exact hemp
      rw [match_market_order_empty timeSrc (indexed lob o) (submitted o) hemp1]
      dsimp only
      obtain ⟨hAt, hfind, hnm⟩ := InvAt_indexed_written lob o
        { submitted o with status := OStatus.rejected } hInv hnone hfreshA rfl
        (le_of_lt hpos)
      refine Inv_of_InvAt hAt ?_
      intro o2 ho2
      have ho2' : findOrder (setOrder (indexed lob o).orders o.order_id
          { submitted o with status := OStatus.rejected }) o.order_id = some o2 := ho2
      rw [hfind] at ho2'
      cases ho2'
      refine iff_of_false ?_ (fun hm => hnm hm)
      rintro (hr | ⟨hr, _⟩) <;>
        · have hr' : OStatus.rejected = OStatus.active
              ∨ OStatus.rejected = OStatus.partially_filled := by
            first
              | exact Or.inl hr
              | exact Or.inr hr
          rcases hr' with h | h <;> cases h
    · have hside1 : (submitted o).side = Side.sell := hside
      have hne1 : (indexed lob o).bids ≠ [] := hemp
      obtain ⟨hAt, hnm, hid3⟩ := mmo_written_sell timeSrc (indexed lob o) (submitted o)
        hInv1 hfreshA rfl (le_of_lt hpos) hacc0 hside1 hne1
      refine Inv_of_InvAt hAt ?_
      intro o2 ho2
      have hid3' : (match_market_order timeSrc (indexed lob o)
          (submitted o)).2.2.order_id = o.order_id := hid3
      have ho2' : findOrder (setOrder
          (match_market_order timeSrc (indexed lob o) (submitted o)).2.1.orders
          (match_market_order timeSrc (indexed lob o) (submitted o)).2.2.order_id
          (match_market_order timeSrc (indexed lob o) (submitted o)).2.2) o.order_id
          = some o2 := ho2
      rw [hid3', findOrder_setOrder_self] at ho2'
      cases ho2'
      have hstat := match_market_order_status timeSrc (indexed lob o) (submitted o)
        (by
          intro hh
          rw [hside1] at hh
          simp only [reduceCtorEq, if_false, ite_false] at hh
          exact hne1 hh)
      refine iff_of_false ?_ (fun hm => hnm hm)
      rintro (hr | ⟨_, htp⟩)
      · rw [hstat] at hr
        split_ifs at hr <;> cases hr
      · have htp' : (match_market_order timeSrc (indexed lob o)
            (submitted o)).2.2.type = o.type := hcore.2.2.2.1
        rw [htp', hty] at htp
        cases htp

theorem InvAt_congr {L : LimitOrderBook} {a b : OrderId} (h : InvAt L a) (e : b = a) :
    InvAt L b := by
  rw [e]
  exact h

theorem not_mem_allRefs_congr {L : LimitOrderBook} {a b : OrderId}
    (h : a ∉ allRefs L) (e : b = a) : b ∉ allRefs L := by
  rw [e]
  exact h

theorem Inv_indexed (lob : LimitOrderBook) (o : Order)
    (hInv : Inv lob)
    (hnone : findOrder lob.orders o.order_id = none)
    (hfreshA : o.order_id ∉ allRefs lob)
    (hpend : o.status = OStatus.pending)
    (h0 : 0 ≤ o.size) :
    Inv (indexed lob o) := by
  refine Inv_of_InvAt (InvAt_setOrder_fresh hInv hnone hfreshA rfl h0) ?_
  intro o2 ho2
  have ho2' : findOrder (setOrder lob.orders o.order_id (submitted o)) o.order_id
      = some o2 := ho2
  rw [findOrder_setOrder_self] at ho2'
  cases ho2'
  refine iff_of_false ?_ ?_
  · rintro (hr | ⟨hr, _⟩) <;>
      · have hr' : o.status = OStatus.active ∨ o.status = OStatus.partially_filled := by
          first
            | exact Or.inl hr
            | exact Or.inr hr
        rw [hpend] at hr'
        rcases hr' with h | h <;> cases h
  · exact fun hm => hfreshA hm

set_option maxHeartbeats 1000000 in
theorem Inv_add_order_limit (timeSrc : ℕ → ℚ) (lob : LimitOrderBook) (o : Order) (p : ℚ)
    (hInv : Inv lob) (hwf : WFSubmit lob o) (hty : o.type = OKind.limit)
    (hp : o.price = some p) :
    Inv (add_order timeSrc lob o).2 := by
  obtain ⟨hnone, hfreshA, hpos, hlim, hpend⟩ := hwf
  have hacc0 : fillSum lob.fills o.order_id = 0 :=
    hInv.2.2.2.2.2.2.2 o.order_id hnone
  have hInv1 : Inv (indexed lob o) :=
    Inv_indexed lob o hInv hnone hfreshA hpend (le_of_lt hpos)
  rw [add_order_limit_eq timeSrc lob o p hty hp]
  dsimp only
  rw [add_limit_order]
  dsimp only [indexed, submitted]
  by_cases hside : o.side = Side.buy
  · simp only [eq_true hside, if_true, ite_true]
    by_cases hemp : lob.asks = []
    · have he : (List.isEmpty lob.asks = true) = True := by rw [hemp]; simp
      simp only [he, if_true, ite_true, eq_true hpos, eq_true hpend]
      simp only [eq_true hside, if_true, ite_true]
      obtain ⟨hAt, hfind, hnm⟩ := InvAt_indexed_written lob o
        { submitted o with
            price := some (round_price lob.tick_size p),
            status := OStatus.active } hInv hnone hfreshA rfl (le_of_lt hpos)
      exact Inv_rest_buy
        { indexed lob o with orders := (setOrder (indexed lob o).orders o.order_id
            { submitted o with
                price := some (round_price lob.tick_size p),
                status := OStatus.active }) }
        o.order_id
        { submitted o with
            price := some (round_price lob.tick_size p),
            status := OStatus.active }
        (round_price lob.tick_size p) hAt hfind hnm hside hty rfl hpos (Or.inl rfl)
    · have he : (List.isEmpty lob.asks = true) = False := by
        simp [List.isEmpty_iff, hemp]
      simp only [he, if_false, ite_false]
      obtain ⟨bo, hmk⟩ : ∃ bo, minKey lob.asks = some bo := by
        cases hb : lob.asks with
        | nil => exact absurd hb hemp
        | cons a as => exact ⟨_, rfl⟩
      rw [hmk]
      by_cases hcross : bo ≤ round_price lob.tick_size p
      · simp only [eq_true hcross, if_true, ite_true]
        have hne2 : (indexed lob o).asks ≠ [] := hemp
        have hcore := match_market_order_taker_core timeSrc (indexed lob o)
          { submitted o with price := some (round_price lob.tick_size p) }
        have hTside : (match_market_order timeSrc (indexed lob o)
            { submitted o with price := some (round_price lob.tick_size p) }).2.2.side
            = Side.buy := hcore.2.2.1.trans hside
        have hTstat := match_market_order_status timeSrc (indexed lob o)
          { submitted o with price := some (round_price lob.tick_size p) }
          (by
            intro hh
            have hh' : lob.asks = [] := by
              have hs2 : ({ submitted o with
                  price := some (round_price lob.tick_size p) } : Order).side
                  = Side.buy := hside
              rw [if_pos hs2] at hh
              exact hh
            exact hemp hh')
        split
        · rename_i hrem
          have hrem' : 0 < (match_market_order timeSrc (indexed lob o)
              { submitted o with price := some (round_price lob.tick_size p)
                }).2.2.remaining_size := hrem
          have hTpf : (match_market_order timeSrc (indexed lob o)
              { submitted o with price := some (round_price lob.tick_size p)
                }).2.2.status = OStatus.partially_filled := by
            rw [hTstat, if_neg]
            omega
          split
          · rename_i h2
            split
            · rename_i h3
              have h3' : (match_market_order timeSrc (indexed lob o)
                  { submitted o with price := some (round_price lob.tick_size p)
                    }).2.2.status = OStatus.pending := h3
              rw [hTpf] at h3'
              cases h3'
            · rename_i h3
              obtain ⟨hAt, hnm, hid3⟩ := mmo_written_buy timeSrc (indexed lob o)
                { submitted o with price := some (round_price lob.tick_size p) }
                hInv1 hfreshA rfl (le_of_lt hpos) hacc0 hside hne2
              have hid3' : (match_market_order timeSrc (indexed lob o)
                  { submitted o with price := some (round_price lob.tick_size p)
                    }).2.2.order_id = o.order_id := hid3
              have hAtT : InvAt
                  { (match_market_order timeSrc (indexed lob o)
                      { submitted o with price := some (round_price lob.tick_size p)
                        }).2.1 with
                    orders := (setOrder
                      (match_market_order timeSrc (indexed lob o)
                        { submitted o with price := some (round_price lob.tick_size p)
                          }).2.1.orders
                      (match_market_order timeSrc (indexed lob o)
                        { submitted o with price := some (round_price lob.tick_size p)
                          }).2.2.order_id
                      (match_market_order timeSrc (indexed lob o)
                        { submitted o with price := some (round_price lob.tick_size p)
                          }).2.2) }
                  ((match_market_order timeSrc (indexed lob o)
                    { submitted o with price := some (round_price lob.tick_size p)
                      }).2.2.order_id) := InvAt_congr hAt hid3'
              have hfreshT : (match_market_order timeSrc (indexed lob o)
                  { submitted o with price := some (round_price lob.tick_size p)
                    }).2.2.order_id ∉ allRefs
                  { (match_market_order timeSrc (indexed lob o)
                      { submitted o with price := some (round_price lob.tick_size p)
                        }).2.1 with
                    orders := (setOrder
                      (match_market_order timeSrc (indexed lob o)
                        { submitted o with price := some (round_price lob.tick_size p)
                          }).2.1.orders
                      (match_market_order timeSrc (indexed lob o)
                        { submitted o with price := some (round_price lob.tick_size p)
                          }).2.2.order_id
                      (match_market_order timeSrc (indexed lob o)
                        { submitted o with price := some (round_price lob.tick_size p)
                          }).2.2) } := not_mem_allRefs_congr hnm hid3'
              have hTtype : (match_market_order timeSrc (indexed lob o)
                  { submitted o with price := some (round_price lob.tick_size p)
                    }).2.2.type = OKind.limit := hcore.2.2.2.1.trans hty
              have hTprice : (match_market_order timeSrc (indexed lob o)
                  { submitted o with price := some (round_price lob.tick_size p)
                    }).2.2.price = some (round_price lob.tick_size p) := hcore.2.2.2.2.1
              exact Inv_rest_buy
                { (match_market_order timeSrc (indexed lob o)
                    { submitted o with price := some (round_price lob.tick_size p)
                      }).2.1 with
                  orders := (setOrder
                    (match_market_order timeSrc (indexed lob o)
                      { submitted o with price := some (round_price lob.tick_size p)
                        }).2.1.orders
                    (match_market_order timeSrc (indexed lob o)
                      { submitted o with price := some (round_price lob.tick_size p)
                        }).2.2.order_id
                    (match_market_order timeSrc (indexed lob o)
                      { submitted o with price := some (round_price lob.tick_size p)
                        }).2.2) }
                ((match_market_order timeSrc (indexed lob o)
                  { submitted o with price := some (round_price lob.tick_size p)
                    }).2.2.order_id)
                ((match_market_order timeSrc (indexed lob o)
                  { submitted o with price := some (round_price lob.tick_size p)
                    }).2.2)
                (round_price lob.tick_size p)
                hAtT (findOrder_setOrder_self _ _ _) hfreshT hTside hTtype hTprice
                hrem' (Or.inr hTpf)
          · rename_i h2
            exact absurd hTside h2
        · rename_i hrem
          have hrem' : ¬ 0 < (match_market_order timeSrc (indexed lob o)
              { submitted o with price := some (round_price lob.tick_size p)
                }).2.2.remaining_size := hrem
          obtain ⟨hAt, hnm, hid3⟩ := mmo_written_buy timeSrc (indexed lob o)
            { submitted o with price := some (round_price lob.tick_size p) }
            hInv1 hfreshA rfl (le_of_lt hpos) hacc0 hside hne2
          have hid3' : (match_market_order timeSrc (indexed lob o)
              { submitted o with price := some (round_price lob.tick_size p)
                }).2.2.order_id = o.order_id := hid3
          refine Inv_of_InvAt hAt ?_
          intro o2 ho2
          have ho2' : findOrder (setOrder
              (match_market_order timeSrc (indexed lob o)
                { submitted o with price := some (round_price lob.tick_size p)
                  }).2.1.orders
              (match_market_order timeSrc (indexed lob o)
                { submitted o with price := some (round_price lob.tick_size p)
                  }).2.2.order_id
              (match_market_order timeSrc (indexed lob o)
                { submitted o with price := some (round_price lob.tick_size p)
                  }).2.2) o.order_id = some o2 := ho2
          rw [hid3', findOrder_setOrder_self] at ho2'
          cases ho2'
          have hfindT : findOrder (setOrder
              (match_market_order timeSrc (indexed lob o)
                { submitted o with price := some (round_price lob.tick_size p)
                  }).2.1.orders
              (match_market_order timeSrc (indexed lob o)
                { submitted o with price := some (round_price lob.tick_size p)
                  }).2.2.order_id
              (match_market_order timeSrc (indexed lob o)
                { submitted o with price := some (round_price lob.tick_size p)
                  }).2.2) o.order_id = some
              (match_market_order timeSrc (indexed lob o)
                { submitted o with price := some (round_price lob.tick_size p)
                  }).2.2 := by
            rw [hid3']
            exact findOrder_setOrder_self _ _ _
          obtain ⟨_, hb1, _⟩ := hAt.2.2.2.2.2.2.1 o.order_id _ hfindT
          have hfill : (match_market_order timeSrc (indexed lob o)
              { submitted o with price := some (round_price lob.tick_size p)
                }).2.2.status = OStatus.filled := by
            rw [hTstat, if_pos]
            omega
          refine iff_of_false ?_ (fun hm => hnm hm)
          rintro (hr | ⟨hr, _⟩) <;> rw [hfill] at hr <;> cases hr
      · simp only [eq_false hcross, if_false, ite_false]
        simp only [eq_true hpos, eq_true hpend, if_true, ite_true]
        simp only [eq_true hside, if_true, ite_true]
        obtain ⟨hAt, hfind, hnm⟩ := InvAt_indexed_written lob o
          { submitted o with
              price := some (round_price lob.tick_size p),
              status := OStatus.active } hInv hnone hfreshA rfl (le_of_lt hpos)
        exact Inv_rest_buy
          { indexed lob o with orders := (setOrder (indexed lob o).orders o.order_id
              { submitted o with
                  price := some (round_price lob.tick_size p),
                  status := OStatus.active }) }
          o.order_id
          { submitted o with
              price := some (round_price lob.tick_size p),
              status := OStatus.active }
          (round_price lob.tick_size p) hAt hfind hnm hside hty rfl hpos (Or.inl rfl)
  · have hsideS : o.side = Side.sell := by
      cases hs2 : o.side
      · exact absurd hs2 hside
      · rfl
    simp only [eq_false hside, if_false, ite_false]
    by_cases hemp : lob.bids = []
    · have he : (List.isEmpty lob.bids = true) = True := by rw [hemp]; simp
      simp only [he, if_true, ite_true, eq_true hpos, eq_true hpend]
      simp only [eq_false hside, if_false, ite_false]
      obtain ⟨hAt, hfind, hnm⟩ := InvAt_indexed_written lob o
        { submitted o with
            price := some (round_price lob.tick_size p),
            status := OStatus.active } hInv hnone hfreshA rfl (le_of_lt hpos)
      exact Inv_rest_sell
        { indexed lob o with orders := (setOrder (indexed lob o).orders o.order_id
            { submitted o with
                price := some (round_price lob.tick_size p),
                status := OStatus.active }) }
        o.order_id
        { submitted o with
            price := some (round_price lob.tick_size p),
            status := OStatus.active }
        (round_price lob.tick_size p) hAt hfind hnm hsideS hty rfl hpos (Or.inl rfl)
    · have he : (List.isEmpty lob.bids = true) = False := by
        simp [List.isEmpty_iff, hemp]
      simp only [he, if_false, ite_false]
      obtain ⟨bo, hmk⟩ : ∃ bo, maxKey lob.bids = some bo := by
        cases hb : lob.bids with
        | nil => exact absurd hb hemp
        | cons a as => exact ⟨_, rfl⟩
      rw [hmk]
      by_cases hcross : round_price lob.tick_size p ≤ bo
      · simp only [eq_true hcross, if_true, ite_true]
        have hne2 : (indexed lob o).bids ≠ [] := hemp
        have hcore := match_market_order_taker_core timeSrc (indexed lob o)
          { submitted o with price := some (round_price lob.tick_size p) }
        have hTside : (match_market_order timeSrc (indexed lob o)
            { submitted o with price := some (round_price lob.tick_size p) }).2.2.side
            = Side.sell := hcore.2.2.1.trans hsideS
        have hTnotbuy : ¬ (match_market_order timeSrc (indexed lob o)
            { submitted o with price := some (round_price lob.tick_size p) }).2.2.side
            = Side.buy := by
          rw [hTside]
          intro hh
          cases hh
        have hTstat := match_market_order_status timeSrc (indexed lob o)
          { submitted o with price := some (round_price lob.tick_size p) }
          (by
            intro hh
            have hh' : lob.bids = [] := by
              have hs2 : ({ submitted o with
                  price := some (round_price lob.tick_size p) } : Order).side
                  = Side.sell := hsideS
              rw [hs2] at hh
              simp only [reduceCtorEq, if_false, ite_false] at hh
              exact hh
            exact hemp hh')
        split
        · rename_i hrem
          have hrem' : 0 < (match_market_order timeSrc (indexed lob o)
              { submitted o with price := some (round_price lob.tick_size p)
                }).2.2.remaining_size := hrem
          have hTpf : (match_market_order timeSrc (indexed lob o)
              { submitted o with price := some (round_price lob.tick_size p)
                }).2.2.status = OStatus.partially_filled := by
            rw [hTstat, if_neg]
            omega
          split
          · rename_i h2
            exact absurd h2 hTnotbuy
          · rename_i h2
            split
            · rename_i h3
              have h3' : (match_market_order timeSrc (indexed lob o)
                  { submitted o with price := some (round_price lob.tick_size p)
                    }).2.2.status = OStatus.pending := h3
              rw [hTpf] at h3'
              cases h3'
            · rename_i h3
              obtain ⟨hAt, hnm, hid3⟩ := mmo_written_sell timeSrc (indexed lob o)
                { submitted o with price := some (round_price lob.tick_size p) }
                hInv1 hfreshA rfl (le_of_lt hpos) hacc0 hsideS hne2
              have hid3' : (match_market_order timeSrc (indexed lob o)
                  { submitted o with price := some (round_price lob.tick_size p)
                    }).2.2.order_id = o.order_id := hid3
              have hAtT : InvAt
                  { (match_market_order timeSrc (indexed lob o)
                      { submitted o with price := some (round_price lob.tick_size p)
                        }).2.1 with
                    orders := (setOrder
                      (match_market_order timeSrc (indexed lob o)
                        { submitted o with price := some (round_price lob.tick_size p)
                          }).2.1.orders
                      (match_market_order timeSrc (indexed lob o)
                        { submitted o with price := some (round_price lob.tick_size p)
                          }).2.2.order_id
                      (match_market_order timeSrc (indexed lob o)
                        { submitted o with price := some (round_price lob.tick_size p)
                          }).2.2) }
                  ((match_market_order timeSrc (indexed lob o)
                    { submitted o with price := some (round_price lob.tick_size p)
                      }).2.2.order_id) := InvAt_congr hAt hid3'
              have hfreshT : (match_market_order timeSrc (indexed lob o)
                  { submitted o with price := some (round_price lob.tick_size p)
                    }).2.2.order_id ∉ allRefs
                  { (match_market_order timeSrc (indexed lob o)
                      { submitted o with price := some (round_price lob.tick_size p)
                        }).2.1 with
                    orders := (setOrder
                      (match_market_order timeSrc (indexed lob o)
                        { submitted o with price := some (round_price lob.tick_size p)
                          }).2.1.orders
                      (match_market_order timeSrc (indexed lob o)
                        { submitted o with price := some (round_price lob.tick_size p)
                          }).2.2.order_id
                      (match_market_order timeSrc (indexed lob o)
                        { submitted o with price := some (round_price lob.tick_size p)
                          }).2.2) } := not_mem_allRefs_congr hnm hid3'
              have hTtype : (match_market_order timeSrc (indexed lob o)
                  { submitted o with price := some (round_price lob.tick_size p)
                    }).2.2.type = OKind.limit := hcore.2.2.2.1.trans hty
              have hTprice : (match_market_order timeSrc (indexed lob o)
                  { submitted o with price := some (round_price lob.tick_size p)
                    }).2.2.price = some (round_price lob.tick_size p) := hcore.2.2.2.2.1
              exact Inv_rest_sell
                { (match_market_order timeSrc (indexed lob o)
                    { submitted o with price := some (round_price lob.tick_size p)
                      }).2.1 with
                  orders := (setOrder
                    (match_market_order timeSrc (indexed lob o)
                      { submitted o with price := some (round_price lob.tick_size p)
                        }).2.1.orders
                    (match_market_order timeSrc (indexed lob o)
                      { submitted o with price := some (round_price lob.tick_size p)
                        }).2.2.order_id
                    (match_market_order timeSrc (indexed lob o)
                      { submitted o with price := some (round_price lob.tick_size p)
                        }).2.2) }
                ((match_market_order timeSrc (indexed lob o)
                  { submitted o with price := some (round_price lob.tick_size p)
                    }).2.2.order_id)
                ((match_market_order timeSrc (indexed lob o)
                  { submitted o with price := some (round_price lob.tick_size p)
                    }).2.2)
                (round_price lob.tick_size p)
                hAtT (findOrder_setOrder_self _ _ _) hfreshT hTside hTtype hTprice
                hrem' (Or.inr hTpf)

        · rename_i hrem
          have hrem' : ¬ 0 < (match_market_order timeSrc (indexed lob o)
              { submitted o with price := some (round_price lob.tick_size p)
                }).2.2.remaining_size := hrem
          obtain ⟨hAt, hnm, hid3⟩ := mmo_written_sell timeSrc (indexed lob o)
            { submitted o with price := some (round_price lob.tick_size p) }
            hInv1 hfreshA rfl (le_of_lt hpos) hacc0 hsideS hne2
          have hid3' : (match_market_order timeSrc (indexed lob o)
              { submitted o with price := some (round_price lob.tick_size p)
                }).2.2.order_id = o.order_id := hid3
          refine Inv_of_InvAt hAt ?_
          intro o2 ho2
          have ho2' : findOrder (setOrder
              (match_market_order timeSrc (indexed lob o)
                { submitted o with price := some (round_price lob.tick_size p)
                  }).2.1.orders
              (match_market_order timeSrc (indexed lob o)
                { submitted o with price := some (round_price lob.tick_size p)
                  }).2.2.order_id
              (match_market_order timeSrc (indexed lob o)
                { submitted o with price := some (round_price lob.tick_size p)
                  }).2.2) o.order_id = some o2 := ho2
          rw [hid3', findOrder_setOrder_self] at ho2'
          cases ho2'
          have hfindT : findOrder (setOrder
              (match_market_order timeSrc (indexed lob o)
                { submitted o with price := some (round_price lob.tick_size p)
                  }).2.1.orders
              (match_market_order timeSrc (indexed lob o)
                { submitted o with price := some (round_price lob.tick_size p)
                  }).2.2.order_id
              (match_market_order timeSrc (indexed lob o)
                { submitted o with price := some (round_price lob.tick_size p)
                  }).2.2) o.order_id = some
              (match_market_order timeSrc (indexed lob o)
                { submitted o with price := some (round_price lob.tick_size p)
                  }).2.2 := by
            rw [hid3']
            exact findOrder_setOrder_self _ _ _
          obtain ⟨_, hb1, _⟩ := hAt.2.2.2.2.2.2.1 o.order_id _ hfindT
          have hfill : (match_market_order timeSrc (indexed lob o)
              { submitted o with price := some (round_price lob.tick_size p)
                }).2.2.status = OStatus.filled := by
            rw [hTstat, if_pos]
            omega
          refine iff_of_false ?_ (fun hm => hnm hm)
          rintro (hr | ⟨hr, _⟩) <;> rw [hfill] at hr <;> cases hr
      · simp only [eq_false hcross, if_false, ite_false]
        simp only [eq_true hpos, eq_true hpend, if_true, ite_true]
        simp only [eq_false hside, if_false, ite_false]
        obtain ⟨hAt, hfind, hnm⟩ := InvAt_indexed_written lob o
          { submitted o with
              price := some (round_price lob.tick_size p),
              status := OStatus.active } hInv hnone hfreshA rfl (le_of_lt hpos)
        exact Inv_rest_sell
          { indexed lob o with orders := (setOrder (indexed lob o).orders o.order_id
              { submitted o with
                  price := some (round_price lob.tick_size p),
                  status := OStatus.active }) }
          o.order_id
          { submitted o with
              price := some (round_price lob.tick_size p),
              status := OStatus.active }
          (round_price lob.tick_size p) hAt hfind hnm hsideS hty rfl hpos (Or.inl rfl)

theorem Inv_add_order (timeSrc : ℕ → ℚ) (lob : LimitOrderBook) (o : Order)
    (hInv : Inv lob) (hwf : WFSubmit lob o) :
    Inv (add_order timeSrc lob o).2 := by
  cases hty : o.type with
  | market => exact Inv_add_order_market timeSrc lob o hInv hwf hty
  | limit =>
    rcases hp : o.price with _ | p
    · have hs := hwf.2.2.2.1 hty
      rw [hp] at hs
      simp at hs
    · exact Inv_add_order_limit timeSrc lob o p hInv hwf hty hp

theorem Inv_empty (tick_size : ℚ) : Inv { tick_size := tick_size } := by
  refine ⟨?_, ?_, ?_, ?_, ?_, ?_, ?_, ?_⟩
  · intro pq hpq
    cases hpq
  · intro pq hpq
    cases hpq
  · exact List.nodup_nil
  · exact List.nodup_nil
  · exact List.nodup_nil
  · intro id o ho
    cases ho
  · intro id o ho
    cases ho
  · intro id _
    rfl

/-- Every reachable book satisfies the state invariant. -/
theorem Inv_reachable (timeSrc : ℕ → ℚ) (lob : LimitOrderBook)
    (h : Reachable timeSrc lob) : Inv lob := by
  induction h with
  | init tick_size h0 => exact Inv_empty tick_size
  | submit hr hwf ih => exact Inv_add_order _ _ _ ih hwf
  | cancel oid hr ih => exact Inv_cancel_order _ oid ih

/-! ## No empty price levels

`_match_market_order` filters the emptied levels out of the opposite side,
the resting step of `_add_limit_order` appends to a queue (leaving it
nonempty), and `cancel_order` erases a level that would become empty, so a
reachable book never stores an empty queue at a price.  This is needed to
show that canceling an order that rests in no queue leaves both book sides
unchanged. -/

/-- Neither side of the book stores an empty level. -/
def NoEmpty (lob : LimitOrderBook) : Prop :=
  (∀ pq ∈ lob.bids, pq.2 ≠ []) ∧ (∀ pq ∈ lob.asks, pq.2 ≠ [])

theorem noEmpty_filter (b : Ladder) :
    ∀ pq ∈ b.filter (fun pq => !pq.2.isEmpty), pq.2 ≠ [] := by
  intro pq hpq hnil
  have h := (List.mem_filter.mp hpq).2
  rw [hnil] at h
  simp at h

theorem NoEmpty_mmo (timeSrc : ℕ → ℚ) (lob : LimitOrderBook) (order : Order)
    (h : NoEmpty lob) : NoEmpty (match_market_order timeSrc lob order).2.1 := by
  rw [match_market_order]
  dsimp only
  by_cases hs : order.side = Side.buy
  · have hs' : ¬ order.side = Side.sell := by rw [hs]; decide
    simp only [eq_true hs, eq_false hs', if_true, if_false, ite_true, ite_false]
    by_cases hemp : lob.asks.isEmpty = true
    · rw [if_pos hemp]
      exact h
    · rw [if_neg hemp]
      exact ⟨h.1, noEmpty_filter _⟩
  · have hs' : order.side = Side.sell := by
      cases hside : order.side
      · exact absurd hside hs
      · rfl
    simp only [eq_false hs, eq_true hs', if_true, if_false, ite_true, ite_false]
    by_cases hemp : lob.bids.isEmpty = true
    · rw [if_pos hemp]
      exact h
    · rw [if_neg hemp]
      exact ⟨noEmpty_filter _, h.2⟩

theorem NoEmpty_setLevel_append (b : Ladder) (p : ℚ) (q : Level) (e : OrderId × ℤ)
    (h : ∀ pq ∈ b, pq.2 ≠ []) :
    ∀ pq ∈ setLevel b p (q ++ [e]), pq.2 ≠ [] := by
  intro pq hpq
  rcases mem_setLevel b p (q ++ [e]) pq hpq with rfl | hm
  · simp
  · exact h pq hm

theorem NoEmpty_rest (L : LimitOrderBook) (T : Order) (price : ℚ) (hL : NoEmpty L) :
    NoEmpty { L with
      bids := if T.side = Side.buy
        then setLevel (if T.side = Side.buy then L.bids else L.asks) price
          ((findLevel (if T.side = Side.buy then L.bids else L.asks) price).getD []
            ++ [(T.order_id, T.remaining_size)])
        else L.bids,
      asks := if T.side = Side.buy then L.asks
        else setLevel (if T.side = Side.buy then L.bids else L.asks) price
          ((findLevel (if T.side = Side.buy then L.bids else L.asks) price).getD []
            ++ [(T.order_id, T.remaining_size)]) } := by
  by_cases hs : T.side = Side.buy
  · simp only [eq_true hs, if_true, ite_true]
    exact ⟨NoEmpty_setLevel_append _ _ _ _ hL.1, hL.2⟩
  · simp only [eq_false hs, if_false, ite_false]
    exact ⟨hL.1, NoEmpty_setLevel_append _ _ _ _ hL.2⟩

theorem NoEmpty_add_limit_order (timeSrc : ℕ → ℚ) (lob : LimitOrderBook) (order : Order)
    (p : ℚ) (h : NoEmpty lob) :
    NoEmpty (add_limit_order timeSrc lob order p).2.1 := by
  rw [add_limit_order]
  dsimp only
  have hstep : ∀ s : List Fill × LimitOrderBook × Order, NoEmpty s.2.1 →
      NoEmpty ((if 0 < s.2.2.remaining_size then
        (s.1,
         { s.2.1 with
           bids := if s.2.2.side = Side.buy
             then setLevel (if s.2.2.side = Side.buy then s.2.1.bids else s.2.1.asks)
               (round_price lob.tick_size p)
               ((findLevel (if s.2.2.side = Side.buy then s.2.1.bids else s.2.1.asks)
                 (round_price lob.tick_size p)).getD []
                 ++ [(s.2.2.order_id, s.2.2.remaining_size)])
             else s.2.1.bids,
           asks := if s.2.2.side = Side.buy then s.2.1.asks
             else setLevel (if s.2.2.side = Side.buy then s.2.1.bids else s.2.1.asks)
               (round_price lob.tick_size p)
               ((findLevel (if s.2.2.side = Side.buy then s.2.1.bids else s.2.1.asks)
                 (round_price lob.tick_size p)).getD []
                 ++ [(s.2.2.order_id, s.2.2.remaining_size)]) },
         if s.2.2.status = OStatus.pending then { s.2.2 with status := OStatus.active }
         else s.2.2)
       else s)).2.1 := by
    intro s hs
    by_cases h0 : 0 < s.2.2.remaining_size
    · rw [if_pos h0]
      exact NoEmpty_rest _ _ _ hs
    · rw [if_neg h0]
      exact hs
  refine hstep _ ?_
  by_cases hs : order.side = Side.buy
  · have hs' : ¬ order.side = Side.sell := by rw [hs]; decide
    simp only [eq_true hs, eq_false hs', if_true, if_false, ite_true, ite_false]
    by_cases hemp : lob.asks.isEmpty = true
    · rw [if_pos hemp]
      exact h
    · rw [if_neg hemp]
      split
      · split
        · exact NoEmpty_mmo _ _ _ h
        · exact h
      · exact h
  · have hs' : order.side = Side.sell := by
      cases hside : order.side
      · exact absurd hside hs
      · rfl
    simp only [eq_false hs, eq_true hs', if_true, if_false, ite_true, ite_false]
    by_cases hemp : lob.bids.isEmpty = true
    · rw [if_pos hemp]
      exact h
    · rw [if_neg hemp]
      split
      · split
        · exact NoEmpty_mmo _ _ _ h
        · exact h
      · exact h

theorem NoEmpty_add_order (timeSrc : ℕ → ℚ) (lob : LimitOrderBook) (o : Order)
    (h : NoEmpty lob) : NoEmpty (add_order timeSrc lob o).2 := by
  cases hty : o.type with
  | market =>
    rw [add_order_market_eq timeSrc lob o hty]
    exact NoEmpty_mmo timeSrc (indexed lob o) (submitted o) h
  | limit =>
    rcases hp : o.price with _ | pr
    · rw [add_order]
      dsimp only
      split
      · rename_i heq
        rw [hty] at heq
        cases heq
      · split
        · rename_i pr heq
          rw [hp] at heq
          cases heq
        · exact h
    · rw [add_order_limit_eq timeSrc lob o pr hty hp]
      exact NoEmpty_add_limit_order timeSrc (indexed lob o) (submitted o) pr h

theorem NoEmpty_cancelBook (b : Ladder) (oid : OrderId) (pr : Option ℚ)
    (h : ∀ pq ∈ b, pq.2 ≠ []) :
    ∀ pq ∈ cancelBook b oid pr, pq.2 ≠ [] := by
  rcases pr with _ | price
  · exact h
  · rcases hfl : findLevel b price with _ | q
    · simp only [cancelBook, hfl]
      exact h
    · simp only [cancelBook, hfl]
      split
      · intro pq hpq
        exact h pq (mem_eraseLevel b price pq hpq)
      · rename_i hemp
        intro pq hpq
        rcases mem_setLevel b price _ pq hpq with heq | hm
        · rw [heq]
          show q.filter (fun e => ¬ e.1 = oid) ≠ []
          intro hnil
          exact hemp (by rw [hnil]; rfl)
        · exact h pq hm

theorem NoEmpty_cancel_order (lob : LimitOrderBook) (oid : OrderId)
    (h : NoEmpty lob) : NoEmpty (cancel_order lob oid).2 := by
  rcases hfind : findOrder lob.orders oid with _ | order
  · have heq : cancel_order lob oid = (false, lob) := by rw [cancel_order, hfind]
    rw [heq]
    exact h
  · by_cases hst : order.status = OStatus.filled ∨ order.status = OStatus.canceled
    · have heq : cancel_order lob oid = (false, lob) := by
        rw [cancel_order, hfind]
        dsimp only
        rw [if_pos hst]
      rw [heq]
      exact h
    · rcases hs : order.side with _ | _
      · rw [cancel_order_buy_eq lob oid order hfind hst hs]
        exact ⟨NoEmpty_cancelBook _ _ _ h.1, h.2⟩
      · rw [cancel_order_sell_eq lob oid order hfind hst hs]
        exact ⟨h.1, NoEmpty_cancelBook _ _ _ h.2⟩

theorem NoEmpty_reachable (timeSrc : ℕ → ℚ) (lob : LimitOrderBook)
    (h : Reachable timeSrc lob) : NoEmpty lob := by
  induction h with
  | init tick_size h0 =>
    exact ⟨fun pq hpq => absurd hpq (by intro hc; cases hc),
           fun pq hpq => absurd hpq (by intro hc; cases hc)⟩
  | submit hr hwf ih => exact NoEmpty_add_order _ _ _ ih
  | cancel oid hr ih => exact NoEmpty_cancel_order _ oid ih

/-! ## Canceling a non-resting order leaves both book sides untouched -/

theorem setLevel_self (b : Ladder) (p : ℚ) (q : Level) (h : findLevel b p = some q) :
    setLevel b p q = b := by
  induction b with
  | nil => simp [findLevel] at h
  | cons e rest ih =>
    rcases e with ⟨p0, q0⟩
    by_cases hp : p0 = p
    · subst hp
      rw [findLevel, if_pos rfl] at h
      cases h
      rw [setLevel, if_pos rfl]
    · rw [findLevel, if_neg hp] at h
      rw [setLevel, if_neg hp, ih h]

theorem cancelBook_fresh (b : Ladder) (oid : OrderId) (pr : Option ℚ)
    (hne : ∀ pq ∈ b, pq.2 ≠ [])
    (hfresh : oid ∉ ladderRefs b) :
    cancelBook b oid pr = b := by
  rcases pr with _ | price
  · rfl
  · rcases hfl : findLevel b price with _ | q
    · simp only [cancelBook, hfl]
    · simp only [cancelBook, hfl]
      have hq : q.filter (fun e => ¬ e.1 = oid) = q := by
        rw [List.filter_eq_self]
        intro e he
        simp only [decide_eq_true_eq]
        intro heq
        exact hfresh (heq ▸ mem_ladderRefs b (price, q) e (findLevel_mem b price q hfl) he)
      rw [hq]
      have hqne : q ≠ [] := hne (price, q) (findLevel_mem b price q hfl)
      rw [if_neg (by simp only [List.isEmpty_iff]; exact hqne)]
      exact setLevel_self b price q hfl

/-- Canceling an order that is indexed with a non-resting, non-terminal
status in a reachable book (a `rejected` order, in particular) succeeds and
changes only that order's index record: since the order sits in no queue,
the level walk of `cancel_order` is the identity on both sides. -/
theorem cancel_rejected_eq (timeSrc : ℕ → ℚ) (lob : LimitOrderBook) (oid : OrderId)
    (o : Order) (hr : Reachable timeSrc lob)
    (ho : findOrder lob.orders oid = some o)
    (hrej : o.status = OStatus.rejected) :
    cancel_order lob oid = (true, { lob with
      orders := setOrder lob.orders oid { o with status := OStatus.canceled } }) := by
  obtain ⟨h1, h2, h3, h4, h5, h6, h7, h8⟩ := Inv_reachable timeSrc lob hr
  have hne := NoEmpty_reachable timeSrc lob hr
  have hst : ¬ (o.status = OStatus.filled ∨ o.status = OStatus.canceled) := by
    simp [hrej]
  have hnr : ¬ restingStatus o := by
    simp [restingStatus, hrej]
  have hfresh : oid ∉ allRefs lob := fun hmem => hnr ((h6 oid o ho).mpr hmem)
  rcases hs : o.side with _ | _
  · rw [cancel_order_buy_eq lob oid o ho hst hs]
    rw [cancelBook_fresh lob.bids oid o.price hne.1
      (fun hm => hfresh (List.mem_append.mpr (Or.inl hm)))]
    rw [hs]
  · rw [cancel_order_sell_eq lob oid o ho hst hs]
    rw [cancelBook_fresh lob.asks oid o.price hne.2
      (fun hm => hfresh (List.mem_append.mpr (Or.inr hm)))]
    rw [hs]

/-- C3 amended: `cancel_order` fails exactly for an unknown id or a status in
{`filled`, `canceled`} — a `rejected` order is *not* refused — and a failed
cancel returns the book completely unchanged; on any non-{filled, canceled}
status it reports success and marks the order `canceled`; in particular a
`rejected` order in a reachable book is canceled "successfully": the cancel
reports true, the bids, the asks and the fill history are all unchanged (a
rejected order rests in no queue) and only the order's index record moves to
`canceled`. -/
theorem C3_cancel_terminal_amended (timeSrc : ℕ → ℚ) (lob : LimitOrderBook) (oid : OrderId) :
    (findOrder lob.orders oid = none → cancel_order lob oid = (false, lob)) ∧
      (∀ o, findOrder lob.orders oid = some o →
        (o.status = OStatus.filled ∨ o.status = OStatus.canceled) →
        cancel_order lob oid = (false, lob)) ∧
      (∀ o, findOrder lob.orders oid = some o →
        ¬ (o.status = OStatus.filled ∨ o.status = OStatus.canceled) →
        (cancel_order lob oid).1 = true ∧
          (findOrder (cancel_order lob oid).2.orders oid).map Order.status
            = some OStatus.canceled) ∧
      (∀ o, Reachable timeSrc lob → findOrder lob.orders oid = some o →
        o.status = OStatus.rejected →
        (cancel_order lob oid).1 = true ∧
          (cancel_order lob oid).2.bids = lob.bids ∧
          (cancel_order lob oid).2.asks = lob.asks ∧
          (cancel_order lob oid).2.fills = lob.fills ∧
          (findOrder (cancel_order lob oid).2.orders oid).map Order.status
            = some OStatus.canceled) := by
  refine ⟨fun hn => ?_, fun o ho hterm => ?_, fun o ho hterm => ?_,
    fun o hr ho hrej => ?_⟩
  · simp [cancel_order, hn]
  · simp [cancel_order, ho, hterm]
  · constructor
    · simp [cancel_order, ho, hterm]
    · simp [cancel_order, ho, hterm]
  · rw [cancel_rejected_eq timeSrc lob oid o hr ho hrej]
    refine ⟨rfl, rfl, rfl, rfl, ?_⟩
    rw [findOrder_setOrder_self]
    rfl

/-- Witness for the amended C3 theorem: in the reachable book holding the
rejected market order of id 1, canceling that rejected order succeeds, leaves
bids, asks and fills unchanged, and marks the order canceled. -/
theorem C3_cancel_terminal_amended_witness :
    (findOrder rejectedMarketBook.orders 1).map Order.status = some OStatus.rejected ∧
      (cancel_order rejectedMarketBook 1).1 = true ∧
      (cancel_order rejectedMarketBook 1).2.bids = rejectedMarketBook.bids ∧
      (cancel_order rejectedMarketBook 1).2.asks = rejectedMarketBook.asks ∧
      (cancel_order rejectedMarketBook 1).2.fills = rejectedMarketBook.fills ∧
      (findOrder (cancel_order rejectedMarketBook 1).2.orders 1).map Order.status
        = some OStatus.canceled :=
  ⟨by decide,
   (C3_cancel_terminal_amended stepClock rejectedMarketBook 1).2.2.2
     { order_id := 1, client_id := 1, side := Side.buy, type := OKind.market, price := none, size := 5, remaining_size := 5, timestamp := 0, status := OStatus.rejected }
     reachable_rejectedMarketBook (by decide) (by decide)⟩

/-! ## The unique queue entry of a resting order -/

theorem entriesFor_nil (b : Ladder) (id : OrderId) (h : id ∉ ladderRefs b) :
    entriesFor b id = [] := by
  induction b with
  | nil => rfl
  | cons pq rest ih =>
    simp only [ladderRefs, List.flatMap_cons, List.mem_append, not_or] at h
    obtain ⟨h1, h2⟩ := h
    have hfil : pq.2.filter (fun e => e.1 = id) = [] := by
      rw [List.filter_eq_nil_iff]
      intro e he
      simp only [decide_eq_true_eq]
      intro hh
      exact h1 (hh ▸ List.mem_map_of_mem Prod.fst he)
    have hcons : entriesFor (pq :: rest) id
        = ((pq.2.filter fun e => e.1 = id).map fun e => (pq.1, e.2))
          ++ entriesFor rest id := rfl
    rw [hcons, hfil, ih h2]
    rfl

theorem level_unique (q : Level) (id : OrderId) (hnd : (queueIds q).Nodup)
    (hin : id ∈ queueIds q) :
    ∃ sz, q.filter (fun e => e.1 = id) = [(id, sz)] ∧ (id, sz) ∈ q := by
  induction q with
  | nil => simp [queueIds] at hin
  | cons e rest ih =>
    simp only [queueIds, List.map_cons, List.nodup_cons] at hnd
    obtain ⟨hnotin, hnd'⟩ := hnd
    by_cases he : e.1 = id
    · rcases e with ⟨e1, e2⟩
      simp only at he hnotin
      subst he
      have hfil : rest.filter (fun e => e.1 = e1) = [] := by
        rw [List.filter_eq_nil_iff]
        intro e' he'
        simp only [decide_eq_true_eq]
        intro hh
        exact hnotin (hh ▸ List.mem_map_of_mem Prod.fst he')
      refine ⟨e2, ?_, List.mem_cons_self _ _⟩
      rw [List.filter_cons, if_pos (by simp), hfil]
    · have hin' : id ∈ queueIds rest := by
        simp only [queueIds, List.map_cons, List.mem_cons] at hin
        rcases hin with h | h
        · exact absurd h.symm he
        · exact h
      obtain ⟨sz, hfil, hmem⟩ := ih hnd' hin'
      refine ⟨sz, ?_, List.mem_cons_of_mem _ hmem⟩
      rw [List.filter_cons, if_neg (by simp [he]), hfil]

theorem entriesFor_singleton (orders : List (OrderId × Order)) (bs : Side) (b : Ladder)
    (id : OrderId) (o : Order)
    (hOK : ladderOK orders bs b) (hnd : (ladderRefs b).Nodup)
    (hin : id ∈ ladderRefs b) (hfind : findOrder orders id = some o) :
    ∃ p, o.price = some p ∧ o.side = bs ∧
      entriesFor b id = [(p, o.remaining_size)] := by
  induction b with
  | nil => simp [ladderRefs] at hin
  | cons pq rest ih =>
    rcases pq with ⟨p0, q0⟩
    simp only [ladderRefs, List.flatMap_cons] at hnd hin
    have hndq : (q0.map Prod.fst).Nodup := hnd.sublist (List.sublist_append_left _ _)
    have hndr : (ladderRefs rest).Nodup := hnd.sublist (List.sublist_append_right _ _)
    have hdisj := List.disjoint_of_nodup_append hnd
    by_cases hinq : id ∈ queueIds q0
    · have hnotrest : id ∉ ladderRefs rest := fun h => hdisj hinq h
      obtain ⟨sz, hfil, hmem⟩ := level_unique q0 id hndq hinq
      obtain ⟨o', ho', hside, _, hprice, hrem, _, _⟩ :=
        hOK (p0, q0) (List.mem_cons_self _ _) (id, sz) hmem
      rw [hfind] at ho'
      cases ho'
      refine ⟨p0, hprice, hside, ?_⟩
      have hcons : entriesFor ((p0, q0) :: rest) id
          = ((q0.filter fun e => e.1 = id).map fun e => (p0, e.2))
            ++ entriesFor rest id := rfl
      rw [hcons, hfil, entriesFor_nil rest id hnotrest, hrem]
      rfl
    · have hinr : id ∈ ladderRefs rest := by
        rcases List.mem_append.mp hin with h | h
        · exact absurd h hinq
        · exact h
      have hfil : q0.filter (fun e => e.1 = id) = [] := by
        rw [List.filter_eq_nil_iff]
        intro e he
        simp only [decide_eq_true_eq]
        intro hh
        exact hinq (hh ▸ List.mem_map_of_mem Prod.fst he)
      obtain ⟨p, hp, hs, hE⟩ := ih
        (fun pq hpq e he => hOK pq (List.mem_cons_of_mem _ hpq) e he) hndr hinr
      refine ⟨p, hp, hs, ?_⟩
      have hcons : entriesFor ((p0, q0) :: rest) id
          = ((q0.filter fun e => e.1 = id).map fun e => (p0, e.2))
            ++ entriesFor rest id := rfl
      rw [hcons, hfil, hE]
      rfl

theorem refsFor_singleton (lob : LimitOrderBook) (id : OrderId) (o : Order)
    (hInv : Inv lob) (hfind : findOrder lob.orders id = some o)
    (hrest : restingStatus o) :
    ∃ p, o.price = some p ∧ refsFor lob id = [(o.side, p, o.remaining_size)] := by
  obtain ⟨h1, h2, h3, _, _, h6, _, _⟩ := hInv
  have hin : id ∈ allRefs lob := (h6 id o hfind).mp hrest
  have hdisj := List.disjoint_of_nodup_append h3
  have hndb : (ladderRefs lob.bids).Nodup := h3.sublist (List.sublist_append_left _ _)
  have hnda : (ladderRefs lob.asks).Nodup := h3.sublist (List.sublist_append_right _ _)
  rcases List.mem_append.mp hin with hb | ha
  · have hna : id ∉ ladderRefs lob.asks := fun h => hdisj hb h
    obtain ⟨p, hp, hs, hE⟩ := entriesFor_singleton lob.orders Side.buy lob.bids id o
      h1 hndb hb hfind
    refine ⟨p, hp, ?_⟩
    rw [refsFor, hE, entriesFor_nil lob.asks id hna, hs]
    rfl
  · have hnb : id ∉ ladderRefs lob.bids := fun h => hdisj h ha
    obtain ⟨p, hp, hs, hE⟩ := entriesFor_singleton lob.orders Side.sell lob.asks id o
      h2 hnda ha hfind
    refine ⟨p, hp, ?_⟩
    rw [refsFor, hE, entriesFor_nil lob.bids id hnb, hs]
    rfl

theorem refsFor_nil (lob : LimitOrderBook) (id : OrderId) (o : Order)
    (hInv : Inv lob) (hfind : findOrder lob.orders id = some o)
    (hnrest : ¬ restingStatus o) :
    refsFor lob id = [] := by
  obtain ⟨_, _, _, _, _, h6, _, _⟩ := hInv
  have hnin : id ∉ allRefs lob := fun h => hnrest ((h6 id o hfind).mpr h)
  simp only [allRefs, List.mem_append, not_or] at hnin
  rw [refsFor, entriesFor_nil lob.bids id hnin.1, entriesFor_nil lob.asks id hnin.2]
  rfl

/-! ## C6 — the resting-order bookkeeping invariant, amended -/

/-- C6 (amended): after every operation (the book being reachable by
submissions and cancels from an empty book), an indexed order with status
`active`, or `partially_filled` with type `limit`, is referenced by exactly
one queue entry, at its limit price on its own side, with cached size equal
to its `remaining_size`; every other indexed order — in particular a
partially filled *market* order, which keeps status `partially_filled` but
never rests — has no queue entry at all. -/
theorem C6_resting_invariant_amended (timeSrc : ℕ → ℚ) (lob : LimitOrderBook)
    (hr : Reachable timeSrc lob) (id : OrderId) (o : Order)
    (ho : findOrder lob.orders id = some o) :
    (restingStatus o →
      ∃ p, o.price = some p ∧ refsFor lob id = [(o.side, p, o.remaining_size)]) ∧
    (¬ restingStatus o → refsFor lob id = []) ∧
    (o.status = OStatus.partially_filled → o.type = OKind.market →
      refsFor lob id = []) := by
  have hInv := Inv_reachable timeSrc lob hr
  refine ⟨fun hrest => refsFor_singleton lob id o hInv ho hrest,
    fun hnr => refsFor_nil lob id o hInv ho hnr,
    fun h1 h2 => refsFor_nil lob id o hInv ho ?_⟩
  rintro (hra | ⟨_, htl⟩)
  · rw [h1] at hra
    cases hra
  · rw [h2] at htl
    cases htl

/-- Witness for C6: in the reachable book where market order 2 partially
filled against the lone ask, order 1 rests with its single entry and order 2
(partially filled, market) has no entry. -/
theorem C6_resting_invariant_amended_witness :
    (restingStatus { order_id := 2, client_id := 2, side := Side.buy, type := OKind.market, price := none, size := 2, remaining_size := 1, timestamp := 0, status := OStatus.partially_filled } →
      ∃ p, ({ order_id := 2, client_id := 2, side := Side.buy, type := OKind.market, price := none, size := 2, remaining_size := 1, timestamp := 0, status := OStatus.partially_filled } : Order).price = some p ∧
        refsFor partialMarketBook 2 = [(Side.buy, p, 1)]) ∧
    (¬ restingStatus { order_id := 2, client_id := 2, side := Side.buy, type := OKind.market, price := none, size := 2, remaining_size := 1, timestamp := 0, status := OStatus.partially_filled } →
      refsFor partialMarketBook 2 = []) ∧
    (OStatus.partially_filled = OStatus.partially_filled →
      OKind.market = OKind.market → refsFor partialMarketBook 2 = []) :=
  C6_resting_invariant_amended stepClock partialMarketBook
    reachable_partialMarketBook 2
    { order_id := 2, client_id := 2, side := Side.buy, type := OKind.market, price := none, size := 2, remaining_size := 1, timestamp := 0, status := OStatus.partially_filled }
    (by decide)

/-! ## C9 — fill-size conservation -/

/-- C9: in every reachable book, for every indexed order, the total size of
the fills recorded under its id equals `size - remaining_size`, and
`0 ≤ remaining_size ≤ size`. -/
theorem C9_fill_conservation (timeSrc : ℕ → ℚ) (lob : LimitOrderBook)
    (hr : Reachable timeSrc lob) (id : OrderId) (o : Order)
    (ho : findOrder lob.orders id = some o) :
    fillSum lob.fills id = o.size - o.remaining_size ∧
      0 ≤ o.remaining_size ∧ o.remaining_size ≤ o.size :=
  (Inv_reachable timeSrc lob hr).2.2.2.2.2.2.1 id o ho

/-- Witness for C9: the filled maker order 1 of the partial-market scenario
accounts for its one traded share. -/
theorem C9_fill_conservation_witness :
    fillSum partialMarketBook.fills 1 = (1 : ℤ) - 0 ∧
      (0 : ℤ) ≤ 0 ∧ (0 : ℤ) ≤ 1 :=
  C9_fill_conservation stepClock partialMarketBook reachable_partialMarketBook 1
    { order_id := 1, client_id := 1, side := Side.sell, type := OKind.limit, price := some 10, size := 1, remaining_size := 0, timestamp := 0, status := OStatus.filled }
    (by decide)

/-! ## C5 — market-order edge cases -/

/-- C5: a market order hitting an empty opposite side is rejected, returns no
fills and leaves the ladders, the fill history and the rest of the book
unchanged (only the order index gains the rejected order); and whenever the
submitted market order ends up indexed as `partially_filled`, its residual
`remaining_size` is positive and its id is referenced by no queue entry — the
residual never rests. -/
theorem C5_market_order_edge_cases (timeSrc : ℕ → ℚ) (lob : LimitOrderBook) (o : Order)
    (hr : Reachable timeSrc lob) (hwf : WFSubmit lob o) (hty : o.type = OKind.market) :
    ((if o.side = Side.buy then lob.asks else lob.bids) = [] →
      (add_order timeSrc lob o).1 = [] ∧
      (add_order timeSrc lob o).2.bids = lob.bids ∧
      (add_order timeSrc lob o).2.asks = lob.asks ∧
      (add_order timeSrc lob o).2.fills = lob.fills ∧
      findOrder (add_order timeSrc lob o).2.orders o.order_id
        = some { o with remaining_size := o.size, status := OStatus.rejected }) ∧
    (∀ o', findOrder (add_order timeSrc lob o).2.orders o.order_id = some o' →
      o'.status = OStatus.partially_filled →
      0 < o'.remaining_size ∧ o.order_id ∉ allRefs (add_order timeSrc lob o).2) := by
  obtain ⟨hnone, hfreshA, hpos, hlim, hpend⟩ := hwf
  have hInv := Inv_reachable timeSrc lob hr
  have hacc0 : fillSum lob.fills o.order_id = 0 :=
    hInv.2.2.2.2.2.2.2 o.order_id hnone
  have hInv1 : Inv (indexed lob o) :=
    Inv_indexed lob o hInv hnone hfreshA hpend (le_of_lt hpos)
  rw [add_order_market_eq timeSrc lob o hty]
  dsimp only
  constructor
  · intro hemp
    have hemp1 : (if (submitted o).side = Side.buy then (indexed lob o).asks
        else (indexed lob o).bids) = [] := hemp
    rw [match_market_order_empty timeSrc (indexed lob o) (submitted o) hemp1]
    dsimp only
    refine ⟨rfl, rfl, rfl, rfl, ?_⟩
    have hres : findOrder (setOrder (indexed lob o).orders o.order_id
        { submitted o with status := OStatus.rejected }) o.order_id
        = some { submitted o with status := OStatus.rejected } :=
      findOrder_setOrder_self _ _ _
    exact hres
  · intro o' ho' hpf
    by_cases hemp : (if o.side = Side.buy then lob.asks else lob.bids) = []
    · have hemp1 : (if (submitted o).side = Side.buy then (indexed lob o).asks
          else (indexed lob o).bids) = [] := hemp
      rw [match_market_order_empty timeSrc (indexed lob o) (submitted o) hemp1] at ho'
      have ho2 : findOrder (setOrder (indexed lob o).orders o.order_id
          { submitted o with status := OStatus.rejected }) o.order_id
          = some o' := ho'
      rw [findOrder_setOrder_self] at ho2
      cases ho2
      have : OStatus.rejected = OStatus.partially_filled := hpf
      cases this
    · cases hside : o.side
      · have hne : lob.asks ≠ [] := by
          intro h
          refine hemp ?_
          rw [hside]
          simp only [eq_self_iff_true, if_true, ite_true]
          exact h
        have hside1 : (submitted o).side = Side.buy := hside
        have hne1 : (indexed lob o).asks ≠ [] := hne
        obtain ⟨hAt, hnm, hid3⟩ := mmo_written_buy timeSrc (indexed lob o) (submitted o)
          hInv1 hfreshA rfl (le_of_lt hpos) hacc0 hside1 hne1
        have hid3' : (match_market_order timeSrc (indexed lob o)
            (submitted o)).2.2.order_id = o.order_id := hid3
        have ho2 : findOrder (setOrder
            (match_market_order timeSrc (indexed lob o) (submitted o)).2.1.orders
            (match_market_order timeSrc (indexed lob o) (submitted o)).2.2.order_id
            (match_market_order timeSrc (indexed lob o) (submitted o)).2.2) o.order_id
            = some o' := ho'
        rw [hid3', findOrder_setOrder_self] at ho2
        cases ho2
        have hfindT : findOrder (setOrder
            (match_market_order timeSrc (indexed lob o) (submitted o)).2.1.orders
            (match_market_order timeSrc (indexed lob o) (submitted o)).2.2.order_id
            (match_market_order timeSrc (indexed lob o) (submitted o)).2.2) o.order_id
            = some (match_market_order timeSrc (indexed lob o) (submitted o)).2.2 := by
          rw [hid3']
          exact findOrder_setOrder_self _ _ _
        obtain ⟨_, hb1, _⟩ := hAt.2.2.2.2.2.2.1 o.order_id _ hfindT
        have hstat := match_market_order_status timeSrc (indexed lob o) (submitted o)
          (by
            intro hh
            have hh2 : lob.asks = [] := by
              have hs2 : (submitted o).side = Side.buy := hside
              rw [if_pos hs2] at hh
              exact hh
            exact hne hh2)
        refine ⟨?_, fun hm => hnm hm⟩
        rw [hstat] at hpf
        by_cases hz : (match_market_order timeSrc (indexed lob o)
            (submitted o)).2.2.remaining_size = 0
        · rw [if_pos hz] at hpf
          cases hpf
        · omega
      · have hne : lob.bids ≠ [] := by
          intro h
          refine hemp ?_
          rw [hside]
          simp only [reduceCtorEq, if_false, ite_false]
          exact h
        have hside1 : (submitted o).side = Side.sell := hside
        have hne1 : (indexed lob o).bids ≠ [] := hne
        obtain ⟨hAt, hnm, hid3⟩ := mmo_written_sell timeSrc (indexed lob o) (submitted o)
          hInv1 hfreshA rfl (le_of_lt hpos) hacc0 hside1 hne1
        have hid3' : (match_market_order timeSrc (indexed lob o)
            (submitted o)).2.2.order_id = o.order_id := hid3
        have ho2 : findOrder (setOrder
            (match_market_order timeSrc (indexed lob o) (submitted o)).2.1.orders
            (match_market_order timeSrc (indexed lob o) (submitted o)).2.2.order_id
            (match_market_order timeSrc (indexed lob o) (submitted o)).2.2) o.order_id
            = some o' := ho'
        rw [hid3', findOrder_setOrder_self] at ho2
        cases ho2
        have hfindT : findOrder (setOrder
            (match_market_order timeSrc (indexed lob o) (submitted o)).2.1.orders
            (match_market_order timeSrc (indexed lob o) (submitted o)).2.2.order_id
            (match_market_order timeSrc (indexed lob o) (submitted o)).2.2) o.order_id
            = some (match_market_order timeSrc (indexed lob o) (submitted o)).2.2 := by
          rw [hid3']
          exact findOrder_setOrder_self _ _ _
        obtain ⟨_, hb1, _⟩ := hAt.2.2.2.2.2.2.1 o.order_id _ hfindT
        have hstat := match_market_order_status timeSrc (indexed lob o) (submitted o)
          (by
            intro hh
            have hh2 : lob.bids = [] := by
              have hs2 : (submitted o).side = Side.sell := hside
              rw [hs2] at hh
              simp only [reduceCtorEq, if_false, ite_false] at hh
              exact hh
            exact hne hh2)
        refine ⟨?_, fun hm => hnm hm⟩
        rw [hstat] at hpf
        by_cases hz : (match_market_order timeSrc (indexed lob o)
            (submitted o)).2.2.remaining_size = 0
        · rw [if_pos hz] at hpf
          cases hpf
        · omega

/-- Witness for C5: a market buy for 5 into the empty book is rejected with
no fills and an unchanged book, and the vacuous partial-fill clause holds. -/
theorem C5_market_order_edge_cases_witness :
    ((if (marketOrder 1 1 Side.buy 5).side = Side.buy then book0.asks else book0.bids)
        = [] →
      (add_order stepClock book0 (marketOrder 1 1 Side.buy 5)).1 = [] ∧
      (add_order stepClock book0 (marketOrder 1 1 Side.buy 5)).2.bids = book0.bids ∧
      (add_order stepClock book0 (marketOrder 1 1 Side.buy 5)).2.asks = book0.asks ∧
      (add_order stepClock book0 (marketOrder 1 1 Side.buy 5)).2.fills = book0.fills ∧
      findOrder (add_order stepClock book0 (marketOrder 1 1 Side.buy 5)).2.orders
          (marketOrder 1 1 Side.buy 5).order_id
        = some { marketOrder 1 1 Side.buy 5 with
            remaining_size := (marketOrder 1 1 Side.buy 5).size,
            status := OStatus.rejected }) ∧
    (∀ o', findOrder (add_order stepClock book0 (marketOrder 1 1 Side.buy 5)).2.orders
          (marketOrder 1 1 Side.buy 5).order_id = some o' →
      o'.status = OStatus.partially_filled →
      0 < o'.remaining_size ∧
        (marketOrder 1 1 Side.buy 5).order_id
          ∉ allRefs (add_order stepClock book0 (marketOrder 1 1 Side.buy 5)).2) :=
  C5_market_order_edge_cases stepClock book0 (marketOrder 1 1 Side.buy 5)
    (Reachable.init 1 one_pos) (by decide) rfl

/-! ## The pair structure of emitted fills -/

/-- The opposite side. -/
def Side.opp : Side → Side
  | Side.buy => Side.sell
  | Side.sell => Side.buy

theorem mmo_pairs_buy (timeSrc : ℕ → ℚ) (lob : LimitOrderBook) (order : Order)
    (hOK : ladderOK lob.orders Side.sell lob.asks)
    (hnd : (ladderRefs lob.asks).Nodup)
    (htk : order.order_id ∉ ladderRefs lob.asks)
    (hs : order.side = Side.buy) :
    ∃ ps : List (Fill × Fill),
      (match_market_order timeSrc lob order).1 = ps.map Prod.fst ∧
      (match_market_order timeSrc lob order).2.1.fills
        = lob.fills ++ ps.flatMap (fun pr => [pr.1, pr.2]) ∧
      ∀ pr ∈ ps, pr.1.order_id = order.order_id ∧ pr.1.client_id = order.client_id ∧
        pr.1.side = order.side ∧ pr.2.side = Side.sell ∧
        pr.1.price = pr.2.price ∧ pr.1.size = pr.2.size ∧ 0 < pr.1.size ∧
        ∃ k, pr.1.timestamp = timeSrc k ∧ pr.2.timestamp = timeSrc (k + 1) := by
  by_cases hemp : lob.asks = []
  · rw [match_market_order_empty timeSrc lob order
      (by rw [hs, if_pos rfl]; exact hemp)]
    exact ⟨[], rfl, by simp, by simp⟩
  · rw [match_market_order_buy_eq timeSrc lob order hs hemp]
    dsimp only
    obtain ⟨_, _, _, ps, k1, k2, k3⟩ := matchPrices_invariant timeSrc Side.sell
      (sortAsc (ladderKeys lob.asks)) (initCtx lob order) lob.asks hOK hnd htk
    rw [initCtx_rfills, List.nil_append] at k1
    rw [initCtx_gfills, List.nil_append] at k2
    refine ⟨ps, k1, by rw [k2], ?_⟩
    intro pr hpr
    obtain ⟨p1, p2, p3, p4, p5, p6, p7, _, p9⟩ := k3 pr hpr
    exact ⟨p1, p2, p3, p7, p4, p5, p6, p9⟩

theorem mmo_pairs_sell (timeSrc : ℕ → ℚ) (lob : LimitOrderBook) (order : Order)
    (hOK : ladderOK lob.orders Side.buy lob.bids)
    (hnd : (ladderRefs lob.bids).Nodup)
    (htk : order.order_id ∉ ladderRefs lob.bids)
    (hs : order.side = Side.sell) :
    ∃ ps : List (Fill × Fill),
      (match_market_order timeSrc lob order).1 = ps.map Prod.fst ∧
      (match_market_order timeSrc lob order).2.1.fills
        = lob.fills ++ ps.flatMap (fun pr => [pr.1, pr.2]) ∧
      ∀ pr ∈ ps, pr.1.order_id = order.order_id ∧ pr.1.client_id = order.client_id ∧
        pr.1.side = order.side ∧ pr.2.side = Side.buy ∧
        pr.1.price = pr.2.price ∧ pr.1.size = pr.2.size ∧ 0 < pr.1.size ∧
        ∃ k, pr.1.timestamp = timeSrc k ∧ pr.2.timestamp = timeSrc (k + 1) := by
  by_cases hemp : lob.bids = []
  · rw [match_market_order_empty timeSrc lob order
      (by rw [hs]; simp only [reduceCtorEq, if_false, ite_false]; exact hemp)]
    exact ⟨[], rfl, by simp, by simp⟩
  · rw [match_market_order_sell_eq timeSrc lob order hs hemp]
    dsimp only
    obtain ⟨_, _, _, ps, k1, k2, k3⟩ := matchPrices_invariant timeSrc Side.buy
      (sortAsc (ladderKeys lob.bids)).reverse (initCtx lob order) lob.bids hOK hnd htk
    rw [initCtx_rfills, List.nil_append] at k1
    rw [initCtx_gfills, List.nil_append] at k2
    refine ⟨ps, k1, by rw [k2], ?_⟩
    intro pr hpr
    obtain ⟨p1, p2, p3, p4, p5, p6, p7, _, p9⟩ := k3 pr hpr
    exact ⟨p1, p2, p3, p7, p4, p5, p6, p9⟩

theorem add_order_pairs (timeSrc : ℕ → ℚ) (lob : LimitOrderBook) (o : Order)
    (hInv : Inv lob) (hwf : WFSubmit lob o) :
    ∃ ps : List (Fill × Fill),
      (add_order timeSrc lob o).1 = ps.map Prod.fst ∧
      (add_order timeSrc lob o).2.fills
        = lob.fills ++ ps.flatMap (fun pr => [pr.1, pr.2]) ∧
      ∀ pr ∈ ps, pr.1.order_id = o.order_id ∧ pr.1.client_id = o.client_id ∧
        pr.1.side = o.side ∧ pr.2.side = Side.opp pr.1.side ∧
        pr.1.price = pr.2.price ∧ pr.1.size = pr.2.size ∧ 0 < pr.1.size ∧
        ∃ k, pr.1.timestamp = timeSrc k ∧ pr.2.timestamp = timeSrc (k + 1) := by
  obtain ⟨hnone, hfreshA, hpos, hlim, hpend⟩ := hwf
  have hInv1 : Inv (indexed lob o) :=
    Inv_indexed lob o hInv hnone hfreshA hpend (le_of_lt hpos)
  have hndb : (ladderRefs lob.bids).Nodup :=
    hInv.2.2.1.sublist (List.sublist_append_left _ _)
  have hnda : (ladderRefs lob.asks).Nodup :=
    hInv.2.2.1.sublist (List.sublist_append_right _ _)
  have htkb : o.order_id ∉ ladderRefs lob.bids :=
    fun h => hfreshA (List.mem_append_left _ h)
  have htka : o.order_id ∉ ladderRefs lob.asks :=
    fun h => hfreshA (List.mem_append_right _ h)
  cases hty : o.type with
  | market =>
    rw [add_order_market_eq timeSrc lob o hty]
    dsimp only
    cases hside : o.side
    · have hside1 : (submitted o).side = Side.buy := hside
      obtain ⟨ps, e1, e2, e3⟩ := mmo_pairs_buy timeSrc (indexed lob o) (submitted o)
        hInv1.2.1 hnda htka hside1
      refine ⟨ps, e1, e2, ?_⟩
      intro pr hpr
      obtain ⟨p1, p2, p3, p4, p5, p6, p7, p9⟩ := e3 pr hpr
      have h1 : pr.1.side = Side.buy := p3.trans hside1
      refine ⟨p1, p2, h1, ?_, p5, p6, p7, p9⟩
      rw [h1]
      exact p4
    · have hside1 : (submitted o).side = Side.sell := hside
      obtain ⟨ps, e1, e2, e3⟩ := mmo_pairs_sell timeSrc (indexed lob o) (submitted o)
        hInv1.1 hndb htkb hside1
      refine ⟨ps, e1, e2, ?_⟩
      intro pr hpr
      obtain ⟨p1, p2, p3, p4, p5, p6, p7, p9⟩ := e3 pr hpr
      have h1 : pr.1.side = Side.sell := p3.trans hside1
      refine ⟨p1, p2, h1, ?_, p5, p6, p7, p9⟩
      rw [h1]
      exact p4
  | limit =>
    rcases hp : o.price with _ | p
    · have hs := hlim hty
      rw [hp] at hs
      simp at hs
    · rw [add_order_limit_eq timeSrc lob o p hty hp]
      dsimp only
      rw [add_limit_order]
      dsimp only [indexed, submitted]
      by_cases hside : o.side = Side.buy
      · simp only [eq_true hside, if_true, ite_true]
        by_cases hemp : lob.asks = []
        · have he : (List.isEmpty lob.asks = true) = True := by rw [hemp]; simp
          simp only [he, if_true, ite_true, eq_true hpos, eq_true hpend]
          exact ⟨[], rfl, by simp, by simp⟩
        · have he : (List.isEmpty lob.asks = true) = False := by
            simp [List.isEmpty_iff, hemp]
          simp only [he, if_false, ite_false]
          obtain ⟨bo, hmk⟩ : ∃ bo, minKey lob.asks = some bo := by
            cases hb : lob.asks with
            | nil => exact absurd hb hemp
            | cons a as => exact ⟨_, rfl⟩
          rw [hmk]
          by_cases hcross : bo ≤ round_price lob.tick_size p
          · simp only [eq_true hcross, if_true, ite_true]
            have hside2 : ({ submitted o with
                price := some (round_price lob.tick_size p) } : Order).side
                = Side.buy := hside
            obtain ⟨ps, e1, e2, e3⟩ := mmo_pairs_buy timeSrc (indexed lob o)
              { submitted o with price := some (round_price lob.tick_size p) }
              hInv1.2.1 hnda htka hside2
            have hall : ∀ pr ∈ ps, pr.1.order_id = o.order_id ∧
                pr.1.client_id = o.client_id ∧
                pr.1.side = o.side ∧ pr.2.side = Side.opp pr.1.side ∧
                pr.1.price = pr.2.price ∧ pr.1.size = pr.2.size ∧ 0 < pr.1.size ∧
                ∃ k, pr.1.timestamp = timeSrc k ∧
                  pr.2.timestamp = timeSrc (k + 1) := by
              intro pr hpr
              obtain ⟨p1, p2, p3, p4, p5, p6, p7, p9⟩ := e3 pr hpr
              have h1 : pr.1.side = Side.buy := p3.trans hside2
              refine ⟨p1, p2, p3, ?_, p5, p6, p7, p9⟩
              rw [h1]
              exact p4
            split
            · exact ⟨ps, e1, e2, hall⟩
            · exact ⟨ps, e1, e2, hall⟩
          · simp only [eq_false hcross, if_false, ite_false]
            simp only [eq_true hpos, eq_true hpend, if_true, ite_true]
            exact ⟨[], rfl, by simp, by simp⟩
      · have hsideS : o.side = Side.sell := by
          cases hs2 : o.side
          · exact absurd hs2 hside
          · rfl
        simp only [eq_false hside, if_false, ite_false]
        by_cases hemp : lob.bids = []
        · have he : (List.isEmpty lob.bids = true) = True := by rw [hemp]; simp
          simp only [he, if_true, ite_true, eq_true hpos, eq_true hpend]
          exact ⟨[], rfl, by simp, by simp⟩
        · have he : (List.isEmpty lob.bids = true) = False := by
            simp [List.isEmpty_iff, hemp]
          simp only [he, if_false, ite_false]
          obtain ⟨bo, hmk⟩ : ∃ bo, maxKey lob.bids = some bo := by
            cases hb : lob.bids with
            | nil => exact absurd hb hemp
            | cons a as => exact ⟨_, rfl⟩
          rw [hmk]
          by_cases hcross : round_price lob.tick_size p ≤ bo
          · simp only [eq_true hcross, if_true, ite_true]
            have hside2 : ({ submitted o with
                price := some (round_price lob.tick_size p) } : Order).side
                = Side.sell := hsideS
            obtain ⟨ps, e1, e2, e3⟩ := mmo_pairs_sell timeSrc (indexed lob o)
              { submitted o with price := some (round_price lob.tick_size p) }
              hInv1.1 hndb htkb hside2
            have hall : ∀ pr ∈ ps, pr.1.order_id = o.order_id ∧
                pr.1.client_id = o.client_id ∧
                pr.1.side = o.side ∧ pr.2.side = Side.opp pr.1.side ∧
                pr.1.price = pr.2.price ∧ pr.1.size = pr.2.size ∧ 0 < pr.1.size ∧
                ∃ k, pr.1.timestamp = timeSrc k ∧
                  pr.2.timestamp = timeSrc (k + 1) := by
              intro pr hpr
              obtain ⟨p1, p2, p3, p4, p5, p6, p7, p9⟩ := e3 pr hpr
              have h1 : pr.1.side = Side.sell := p3.trans hside2
              refine ⟨p1, p2, p3, ?_, p5, p6, p7, p9⟩
              rw [h1]
              exact p4
            split
            · exact ⟨ps, e1, e2, hall⟩
            · exact ⟨ps, e1, e2, hall⟩
          · simp only [eq_false hcross, if_false, ite_false]
            simp only [eq_true hpos, eq_true hpend, if_true, ite_true]
            exact ⟨[], rfl, by simp, by simp⟩

/-! ## C2 — the shape of the returned fill list, amended -/

/-- C2 (amended): `add_order` returns one fill per match — the taker's fill
only — so the returned list's length equals the number of matches (odd
lengths occur); the two per-match fills are appended to the book's global
fill history as consecutive pairs, taker's fill first, sharing price and
size. -/
theorem C2_returned_fills_amended (timeSrc : ℕ → ℚ) (lob : LimitOrderBook) (o : Order)
    (hr : Reachable timeSrc lob) (hwf : WFSubmit lob o) :
    ∃ ps : List (Fill × Fill),
      (add_order timeSrc lob o).1 = ps.map Prod.fst ∧
      (add_order timeSrc lob o).2.fills
        = lob.fills ++ ps.flatMap (fun pr => [pr.1, pr.2]) ∧
      (add_order timeSrc lob o).1.length = ps.length ∧
      ∀ pr ∈ ps, pr.1.order_id = o.order_id ∧
        pr.1.price = pr.2.price ∧ pr.1.size = pr.2.size := by
  obtain ⟨ps, e1, e2, e3⟩ :=
    add_order_pairs timeSrc lob o (Inv_reachable timeSrc lob hr) hwf
  exact ⟨ps, e1, e2, by rw [e1, List.length_map],
    fun pr hpr => ⟨(e3 pr hpr).1, (e3 pr hpr).2.2.2.2.1, (e3 pr hpr).2.2.2.2.2.1⟩⟩

/-- Witness for C2: the market buy for 2 against the one-ask book returns a
single (odd-length) fill list whose pair structure lands in the history. -/
theorem C2_returned_fills_amended_witness :
    ∃ ps : List (Fill × Fill),
      (add_order stepClock bookOneAsk (marketOrder 2 2 Side.buy 2)).1
        = ps.map Prod.fst ∧
      (add_order stepClock bookOneAsk (marketOrder 2 2 Side.buy 2)).2.fills
        = bookOneAsk.fills ++ ps.flatMap (fun pr => [pr.1, pr.2]) ∧
      (add_order stepClock bookOneAsk (marketOrder 2 2 Side.buy 2)).1.length
        = ps.length ∧
      ∀ pr ∈ ps, pr.1.order_id = (marketOrder 2 2 Side.buy 2).order_id ∧
        pr.1.price = pr.2.price ∧ pr.1.size = pr.2.size :=
  C2_returned_fills_amended stepClock bookOneAsk (marketOrder 2 2 Side.buy 2)
    reachable_bookOneAsk (by decide)

/-! ## C7 — the per-match fill pair, amended -/

/-- C7 (amended): every match step appends exactly two fill records to the
fill history, sharing price and size, carrying opposite sides, taker's fill
first; their timestamps come from two *consecutive* wall-clock reads
(`timeSrc k` then `timeSrc (k+1)`), so they are equal only if the clock does
not advance between the two reads. -/
theorem C7_fill_pairs_amended (timeSrc : ℕ → ℚ) (lob : LimitOrderBook) (o : Order)
    (hr : Reachable timeSrc lob) (hwf : WFSubmit lob o) :
    ∃ ps : List (Fill × Fill),
      (add_order timeSrc lob o).2.fills
        = lob.fills ++ ps.flatMap (fun pr => [pr.1, pr.2]) ∧
      (add_order timeSrc lob o).1 = ps.map Prod.fst ∧
      ∀ pr ∈ ps, pr.1.order_id = o.order_id ∧ pr.1.side = o.side ∧
        pr.2.side = Side.opp pr.1.side ∧
        pr.1.price = pr.2.price ∧ pr.1.size = pr.2.size ∧ 0 < pr.1.size ∧
        ∃ k, pr.1.timestamp = timeSrc k ∧ pr.2.timestamp = timeSrc (k + 1) := by
  obtain ⟨ps, e1, e2, e3⟩ :=
    add_order_pairs timeSrc lob o (Inv_reachable timeSrc lob hr) hwf
  refine ⟨ps, e2, e1, fun pr hpr => ?_⟩
  obtain ⟨p1, _, p3, p4, p5, p6, p7, p9⟩ := e3 pr hpr
  exact ⟨p1, p3, p4, p5, p6, p7, p9⟩

/-- Witness for C7: the pair emitted by the partial market buy against the
one-ask book carries opposite sides and the two consecutive clock reads 0
and 1. -/
theorem C7_fill_pairs_amended_witness :
    ∃ ps : List (Fill × Fill),
      (add_order stepClock bookOneAsk (marketOrder 2 2 Side.buy 2)).2.fills
        = bookOneAsk.fills ++ ps.flatMap (fun pr => [pr.1, pr.2]) ∧
      (add_order stepClock bookOneAsk (marketOrder 2 2 Side.buy 2)).1
        = ps.map Prod.fst ∧
      ∀ pr ∈ ps, pr.1.order_id = (marketOrder 2 2 Side.buy 2).order_id ∧
        pr.1.side = (marketOrder 2 2 Side.buy 2).side ∧
        pr.2.side = Side.opp pr.1.side ∧
        pr.1.price = pr.2.price ∧ pr.1.size = pr.2.size ∧ 0 < pr.1.size ∧
        ∃ k, pr.1.timestamp = stepClock k ∧ pr.2.timestamp = stepClock (k + 1) :=
  C7_fill_pairs_amended stepClock bookOneAsk (marketOrder 2 2 Side.buy 2)
    reachable_bookOneAsk (by decide)

end LobModel
